import Mathlib

/-!
# logformat

A shallow embedding of `logformat.go`: the compact (one line) and expanded
(indented, one entry per line) renderings of a structured log record.

Conventions of the embedding.

* A Go `string` is a Lean `String`: a sequence of Unicode code points, that is,
  a string holding valid UTF-8. Go compares strings byte by byte; on valid
  UTF-8 that order is the code point order used here.
* A Go `map[string]interface{}` is an association list `List (String × Value)`.
  A Go map binds a key at most once, so the lists that stand for maps have
  pairwise distinct keys; the order of the list is the (unspecified) order in
  which Go would iterate the map. `m[k]` is `List.lookup`.
* A call that makes the Go program stop with a run-time error (calling the nil
  function that a map of functions yields for a missing key) gives `none`;
  a call that returns gives `some` of the returned string.
* The functions of the Go standard library that the program calls
  (`strconv.Quote`, `strconv.FormatFloat`, `strings.TrimSpace`,
  `time.Time.Format`, ...) are modelled from their documented behaviour, in the
  first sections below.
-/

namespace Logformat

/-! ## Go strings -/

/-- Lexicographic `<` on code point sequences: Go's `<` on strings. -/
def lexLess : List Char → List Char → Bool
  | _, [] => false
  | [], _ :: _ => true
  | a :: as, b :: bs =>
    if a.toNat < b.toNat then true
    else if b.toNat < a.toNat then false
    else lexLess as bs

/-- Go's `a < b` on strings. -/
def strLess (a b : String) : Bool := lexLess a.data b.data

/-- Insertion of a string into an ascending list, before the first element
that is greater. -/
def insertString (k : String) : List String → List String
  | [] => [k]
  | x :: xs => if strLess k x then k :: x :: xs else x :: insertString k xs

/-- Go's `sort.Strings`: the list in ascending order. (The result of sorting
strings does not depend on the algorithm; insertion sort is used here.) -/
def sortStrings : List String → List String
  | [] => []
  | x :: xs => insertString x (sortStrings xs)

/-- Go's `strings.ContainsAny(s, chars)`. -/
def containsAny (s chars : String) : Bool :=
  s.data.any (fun ch => chars.data.contains ch)

/-- Go's `unicode.IsSpace`: the code points with the Unicode property
White_Space. -/
def isSpace (r : Char) : Bool :=
  let n := r.toNat
  (9 ≤ n ∧ n ≤ 13) ∨ n = 0x20 ∨ n = 0x85 ∨ n = 0xA0 ∨ n = 0x1680 ∨
    (0x2000 ≤ n ∧ n ≤ 0x200A) ∨ n = 0x2028 ∨ n = 0x2029 ∨ n = 0x202F ∨
    n = 0x205F ∨ n = 0x3000

/-- Go's `strings.TrimSpace`: the string without its leading and trailing
white space. -/
def trimSpace (s : String) : String :=
  String.mk ((s.data.dropWhile isSpace).reverse.dropWhile isSpace).reverse

/-! ## strconv.Quote -/

/-- The double quote character. -/
def dquote : Char := Char.ofNat 34

/-- The backslash character. -/
def backslash : Char := Char.ofNat 92

/-- Go's `strconv.IsPrint`. Up to U+00FF the answer is computed as Go does;
above, Go searches the tables of the Unicode version it was built with, which
are the argument `wide`. -/
def isPrint (wide : Char → Bool) (r : Char) : Bool :=
  let n := r.toNat
  if n ≤ 0xFF then
    if 0x20 ≤ n ∧ n ≤ 0x7E then true
    else if 0xA1 ≤ n ∧ n ≤ 0xFF then n != 0xAD
    else false
  else wide r

/-- The hexadecimal digit of `n % 16`, in lower case. -/
def lowerhex (n : Nat) : Char := Nat.digitChar (n % 16)

/-- The default case of the switch of `appendEscapedRune`: the escape of a
code point `n` in hexadecimal, `\x` with two digits for control characters,
`\u` with four digits below U+10000 and `\U` with eight digits above. -/
def hexEscape (n : Nat) : List Char :=
  if n < 0x20 ∨ n = 0x7F then [backslash, 'x', lowerhex (n / 16), lowerhex n]
  else if n < 0x10000 then
    [backslash, 'u', lowerhex (n / 4096), lowerhex (n / 256), lowerhex (n / 16), lowerhex n]
  else
    [backslash, 'U', lowerhex (n / 268435456), lowerhex (n / 16777216),
      lowerhex (n / 1048576), lowerhex (n / 65536), lowerhex (n / 4096),
      lowerhex (n / 256), lowerhex (n / 16), lowerhex n]

/-- The switch of `appendEscapedRune` on a code point that is not printable:
the escapes with a letter, the hexadecimal escape otherwise. -/
def escapeCode : Nat → List Char
  | 7 => [backslash, 'a']
  | 8 => [backslash, 'b']
  | 12 => [backslash, 'f']
  | 10 => [backslash, 'n']
  | 13 => [backslash, 'r']
  | 9 => [backslash, 't']
  | 11 => [backslash, 'v']
  | n => hexEscape n

/-- Go's `appendEscapedRune` of `strconv`, for the quote character `"` and
neither ASCII-only nor graphic-only: the text that stands for one code point
inside a quoted string. -/
def escapedRune (wide : Char → Bool) (r : Char) : List Char :=
  if r = dquote ∨ r = backslash then [backslash, r]
  else if isPrint wide r then [r]
  else escapeCode r.toNat

/-- Go's `strconv.Quote`: the double-quoted Go string literal for `s`, with
backslash escapes for the quote, the backslash and the code points that are
not printable. -/
def quote (wide : Char → Bool) (s : String) : String :=
  String.mk (dquote :: (s.data.flatMap (escapedRune wide) ++ [dquote]))

/-! ## strconv.FormatFloat(v, 'f', -1, 64)

The shortest decimal that reads back as the same `float64`, printed without
exponent. The model follows the reference path of `strconv` (`bigFtoa`,
`roundShortest`, `fmtF`) on exact decimals. A `float64` is given by its
IEEE-754 bit pattern (`math.Float64bits`), a number below `2 ^ 64`. -/

/-- The `decimal` of `strconv`: the digits `d` (most significant first, no
trailing zero) and the position `dp` of the decimal point; the value is
`0.d₁d₂… × 10 ^ dp`. -/
structure Decimal where
  d : List Char
  dp : Int

/-- The number of digits, `nd` in Go. -/
def Decimal.nd (a : Decimal) : Int := a.d.length

/-- Go's `trim`: trailing zeros are dropped; no digit left means zero, with
`dp = 0`. -/
def trim (a : Decimal) : Decimal :=
  let ds := (a.d.reverse.dropWhile (fun ch => ch = '0')).reverse
  if ds = [] then ⟨[], 0⟩ else ⟨ds, a.dp⟩

/-- The exact decimal of `mant × 2 ^ e2`: Go's `d.Assign(mant)` followed by
`d.Shift(e2)`. -/
def decimalOf (mant : Nat) (e2 : Int) : Decimal :=
  match e2 with
  | Int.ofNat k =>
    let ds := Nat.toDigits 10 (mant * 2 ^ k)
    trim ⟨ds, ds.length⟩
  | Int.negSucc k =>
    let ds := Nat.toDigits 10 (mant * 5 ^ (k + 1))
    trim ⟨ds, (ds.length : Int) - (k + 1 : Nat)⟩

/-- The digit at index `i`, `'0'` outside the digits. -/
def digitAt (ds : List Char) (i : Int) : Char :=
  if 0 ≤ i ∧ i < ds.length then ds.getD i.toNat '0' else '0'

/-- Go's `(*decimal).RoundDown(nd)`. -/
def roundDown (a : Decimal) (nd : Int) : Decimal :=
  if nd < 0 ∨ nd ≥ a.nd then a else trim ⟨a.d.take nd.toNat, a.dp⟩

/-- The loop of `RoundUp`: the digits before index `nd`, given in reverse,
are scanned from the last one for a digit below `'9'`, which is incremented and
becomes the last digit. -/
def bumpLast : List Char → Option (List Char)
  | [] => none
  | ch :: before =>
    if ch.toNat < ('9').toNat then some ((Char.ofNat (ch.toNat + 1) :: before).reverse)
    else bumpLast before

/-- Go's `(*decimal).RoundUp(nd)`. -/
def roundUp (a : Decimal) (nd : Int) : Decimal :=
  if nd < 0 ∨ nd ≥ a.nd then a
  else
    match bumpLast (a.d.take nd.toNat).reverse with
    | some ds => ⟨ds, a.dp⟩
    | none => ⟨['1'], a.dp + 1⟩

/-- Go's `shouldRoundUp`, for a decimal that was not truncated. -/
def shouldRoundUp (a : Decimal) (nd : Int) : Bool :=
  if nd < 0 ∨ nd ≥ a.nd then false
  else if digitAt a.d nd = '5' ∧ nd + 1 = a.nd then
    decide (nd > 0 ∧ ((digitAt a.d (nd - 1)).toNat - ('0').toNat) % 2 ≠ 0)
  else decide ((digitAt a.d nd).toNat ≥ ('5').toNat)

/-- Go's `(*decimal).Round(nd)`. -/
def round (a : Decimal) (nd : Int) : Decimal :=
  if nd < 0 ∨ nd ≥ a.nd then a
  else if shouldRoundUp a nd then roundUp a nd else roundDown a nd

/-- The loop of `roundShortest`: `left` iterations remain, `ui` is the index
into the digits of `upper`. -/
def roundShortestLoop (d lower upper : Decimal) (inclusive : Bool) :
    (left : Nat) → (ui : Nat) → (upperdelta : Nat) → Decimal
  | 0, _, _ => d
  | left + 1, ui, upperdelta =>
    let mi : Int := (ui : Int) - upper.dp + d.dp
    let li : Int := (ui : Int) - upper.dp + lower.dp
    let l := digitAt lower.d li
    let m := digitAt d.d mi
    let u := digitAt upper.d ui
    let okdown : Bool := l != m || (inclusive && li + 1 == lower.nd)
    let upperdelta : Nat :=
      if upperdelta = 0 ∧ m.toNat + 1 < u.toNat then 2
      else if upperdelta = 0 ∧ m ≠ u then 1
      else if upperdelta = 1 ∧ (m ≠ '9' ∨ u ≠ '0') then 2
      else upperdelta
    let okup : Bool :=
      decide (upperdelta > 0) && (inclusive || decide (upperdelta > 1) ||
        decide ((ui : Int) + 1 < upper.nd))
    if okdown && okup then round d (mi + 1)
    else if okdown then roundDown d (mi + 1)
    else if okup then roundUp d (mi + 1)
    else roundShortestLoop d lower upper inclusive left (ui + 1) upperdelta

/-- Go's `roundShortest` for `float64` (52 mantissa bits, bias -1023): `d` is
rounded to the shortest decimal that lies between the neighbouring floats'
halfway points. -/
def roundShortest (d : Decimal) (mant : Nat) (exp : Int) : Decimal :=
  if mant = 0 then ⟨[], d.dp⟩
  else
    let minexp : Int := -1022
    if exp > minexp ∧ 332 * (d.dp - d.nd) ≥ 100 * (exp - 52) then d
    else
      let upper := decimalOf (mant * 2 + 1) (exp - 52 - 1)
      let (mantlo, explo) : Nat × Int :=
        if mant > 2 ^ 52 ∨ exp = minexp then (mant - 1, exp) else (mant * 2 - 1, exp - 1)
      let lower := decimalOf (mantlo * 2 + 1) (explo - 52 - 1)
      let inclusive : Bool := mant % 2 == 0
      roundShortestLoop d lower upper inclusive (d.nd - (d.dp - upper.dp)).toNat 0 0

/-- Go's `fmtF`: `-ddd.dddd` with `prec` digits after the point. -/
def fmtF (neg : Bool) (d : Decimal) (prec : Nat) : List Char :=
  (if neg then ['-'] else []) ++
  (if d.dp > 0 then
    d.d.take d.dp.toNat ++ List.replicate (d.dp.toNat - d.d.length) '0'
   else ['0']) ++
  (if prec > 0 then
    '.' :: (List.range prec).map (fun i => digitAt d.d (d.dp + (i : Int)))
   else [])

/-- Go's `strconv.FormatFloat(v, 'f', -1, 64)`, where `bits` is the bit
pattern of `v`. -/
def formatFloat (bits : Nat) : String :=
  let bits := bits % 2 ^ 64
  let neg : Bool := bits / 2 ^ 63 != 0
  let exp : Nat := (bits / 2 ^ 52) % 2 ^ 11
  let mant : Nat := bits % 2 ^ 52
  if exp = 2 ^ 11 - 1 then
    if mant ≠ 0 then "NaN" else if neg then "-Inf" else "+Inf"
  else
    let (mant, exp) : Nat × Int := if exp = 0 then (mant, 1) else (mant + 2 ^ 52, exp)
    let exp : Int := exp - 1023
    let d := roundShortest (decimalOf mant (exp - 52)) mant exp
    String.mk (fmtF neg d (d.nd - d.dp).toNat)

/-- Go's `strconv.FormatBool`. -/
def formatBool (b : Bool) : String := if b then "true" else "false"

/-! ## time.Time -/

/-- The fields of a `time.Time` that the layout of `formatDate` prints:
`month` in 1..12, `day` in 1..31, `hour` in 0..23, `minute` and `second` in
0..59. -/
structure Time where
  month : Nat
  day : Nat
  hour : Nat
  minute : Nat
  second : Nat

/-- The first three letters of the English month name, as the layout element
`Jan` prints them (`%!M` is what Go prints for a month outside 1..12, which no
`time.Time` has). -/
def monthAbbr : Nat → String
  | 1 => "Jan" | 2 => "Feb" | 3 => "Mar" | 4 => "Apr" | 5 => "May" | 6 => "Jun"
  | 7 => "Jul" | 8 => "Aug" | 9 => "Sep" | 10 => "Oct" | 11 => "Nov" | 12 => "Dec"
  | _ => "%!M"

/-- A number in decimal, with a leading zero below ten: the layout elements
`03`, `04` and `05`. -/
def pad2 (n : Nat) : String :=
  String.mk ((if n < 10 then ['0'] else []) ++ Nat.toDigits 10 n)

/-- `dateSuffix` returns the date suffix for t. -/
def dateSuffix (t : Time) : String :=
  match t.day with
  | 1 | 21 | 31 => "st"
  | 2 | 22 => "nd"
  | 3 | 23 => "rd"
  | _ => "th"

/-- `formatDate` formats t with the layout `Jan 2<suffix> 03:04:05pm`: month
abbreviation, day of the month, suffix, hour on the 12-hour clock, minute,
second (two digits each) and `am` or `pm`. -/
def formatDate (t : Time) : String :=
  monthAbbr t.month ++ " " ++ String.mk (Nat.toDigits 10 t.day) ++ dateSuffix t ++ " " ++
    pad2 (if t.hour % 12 = 0 then 12 else t.hour % 12) ++ ":" ++ pad2 t.minute ++ ":" ++
    pad2 t.second ++ (if t.hour ≥ 12 then "pm" else "am")

/-! ## Values -/

/-- The values that are neither a map nor a list: the cases of the type switch
of `primitive`. `num` holds the bit pattern of a `float64`. `other` stands for
a Go value of any other type (an `int`, `nil`, ...) and holds the text that
`fmt.Sprintf("%v", v)` prints for it. -/
inductive Prim where
  | str (s : String)
  | time (t : Time)
  | bool (b : Bool)
  | num (bits : Nat)
  | other (text : String)

/-- A Go `interface{}` value as the renderer sees it: a
`map[string]interface{}`, a `[]interface{}`, or anything else. -/
inductive Value where
  | prim (p : Prim)
  | map (m : List (String × Value))
  | list (xs : List Value)

/-- The nil interface value, which `%v` prints as `<nil>`. -/
def Value.nil : Value := .prim (.other "<nil>")

/-- Go's `m[k]`: the value bound to `k`, the nil interface when `k` is not a
key of `m`. -/
def valueAt (m : List (String × Value)) (k : String) : Value :=
  match m.lookup k with
  | some v => v
  | none => Value.nil

mutual
/-- The nesting measure that the recursion of the renderers goes down on. -/
def Value.weight : Value → Nat
  | .prim _ => 0
  | .map m => weightEntries m + 1
  | .list xs => weightList xs + 1
/-- The weight of the values of a map. -/
def weightEntries : List (String × Value) → Nat
  | [] => 0
  | (_, v) :: rest => v.weight + weightEntries rest
/-- The weight of the elements of a list. -/
def weightList : List Value → Nat
  | [] => 0
  | v :: rest => v.weight + weightList rest
end

/-! ## Formatters and configuration -/

/-- FormatFunc is a function for formatting values. -/
abbrev FormatFunc := String → String

/-- Formatters is a map of formatting functions. An absent key is Go's nil
function. -/
abbrev Formatters := List (String × FormatFunc)

/-- The functions of the package `internal/colors` that the default table
names. The renderers only pass text through them, so they are parameters of
the model. -/
structure Colors where
  None : FormatFunc
  Gray : FormatFunc
  Purple : FormatFunc
  Yellow : FormatFunc
  Red : FormatFunc

/-- `defaultFormatters` is a set of default formatters. -/
def defaultFormatters (colors : Colors) : Formatters :=
  [ ("debug", colors.Gray),
    ("info", colors.Purple),
    ("warn", colors.Yellow),
    ("warning", colors.Yellow),
    ("error", colors.Red),
    ("fatal", colors.Red),
    ("critical", colors.Red),
    ("emergency", colors.Red),
    ("string", colors.None),
    ("number", colors.None),
    ("bool", colors.None),
    ("date", colors.None),
    ("object.key", colors.Purple),
    ("object.separator", colors.Gray),
    ("object.value", colors.None),
    ("array.delimiter", colors.Gray),
    ("array.separator", colors.Gray) ]

/-- The type config is the formatter configuration. -/
structure config where
  format : Formatters

/-- Go's `Option`, a function that updates the configuration. -/
abbrev ConfigOption := config → config

/-- WithFormatters option sets the formatters used. -/
def WithFormatters (f : Formatters) : ConfigOption :=
  fun _ => ⟨f⟩

/-- The call `c.format[role](arg)`: the transform found under `role` applied to
`arg`; without an entry for `role` the lookup yields the nil function and the
call stops the program. -/
def call (c : config) (role : String) (arg : String) : Option String :=
  match c.format.lookup role with
  | some f => some (f arg)
  | none => none

/-! ## The renderers -/

/-- `primitive` returns a formatted value. -/
def primitive (wide : Char → Bool) (v : Prim) (c : config) : Option String :=
  match v with
  | .str s =>
    if containsAny s " \n\t" || trimSpace s == "" then
      call c "string" (quote wide s)
    else
      call c "string" s
  | .time t => call c "date" (formatDate t)
  | .bool b => call c "bool" (formatBool b)
  | .num bits => call c "number" (formatFloat bits)
  | .other text => some text

/-- `isComposite` returns true if the value is a composite. -/
def isComposite (v : Value) : Bool :=
  match v with
  | .map _ => true
  | .list _ => true
  | .prim _ => false

/-- `mapKeys` returns map keys, sorted ascending. -/
def mapKeys (m : List (String × Value)) : List String :=
  sortStrings (m.map Prod.fst)

mutual
/-- `compact` returns a formatted value. -/
def compact (wide : Char → Bool) (v : Value) (c : config) : Option String :=
  match v with
  | .map m => compactMap wide m c
  | .list xs => compactSlice wide xs c
  | .prim p => primitive wide p c
termination_by (v.weight, 3, 0)
decreasing_by
  all_goals simp only [Prod.lex_def, Value.weight, weightList, List.length_cons, true_and]
  all_goals omega

/-- `compactMap` returns a formatted map. -/
def compactMap (wide : Char → Bool) (m : List (String × Value)) (c : config) :
    Option String :=
  compactMapLoop wide m c (mapKeys m) 0 (mapKeys m) ""
termination_by (weightEntries m + 1, 2, 0)
decreasing_by
  all_goals simp only [Prod.lex_def, Value.weight, weightList, List.length_cons, true_and]
  all_goals omega

/-- The loop of `compactMap`: `rest` holds the keys from index `i` on, `s` is
the text built so far. -/
def compactMapLoop (wide : Char → Bool) (m : List (String × Value)) (c : config)
    (keys : List String) (i : Nat) (rest : List String) (s : String) : Option String :=
  match rest with
  | [] => some s
  | k :: rest => do
    let v := valueAt m k
    let s := s ++ (← call c "object.key" k)
    let s := s ++ (← call c "object.separator" "=")
    let s ←
      if isComposite v then do
        pure (s ++ (← call c "object.value" (← compact wide v c)))
      else do
        pure (s ++ (← compact wide v c))
    let s := if i + 1 < keys.length then s ++ " " else s
    compactMapLoop wide m c keys (i + 1) rest s
termination_by (weightEntries m + 1, 1, rest.length)
decreasing_by
  all_goals simp only [Prod.lex_def, Value.weight, weightList, List.length_cons, true_and]
  all_goals first
    | omega
    | (refine Or.inl (Nat.lt_succ_of_le ?_)
       have hle : ∀ (l : List (String × Value)) (x : String) (v : Value),
           l.lookup x = some v → v.weight ≤ weightEntries l := by
         intro l
         induction l with
         | nil => intro x v h; simp at h
         | cons hd tl ih =>
           intro x v h
           obtain ⟨k1, v1⟩ := hd
           simp only [List.lookup] at h
           split at h
           · simp only [Option.some.injEq] at h
             subst h
             simp [weightEntries]
           · have := ih x v h
             simp only [weightEntries]
             omega
       unfold valueAt
       split
       · next v h => exact hle _ _ v h
       · simp [Value.nil, Value.weight])

/-- `compactSlice` returns a formatted slice. -/
def compactSlice (wide : Char → Bool) (v : List Value) (c : config) : Option String := do
  let s ← call c "array.delimiter" "["
  let s ← compactSliceLoop wide v c 0 s
  pure (s ++ (← call c "array.delimiter" "]"))
termination_by (weightList v + 1, 2, 0)
decreasing_by
  all_goals simp only [Prod.lex_def, Value.weight, weightList, List.length_cons, true_and]
  all_goals omega

/-- The loop of `compactSlice`: `rest` holds the elements from index `i` on. -/
def compactSliceLoop (wide : Char → Bool) (rest : List Value) (c : config) (i : Nat)
    (s : String) : Option String :=
  match rest with
  | [] => some s
  | v :: rest => do
    let s ← if i > 0 then do pure (s ++ (← call c "array.separator" ", ")) else pure s
    let s := s ++ (← compact wide v c)
    compactSliceLoop wide rest c (i + 1) s
termination_by (weightList rest + 1, 1, rest.length)
decreasing_by
  all_goals simp only [Prod.lex_def, Value.weight, weightList, List.length_cons, true_and]
  all_goals omega
end

mutual
/-- `expanded` returns a formatted value with prefix. -/
def expanded (wide : Char → Bool) (v : Value) (pfx : String) (c : config) : Option String :=
  match v with
  | .map m => expandedMap wide m pfx c
  | .list xs => expandedSlice wide xs pfx c
  | .prim p => primitive wide p c
termination_by (v.weight, 3, 0)
decreasing_by
  all_goals simp only [Prod.lex_def, Value.weight, weightList, List.length_cons, true_and]
  all_goals omega

/-- `expandedMap` returns a formatted map. -/
def expandedMap (wide : Char → Bool) (m : List (String × Value)) (pfx : String) (c : config) :
    Option String :=
  expandedMapLoop wide m pfx c (mapKeys m) ""
termination_by (weightEntries m + 1, 2, 0)
decreasing_by
  all_goals simp only [Prod.lex_def, Value.weight, weightList, List.length_cons, true_and]
  all_goals omega

/-- The loop of `expandedMap`: `rest` holds the keys still to be printed, `s`
is the text built so far. -/
def expandedMapLoop (wide : Char → Bool) (m : List (String × Value)) (pfx : String)
    (c : config) (rest : List String) (s : String) : Option String :=
  match rest with
  | [] => some s
  | k :: rest => do
    let v := valueAt m k
    let k ← call c "object.key" k
    let d ← call c "object.separator" ":"
    let s ←
      if isComposite v then do
        pure (s ++ (pfx ++ k ++ d ++ "\n" ++ (← expanded wide v (pfx ++ "  ") c)))
      else do
        pure (s ++ (pfx ++ k ++ d ++ " " ++ (← expanded wide v (pfx ++ "  ") c) ++ "\n"))
    expandedMapLoop wide m pfx c rest s
termination_by (weightEntries m + 1, 1, rest.length)
decreasing_by
  all_goals simp only [Prod.lex_def, Value.weight, weightList, List.length_cons, true_and]
  all_goals first
    | omega
    | (refine Or.inl (Nat.lt_succ_of_le ?_)
       have hle : ∀ (l : List (String × Value)) (x : String) (v : Value),
           l.lookup x = some v → v.weight ≤ weightEntries l := by
         intro l
         induction l with
         | nil => intro x v h; simp at h
         | cons hd tl ih =>
           intro x v h
           obtain ⟨k1, v1⟩ := hd
           simp only [List.lookup] at h
           split at h
           · simp only [Option.some.injEq] at h
             subst h
             simp [weightEntries]
           · have := ih x v h
             simp only [weightEntries]
             omega
       unfold valueAt
       split
       · next v h => exact hle _ _ v h
       · simp [Value.nil, Value.weight])

/-- `expandedSlice` returns a formatted slice. -/
def expandedSlice (wide : Char → Bool) (v : List Value) (pfx : String) (c : config) :
    Option String :=
  expandedSliceLoop wide v pfx c ""
termination_by (weightList v + 1, 2, 0)
decreasing_by
  all_goals simp only [Prod.lex_def, Value.weight, weightList, List.length_cons, true_and]
  all_goals omega

/-- The loop of `expandedSlice`: `rest` holds the elements still to be printed,
`s` is the text built so far. The test `isComposite(v)` is the match on `v`:
`primitive` is called in the branch of the values that are not composite. -/
def expandedSliceLoop (wide : Char → Bool) (rest : List Value) (pfx : String) (c : config)
    (s : String) : Option String :=
  match rest with
  | [] => some s
  | v :: rest => do
    let d ← call c "array.separator" "-"
    let s ←
      match v with
      | .prim p => do
        pure (s ++ (pfx ++ d ++ " " ++ (← primitive wide p c) ++ "\n"))
      | v => do
        pure (s ++ (pfx ++ d ++ "\n" ++ (← expanded wide v (pfx ++ "  ") c)))
    expandedSliceLoop wide rest pfx c s
termination_by (weightList rest + 1, 1, rest.length)
decreasing_by
  all_goals simp only [Prod.lex_def, Value.weight, weightList, List.length_cons, true_and]
  all_goals omega
end

/-- `Compact` returns a value in the compact format. (`colors` stands for the
package `internal/colors` behind the default table, `wide` for the Unicode
tables behind `strconv.Quote`.) -/
def Compact (colors : Colors) (wide : Char → Bool) (v : List (String × Value))
    (options : List ConfigOption) : Option String :=
  let c : config := ⟨defaultFormatters colors⟩
  let c := options.foldl (fun c o => o c) c
  compact wide (.map v) c

/-- `Expanded` returns a value in the expanded format, under the prefix of two
spaces. -/
def Expanded (colors : Colors) (wide : Char → Bool) (v : List (String × Value))
    (options : List ConfigOption) : Option String :=
  let c : config := ⟨defaultFormatters colors⟩
  let c := options.foldl (fun c o => o c) c
  expanded wide (.map v) "  " c

/-! ## Vocabulary of the statements -/

/-- The transforms found under the nine roles that the renderers look up. -/
structure Roles where
  string : FormatFunc
  number : FormatFunc
  bool : FormatFunc
  date : FormatFunc
  key : FormatFunc
  separator : FormatFunc
  value : FormatFunc
  delimiter : FormatFunc
  arraySeparator : FormatFunc

/-- The table `f` defines each role that the renderers look up, with the
transforms `R`. -/
def Defines (f : Formatters) (R : Roles) : Prop :=
  f.lookup "string" = some R.string ∧ f.lookup "number" = some R.number ∧
  f.lookup "bool" = some R.bool ∧ f.lookup "date" = some R.date ∧
  f.lookup "object.key" = some R.key ∧ f.lookup "object.separator" = some R.separator ∧
  f.lookup "object.value" = some R.value ∧ f.lookup "array.delimiter" = some R.delimiter ∧
  f.lookup "array.separator" = some R.arraySeparator

/-- The identity transform under each of the nine roles. -/
def identityRoles : Roles := ⟨id, id, id, id, id, id, id, id, id⟩

/-- A table of identity formatters: output without colors. -/
def identityFormatters : Formatters :=
  [ ("string", id), ("number", id), ("bool", id), ("date", id), ("object.key", id),
    ("object.separator", id), ("object.value", id), ("array.delimiter", id),
    ("array.separator", id) ]

/-- The entry of the compact layout for the key `k` bound to `v`, where `r`
gives the compact rendering of a value: the key, `=`, and the value, which
goes through the role `object.value` when it is a map or a list. -/
def compactEntry (R : Roles) (r : Value → String) (k : String) (v : Value) : String :=
  R.key k ++ R.separator "=" ++ (if isComposite v then R.value (r v) else r v)

/-- The block of the expanded layout for the key `k` bound to `v` under the
prefix `pfx`, where `e` gives the expanded rendering of a value under a prefix:
a map or a list starts on the next line, two spaces deeper; any other value
stands on the line of the key. -/
def expandedMapBlock (R : Roles) (e : Value → String → String) (pfx k : String)
    (v : Value) : String :=
  if isComposite v then pfx ++ R.key k ++ R.separator ":" ++ "\n" ++ e v (pfx ++ "  ")
  else pfx ++ R.key k ++ R.separator ":" ++ " " ++ e v (pfx ++ "  ") ++ "\n"

/-- The block of the expanded layout for the list element `v` under the prefix
`pfx`, where `e` gives the expanded rendering of a map or list under a prefix
and `enc` the encoding of a primitive. -/
def expandedSliceBlock (R : Roles) (e : Value → String → String) (enc : Prim → String)
    (pfx : String) (v : Value) : String :=
  match v with
  | .prim p => pfx ++ R.arraySeparator "-" ++ " " ++ enc p ++ "\n"
  | v => pfx ++ R.arraySeparator "-" ++ "\n" ++ e v (pfx ++ "  ")

/-- The merge of tables that the specification describes for overrides: the
table equal to `base` with every key of `overrides` replacing the
corresponding entry (a lookup finds the entry of `overrides` first). -/
def withOverrides (base overrides : Formatters) : Formatters := overrides ++ base

/-- The string contains no newline character. -/
def NoNewline (s : String) : Prop := '\n' ∉ s.data

mutual
/-- No key of the value, at any nesting level, contains a newline character,
and the leaves are strings, bools, numbers or date-times. -/
def Value.plain : Value → Bool
  | .prim (.other _) => false
  | .prim _ => true
  | .map m => plainEntries m
  | .list xs => plainList xs
/-- The keys of the entries contain no newline and the values are plain. -/
def plainEntries : List (String × Value) → Bool
  | [] => true
  | (k, v) :: rest => !k.data.contains '\n' && v.plain && plainEntries rest
/-- The elements of the list are plain. -/
def plainList : List Value → Bool
  | [] => true
  | v :: rest => v.plain && plainList rest
end

/-- The list is ascending: no element is greater than a later one. -/
def Ascending (l : List String) : Prop := l.Pairwise (fun a b => strLess b a = false)

/-- The entries are in strictly ascending order of their keys. -/
def KeysAscending (es : List (String × Value)) : Prop :=
  es.Pairwise (fun a b => strLess a.1 b.1 = true)

/-- Two values hold the same bindings at every nesting level: they are the
same primitive, or lists whose elements correspond one by one, or maps with
pairwise distinct keys and the same set of keys (the lists of keys are
permutations of each other) in which the values bound to a same key again hold
the same bindings. -/
inductive SameBindings : Value → Value → Prop
  | prim (p : Prim) : SameBindings (.prim p) (.prim p)
  | listNil : SameBindings (.list []) (.list [])
  | listCons (v1 v2 : Value) (xs ys : List Value) :
      SameBindings v1 v2 → SameBindings (.list xs) (.list ys) →
      SameBindings (.list (v1 :: xs)) (.list (v2 :: ys))
  | map (m1 m2 : List (String × Value)) :
      (m1.map Prod.fst).Nodup → (m2.map Prod.fst).Nodup →
      (m1.map Prod.fst).Perm (m2.map Prod.fst) →
      (∀ k v1 v2, (k, v1) ∈ m1 → (k, v2) ∈ m2 → SameBindings v1 v2) →
      SameBindings (.map m1) (.map m2)

/-- A table for the examples: every code point above U+00FF counts as
printable. -/
def samplePrintable : Char → Bool := fun _ => true

/-- Colors for the examples: no color at all. -/
def plainColors : Colors := ⟨id, id, id, id, id⟩

/-- The nine roles that the renderers look up. -/
def lookedUpRoles : List String :=
  ["string", "number", "bool", "date", "object.key", "object.separator", "object.value",
    "array.delimiter", "array.separator"]

/-- The tables `f` and `g` agree on the nine looked-up roles: each of these
roles is absent from both or bound to the same transform in both. -/
def AgreeOnRoles (f g : Formatters) : Prop :=
  ∀ role ∈ lookedUpRoles, f.lookup role = g.lookup role

/-- The last character of the string is a newline. -/
def EndsWithNewline (s : String) : Prop := s.data.getLast? = some '\n'

/-- The position of the leading bit of `n`, that is `⌊log₂ n⌋`, for a positive
`n` below `2 ^ fuel`. -/
def log2Fuel : Nat → Nat → Nat
  | 0, _ => 0
  | fuel + 1, n => if n ≥ 2 then log2Fuel fuel (n / 2) + 1 else 0

/-- The bit pattern of the `float64` that is equal to the integer `z`, for
`|z| < 2 ^ 53` (in this range Go's conversion `float64(z)` is exact): sign,
biased exponent of the leading bit, and the bits below the leading bit moved
to the top of the 52-bit fraction. -/
def float64OfInt (z : Int) : Nat :=
  let n := z.natAbs
  if n = 0 then 0
  else
    let e := log2Fuel 64 n
    (if z < 0 then 2 ^ 63 else 0) + (e + 1023) * 2 ^ 52 + (n * 2 ^ (52 - e) - 2 ^ 52)

/-- The text cut at its newline characters: the segments between them, the
last one being what follows the last newline (empty when the text ends with a
newline). -/
def splitNewline : List Char → List (List Char)
  | [] => [[]]
  | ch :: rest =>
    if ch = '\n' then [] :: splitNewline rest
    else
      match splitNewline rest with
      | [] => [[ch]]
      | l :: ls => (ch :: l) :: ls

/-- The newline-terminated lines of a string, without their newline. -/
def terminatedLines (s : String) : List (List Char) := (splitNewline s.data).dropLast

/-- Every newline-terminated line of `s` begins with `p`. -/
def LinesBeginWith (p s : String) : Prop :=
  ∀ l ∈ terminatedLines s, ∃ t, l = p.data ++ t

/-- The string of `n` spaces. -/
def spaces (n : Nat) : String := String.mk (List.replicate n ' ')

/-- `NestedIn k v w`: the value `w` is nested `k` levels below `v`, as the value
of a key of a map or as an element of a list at each level. -/
inductive NestedIn : Nat → Value → Value → Prop
  | here (v : Value) : NestedIn 0 v v
  | inMap (m : List (String × Value)) (key : String) (w : Value) (k : Nat) :
      key ∈ m.map Prod.fst → NestedIn k (valueAt m key) w → NestedIn (k + 1) (.map m) w
  | inList (xs : List Value) (x w : Value) (k : Nat) :
      x ∈ xs → NestedIn k x w → NestedIn (k + 1) (.list xs) w

/-- The text is a sequence of lines, each made of `p`, a body without newline
and a newline. -/
def Structured (p : List Char) (s : String) : Prop :=
  ∃ bodies : List (List Char), (∀ b ∈ bodies, '\n' ∉ b) ∧
    s.data = (bodies.map fun b => p ++ b ++ ['\n']).flatten

/-- The number that a `float64` bit pattern denotes (IEEE 754 binary64, the
format of Go's `float64`), with the fields cut as `strconv.FormatFloat` cuts
them: sign, biased exponent and fraction; `none` for the infinities and NaN. -/
def float64Value (bits : Nat) : Option ℚ :=
  let bits := bits % 2 ^ 64
  let neg : Bool := bits / 2 ^ 63 != 0
  let exp : Nat := (bits / 2 ^ 52) % 2 ^ 11
  let mant : Nat := bits % 2 ^ 52
  if exp = 2 ^ 11 - 1 then none
  else
    let (mant, exp) : Nat × Int := if exp = 0 then (mant, 1) else (mant + 2 ^ 52, exp)
    some ((if neg then -1 else 1) * (mant : ℚ) * (2 : ℚ) ^ (exp - 1075))

/-- The encoding of a primitive value under identity formatters. -/
def plainEncoding (wide : Char → Bool) (p : Prim) : String :=
  (primitive wide p ⟨identityFormatters⟩).getD ""

/-- A leaf that cannot be taken for the start of a further entry: a string or
a value of another type that does not contain a space together with `=`, the
text of a value of another type being free of newlines as well; any bool, any
number and any date-time. -/
def Prim.Unambiguous : Prim → Prop
  | .str s => ' ' ∉ s.data ∨ '=' ∉ s.data
  | .other text => '\n' ∉ text.data ∧ (' ' ∉ text.data ∨ '=' ∉ text.data)
  | _ => True

/-- The record is flat, every value being an unambiguous leaf, and no key
contains `=` or a space. -/
def FlatUnambiguous (r : List (String × Value)) : Prop :=
  ∀ e ∈ r, '=' ∉ e.1.data ∧ ' ' ∉ e.1.data ∧ ∃ p, e.2 = .prim p ∧ p.Unambiguous

/-- A key without `=` and without a space, with an encoding without a newline
that does not contain a space together with `=`. -/
def UnambiguousPair (e : String × String) : Prop :=
  '=' ∉ e.1.data ∧ ' ' ∉ e.1.data ∧ '\n' ∉ e.2.data ∧ (' ' ∉ e.2.data ∨ '=' ∉ e.2.data)

/-- The encoding under identity formatters of the value bound to `k`, when it
is a primitive. -/
def encodingAt (wide : Char → Bool) (r : List (String × Value)) (k : String) : String :=
  match valueAt r k with
  | .prim p => plainEncoding wide p
  | _ => ""

/-- The keys of a flat record in ascending order, each with the encoding of
its value under identity formatters. -/
def encodedPairs (wide : Char → Bool) (r : List (String × Value)) : List (String × String) :=
  (mapKeys r).map fun k => (k, encodingAt wide r k)

/-- The entry of the compact layout for a key and the encoding of its value. -/
def compactItem (e : String × String) : String := e.1 ++ "=" ++ e.2

/-- The line of the expanded layout for a key and the encoding of its value. -/
def expandedItem (e : String × String) : String := "  " ++ e.1 ++ ":" ++ " " ++ e.2 ++ "\n"

/-! ## The nesting measure -/

theorem weight_lookup {m : List (String × Value)} {k : String} {v : Value}
    (h : m.lookup k = some v) : v.weight ≤ weightEntries m := by
  induction m with
  | nil => simp at h
  | cons hd tl ih =>
    obtain ⟨k1, v1⟩ := hd
    simp only [List.lookup] at h
    split at h
    · simp only [Option.some.injEq] at h
      subst h
      simp [weightEntries]
    · have := ih h
      simp only [weightEntries]
      omega

theorem weight_valueAt (m : List (String × Value)) (k : String) :
    (valueAt m k).weight ≤ weightEntries m := by
  unfold valueAt
  split
  · next v h => exact weight_lookup h
  · simp [Value.nil, Value.weight]

/-! ## Strings: joining -/

theorem join_cons (x : String) (ys : List String) :
    String.join (x :: ys) = x ++ String.join ys := by
  simp only [String.join, List.foldl_cons]
  have : ∀ (acc : String) (zs : List String),
      List.foldl (fun r s => r ++ s) acc zs = acc ++ List.foldl (fun r s => r ++ s) "" zs := by
    intro acc zs
    induction zs generalizing acc with
    | nil => simp
    | cons z zs ihz =>
      simp only [List.foldl_cons]
      rw [ihz (acc ++ z), ihz ("" ++ z)]
      simp [String.append_assoc]
  rw [this ("" ++ x)]
  simp

theorem join_nil : String.join [] = "" := rfl

theorem intercalate_go (sep acc : String) (l : List String) :
    String.intercalate.go acc sep l = acc ++ String.join (l.map (fun x => sep ++ x)) := by
  induction l generalizing acc with
  | nil => simp [String.intercalate.go, String.join]
  | cons a l ih =>
    simp only [String.intercalate.go, ih, List.map_cons, join_cons]
    simp [String.append_assoc]

theorem intercalate_nil (sep : String) : sep.intercalate [] = "" := rfl

theorem intercalate_single (sep a : String) : sep.intercalate [a] = a := rfl

theorem intercalate_cons (sep a : String) (l : List String) :
    sep.intercalate (a :: l) = a ++ String.join (l.map (fun x => sep ++ x)) := by
  simp only [String.intercalate, intercalate_go]

theorem intercalate_cons_cons (sep a b : String) (l : List String) :
    sep.intercalate (a :: b :: l) = a ++ sep ++ sep.intercalate (b :: l) := by
  simp only [String.intercalate, String.intercalate.go, intercalate_go]
  simp [String.append_assoc]


theorem call_of_lookup {c : config} {role : String} {f : FormatFunc}
    (h : c.format.lookup role = some f) (arg : String) : call c role arg = some (f arg) := by
  simp [call, h]

theorem compactMapLoop_spec (wide : Char → Bool) (c : config) (R : Roles)
    (hc : Defines c.format R) (r : Value → String) (m : List (String × Value))
    (keys : List String) :
    ∀ (rest : List String) (i : Nat) (s : String),
      (∀ k ∈ rest, compact wide (valueAt m k) c = some (r (valueAt m k))) →
      i + rest.length = keys.length →
      compactMapLoop wide m c keys i rest s =
        some (s ++ " ".intercalate (rest.map fun k => compactEntry R r k (valueAt m k))) := by
  obtain ⟨-, -, -, -, hkey, hsep, hval, -, -⟩ := hc
  intro rest
  induction rest with
  | nil =>
    intro i s _ _
    rw [compactMapLoop]
    simp [intercalate_nil]
  | cons k rest ih =>
    intro i s hr hi
    have hk := hr k (List.mem_cons_self _ _)
    have hrest : ∀ k ∈ rest, compact wide (valueAt m k) c = some (r (valueAt m k)) :=
      fun k hk => hr k (List.mem_cons_of_mem _ hk)
    rw [compactMapLoop]
    simp only [call_of_lookup hkey, call_of_lookup hsep, call_of_lookup hval, hk,
      Option.bind_eq_bind, Option.some_bind, Option.pure_def, bind_pure_comp]
    have step : ∀ e : String,
        compactMapLoop wide m c keys (i + 1) rest
          (if i + 1 < keys.length then s ++ R.key k ++ R.separator "=" ++ e ++ " "
           else s ++ R.key k ++ R.separator "=" ++ e) =
        some (s ++ " ".intercalate ((R.key k ++ R.separator "=" ++ e) ::
          rest.map fun k => compactEntry R r k (valueAt m k))) := by
      intro e
      cases rest with
      | nil =>
        simp only [List.length_cons, List.length_nil] at hi
        have hlt : ¬ (i + 1 < keys.length) := by omega
        rw [if_neg hlt, compactMapLoop]
        simp [intercalate_single, String.append_assoc]
      | cons k2 rest2 =>
        simp only [List.length_cons] at hi
        have hlt : i + 1 < keys.length := by omega
        rw [if_pos hlt, ih (i + 1) _ hrest (by simp only [List.length_cons]; omega)]
        simp only [List.map_cons, intercalate_cons_cons, String.append_assoc]
    by_cases hcomp : isComposite (valueAt m k) = true
    · rw [if_pos hcomp, step]
      simp [compactEntry, hcomp]
    · rw [if_neg hcomp, step]
      simp [compactEntry, hcomp]

theorem compactSliceLoop_spec (wide : Char → Bool) (c : config) (R : Roles)
    (hc : Defines c.format R) (r : Value → String) :
    ∀ (rest : List Value) (i : Nat) (s : String),
      (∀ v ∈ rest, compact wide v c = some (r v)) →
      compactSliceLoop wide rest c i s =
        some (s ++ if i > 0 then String.join (rest.map fun v => R.arraySeparator ", " ++ r v)
                   else (R.arraySeparator ", ").intercalate (rest.map r)) := by
  obtain ⟨-, -, -, -, -, -, -, -, hasep⟩ := hc
  intro rest
  induction rest with
  | nil =>
    intro i s _
    rw [compactSliceLoop]
    simp [intercalate_nil, join_nil]
  | cons v rest ih =>
    intro i s hr
    have hv := hr v (List.mem_cons_self _ _)
    have hrest : ∀ v ∈ rest, compact wide v c = some (r v) :=
      fun v hv => hr v (List.mem_cons_of_mem _ hv)
    rw [compactSliceLoop]
    by_cases hi : i > 0
    · simp only [hi, call_of_lookup hasep, hv, ih _ _ hrest, if_true,
        Option.bind_eq_bind, Option.some_bind, Option.pure_def, bind_pure_comp,
        List.map_cons, join_cons, Nat.succ_pos, Nat.lt_add_one, Nat.zero_lt_succ]
      simp [String.append_assoc]
    · simp only [hi, hv, ih _ _ hrest, if_false,
        Option.bind_eq_bind, Option.some_bind, Option.pure_def, bind_pure_comp,
        List.map_cons, intercalate_cons, List.map_map, Function.comp_def]
      simp [String.append_assoc]

theorem expandedMapLoop_spec (wide : Char → Bool) (c : config) (R : Roles)
    (hc : Defines c.format R) (e : Value → String → String) (m : List (String × Value))
    (pfx : String) :
    ∀ (rest : List String) (s : String),
      (∀ k ∈ rest, expanded wide (valueAt m k) (pfx ++ "  ") c =
        some (e (valueAt m k) (pfx ++ "  "))) →
      expandedMapLoop wide m pfx c rest s =
        some (s ++ String.join (rest.map fun k => expandedMapBlock R e pfx k (valueAt m k))) := by
  obtain ⟨-, -, -, -, hkey, hsep, -, -, -⟩ := hc
  intro rest
  induction rest with
  | nil =>
    intro s _
    rw [expandedMapLoop]
    simp [join_nil]
  | cons k rest ih =>
    intro s hr
    have hk := hr k (List.mem_cons_self _ _)
    have hrest : ∀ k ∈ rest, expanded wide (valueAt m k) (pfx ++ "  ") c =
        some (e (valueAt m k) (pfx ++ "  ")) :=
      fun k hk => hr k (List.mem_cons_of_mem _ hk)
    rw [expandedMapLoop]
    simp only [call_of_lookup hkey, call_of_lookup hsep, hk,
      Option.bind_eq_bind, Option.some_bind, Option.pure_def, bind_pure_comp]
    by_cases hcomp : isComposite (valueAt m k) = true
    · simp only [hcomp, if_true, ih _ hrest, List.map_cons, join_cons, expandedMapBlock]
      simp [String.append_assoc]
    · simp only [hcomp, if_false, ih _ hrest, List.map_cons, join_cons, expandedMapBlock]
      simp [String.append_assoc]

theorem expandedSliceLoop_spec (wide : Char → Bool) (c : config) (R : Roles)
    (hc : Defines c.format R) (e : Value → String → String) (enc : Prim → String)
    (pfx : String) :
    ∀ (rest : List Value) (s : String),
      (∀ v ∈ rest, expanded wide v (pfx ++ "  ") c = some (e v (pfx ++ "  "))) →
      (∀ p, Value.prim p ∈ rest → primitive wide p c = some (enc p)) →
      expandedSliceLoop wide rest pfx c s =
        some (s ++ String.join (rest.map fun v => expandedSliceBlock R e enc pfx v)) := by
  obtain ⟨-, -, -, -, -, -, -, -, hasep⟩ := hc
  intro rest
  induction rest with
  | nil =>
    intro s _ _
    rw [expandedSliceLoop]
    simp [join_nil]
  | cons v rest ih =>
    intro s hr hp
    have hv := hr v (List.mem_cons_self _ _)
    have hrest : ∀ v ∈ rest, expanded wide v (pfx ++ "  ") c = some (e v (pfx ++ "  ")) :=
      fun v hv => hr v (List.mem_cons_of_mem _ hv)
    have hprest : ∀ p, Value.prim p ∈ rest → primitive wide p c = some (enc p) :=
      fun p hp1 => hp p (List.mem_cons_of_mem _ hp1)
    rw [expandedSliceLoop]
    cases v with
    | prim p =>
      have hpp := hp p (List.mem_cons_self _ _)
      simp only [call_of_lookup hasep, hpp, ih _ hrest hprest,
        Option.bind_eq_bind, Option.some_bind, Option.pure_def, bind_pure_comp,
        List.map_cons, join_cons, expandedSliceBlock]
      simp [String.append_assoc]
    | map m1 =>
      simp only [call_of_lookup hasep, hv, ih _ hrest hprest,
        Option.bind_eq_bind, Option.some_bind, Option.pure_def, bind_pure_comp,
        List.map_cons, join_cons, expandedSliceBlock]
      simp [String.append_assoc]
    | list xs1 =>
      simp only [call_of_lookup hasep, hv, ih _ hrest hprest,
        Option.bind_eq_bind, Option.some_bind, Option.pure_def, bind_pure_comp,
        List.map_cons, join_cons, expandedSliceBlock]
      simp [String.append_assoc]

theorem weight_mem {xs : List Value} {v : Value} (h : v ∈ xs) : v.weight ≤ weightList xs := by
  induction xs with
  | nil => simp at h
  | cons x xs ih =>
    simp only [weightList]
    rcases List.mem_cons.mp h with h1 | h1
    · subst h1
      omega
    · have := ih h1
      omega

theorem primitive_total (wide : Char → Bool) (c : config) (R : Roles)
    (hc : Defines c.format R) (p : Prim) : ∃ s, primitive wide p c = some s := by
  obtain ⟨hstr, hnum, hbool, hdate, -, -, -, -, -⟩ := hc
  cases p with
  | str s =>
    simp only [primitive]
    split
    · exact ⟨_, call_of_lookup hstr _⟩
    · exact ⟨_, call_of_lookup hstr _⟩
  | time t => exact ⟨_, by simp only [primitive]; exact call_of_lookup hdate _⟩
  | bool b => exact ⟨_, by simp only [primitive]; exact call_of_lookup hbool _⟩
  | num bits => exact ⟨_, by simp only [primitive]; exact call_of_lookup hnum _⟩
  | other text => exact ⟨text, by simp only [primitive]⟩

theorem getD_of_isSome {o : Option String} (h : ∃ s, o = some s) : o = some (o.getD "") := by
  obtain ⟨s, rfl⟩ := h
  rfl

theorem render_total_aux (wide : Char → Bool) (c : config) (R : Roles)
    (hc : Defines c.format R) :
    ∀ (n : Nat) (v : Value), v.weight ≤ n →
      (∃ s, compact wide v c = some s) ∧ ∀ pfx, ∃ s, expanded wide v pfx c = some s := by
  intro n
  induction n with
  | zero =>
    intro v hv
    cases v with
    | prim p =>
      refine ⟨?_, fun pfx => ?_⟩
      · rw [compact]
        exact primitive_total wide c R hc p
      · rw [expanded]
        exact primitive_total wide c R hc p
    | map m => simp [Value.weight] at hv
    | list xs => simp [Value.weight] at hv
  | succ n ih =>
    intro v hv
    cases v with
    | prim p =>
      refine ⟨?_, fun pfx => ?_⟩
      · rw [compact]
        exact primitive_total wide c R hc p
      · rw [expanded]
        exact primitive_total wide c R hc p
    | map m =>
      simp only [Value.weight] at hv
      have hkid : ∀ k, (valueAt m k).weight ≤ n := fun k => by
        have := weight_valueAt m k
        omega
      refine ⟨?_, fun pfx => ?_⟩
      · rw [compact, compactMap,
          compactMapLoop_spec wide c R hc (fun v => (compact wide v c).getD "") m (mapKeys m)
            (mapKeys m) 0 "" (fun k _ => getD_of_isSome (ih _ (hkid k)).1) (by simp)]
        exact ⟨_, rfl⟩
      · rw [expanded, expandedMap,
          expandedMapLoop_spec wide c R hc (fun v p => (expanded wide v p c).getD "") m pfx
            (mapKeys m) "" (fun k _ => getD_of_isSome ((ih _ (hkid k)).2 _))]
        exact ⟨_, rfl⟩
    | list xs =>
      simp only [Value.weight] at hv
      have hkid : ∀ v ∈ xs, v.weight ≤ n := fun v hv1 => by
        have := weight_mem hv1
        omega
      obtain ⟨-, -, -, -, -, -, -, hdelim, -⟩ := id hc
      refine ⟨?_, fun pfx => ?_⟩
      · rw [compact, compactSlice]
        simp only [call_of_lookup hdelim, Option.bind_eq_bind, Option.some_bind,
          compactSliceLoop_spec wide c R hc (fun v => (compact wide v c).getD "") xs 0 _
            (fun v hv1 => getD_of_isSome (ih _ (hkid v hv1)).1), Option.pure_def]
        exact ⟨_, rfl⟩
      · rw [expanded, expandedSlice,
          expandedSliceLoop_spec wide c R hc (fun v p => (expanded wide v p c).getD "")
            (fun p => (primitive wide p c).getD "") pfx xs ""
            (fun v hv1 => getD_of_isSome ((ih _ (hkid v hv1)).2 _))
            (fun p _ => getD_of_isSome (primitive_total wide c R hc p))]
        exact ⟨_, rfl⟩

theorem compact_total (wide : Char → Bool) (c : config) (R : Roles)
    (hc : Defines c.format R) (v : Value) : ∃ s, compact wide v c = some s :=
  (render_total_aux wide c R hc v.weight v (Nat.le_refl _)).1

theorem expanded_total (wide : Char → Bool) (c : config) (R : Roles)
    (hc : Defines c.format R) (v : Value) (pfx : String) :
    ∃ s, expanded wide v pfx c = some s :=
  (render_total_aux wide c R hc v.weight v (Nat.le_refl _)).2 pfx

/-! ## The order of strings and sorting -/

theorem lexLess_irrefl : ∀ a : List Char, lexLess a a = false
  | [] => rfl
  | a :: as => by
    simp only [lexLess, Nat.lt_irrefl, if_false]
    exact lexLess_irrefl as

theorem lexLess_trans : ∀ a b c : List Char,
    lexLess a b = true → lexLess b c = true → lexLess a c = true
  | _, [], _, h, _ => by simp [lexLess] at h
  | _, _ :: _, [], _, h => by simp [lexLess] at h
  | [], _ :: _, _ :: _, _, _ => by simp [lexLess]
  | a :: as, b :: bs, c :: cs, h1, h2 => by
    simp only [lexLess] at h1 h2 ⊢
    by_cases hab : a.toNat < b.toNat
    · by_cases hbc : b.toNat < c.toNat
      · rw [if_pos (Nat.lt_trans hab hbc)]
      · rw [if_neg hbc] at h2
        by_cases hcb : c.toNat < b.toNat
        · simp [hcb] at h2
        · have : b.toNat = c.toNat := by omega
          rw [if_pos (by omega)]
    · rw [if_neg hab] at h1
      by_cases hba : b.toNat < a.toNat
      · simp [hba] at h1
      · rw [if_neg hba] at h1
        have hab2 : a.toNat = b.toNat := by omega
        by_cases hbc : b.toNat < c.toNat
        · rw [if_pos (by omega)]
        · rw [if_neg hbc] at h2
          by_cases hcb : c.toNat < b.toNat
          · simp [hcb] at h2
          · rw [if_neg hcb] at h2
            rw [if_neg (by omega), if_neg (by omega)]
            exact lexLess_trans as bs cs h1 h2

theorem lexLess_total : ∀ a b : List Char,
    lexLess a b = false → lexLess b a = false → a = b
  | [], [], _, _ => rfl
  | [], _ :: _, h, _ => by simp [lexLess] at h
  | _ :: _, [], _, h => by simp [lexLess] at h
  | a :: as, b :: bs, h1, h2 => by
    simp only [lexLess] at h1 h2
    by_cases hab : a.toNat < b.toNat
    · simp [hab] at h1
    · by_cases hba : b.toNat < a.toNat
      · simp [hba] at h2
      · rw [if_neg hab, if_neg hba] at h1
        rw [if_neg hba, if_neg hab] at h2
        have hn : a.toNat = b.toNat := by omega
        have hc : a = b := by
          apply Char.ext
          apply UInt32.ext
          exact hn
        rw [hc, lexLess_total as bs h1 h2]

theorem strLess_irrefl (a : String) : strLess a a = false := lexLess_irrefl a.data

theorem strLess_trans {a b c : String} (h1 : strLess a b = true) (h2 : strLess b c = true) :
    strLess a c = true := lexLess_trans _ _ _ h1 h2

theorem strLess_total {a b : String} (h1 : strLess a b = false) (h2 : strLess b a = false) :
    a = b := String.ext (lexLess_total _ _ h1 h2)

theorem strLess_asymm {a b : String} (h : strLess a b = true) : strLess b a = false := by
  cases hba : strLess b a with
  | false => rfl
  | true =>
    have := strLess_trans h hba
    rw [strLess_irrefl] at this
    exact absurd this (by decide)

theorem notGreater_trans {a b c : String} (h1 : strLess b a = false)
    (h2 : strLess c b = false) : strLess c a = false := by
  cases hca : strLess c a with
  | false => rfl
  | true =>
    cases hbc : strLess b c with
    | true =>
      have := strLess_trans hbc hca
      rw [h1] at this
      exact absurd this (by decide)
    | false =>
      have hbceq : c = b := strLess_total h2 hbc
      subst hbceq
      rw [h1] at hca
      exact absurd hca (by decide)

theorem insertString_perm (k : String) (l : List String) : (insertString k l).Perm (k :: l) := by
  induction l with
  | nil => exact List.Perm.refl _
  | cons x xs ih =>
    simp only [insertString]
    split
    · exact List.Perm.refl _
    · exact (List.Perm.cons x ih).trans (List.Perm.swap k x xs)

theorem sortStrings_perm (l : List String) : (sortStrings l).Perm l := by
  induction l with
  | nil => exact List.Perm.refl _
  | cons x xs ih =>
    simp only [sortStrings]
    exact (insertString_perm x _).trans (List.Perm.cons x ih)

theorem insertString_ascending (k : String) (l : List String) (h : Ascending l) :
    Ascending (insertString k l) := by
  induction l with
  | nil => simp [insertString, Ascending]
  | cons x xs ih =>
    simp only [Ascending, List.pairwise_cons] at h
    simp only [insertString]
    split
    · next hk =>
      simp only [Ascending, List.pairwise_cons]
      refine ⟨?_, h⟩
      intro b hb
      rcases List.mem_cons.mp hb with rfl | hb
      · exact strLess_asymm hk
      · exact notGreater_trans (strLess_asymm hk) (h.1 b hb)
    · next hk =>
      have hk1 : strLess k x = false := by simpa using hk
      simp only [Ascending, List.pairwise_cons]
      refine ⟨?_, ih h.2⟩
      intro b hb
      have hb1 := (insertString_perm k xs).mem_iff.mp hb
      rcases List.mem_cons.mp hb1 with rfl | hb2
      · exact hk1
      · exact h.1 b hb2

theorem sortStrings_ascending (l : List String) : Ascending (sortStrings l) := by
  induction l with
  | nil => simp [sortStrings, Ascending]
  | cons x xs ih => exact insertString_ascending x _ ih

theorem ascending_unique : ∀ (l1 l2 : List String), l1.Perm l2 → Ascending l1 → Ascending l2 →
    l1 = l2 := by
  intro l1 l2 hp h1 h2
  haveI : IsAntisymm String (fun a b => strLess b a = false) :=
    ⟨fun a b hab hba => strLess_total hba hab⟩
  exact List.eq_of_perm_of_sorted hp h1 h2

theorem keysAscending_nodup {es : List (String × Value)} (h : KeysAscending es) :
    (es.map Prod.fst).Nodup := by
  unfold KeysAscending at h
  rw [List.Nodup, List.pairwise_map]
  refine h.imp ?_
  intro a b hab heq
  rw [heq, strLess_irrefl] at hab
  exact absurd hab (by decide)

theorem lookup_of_mem {m : List (String × Value)} (hn : (m.map Prod.fst).Nodup)
    {k : String} {v : Value} (h : (k, v) ∈ m) : m.lookup k = some v := by
  induction m with
  | nil => simp at h
  | cons hd tl ih =>
    obtain ⟨k1, v1⟩ := hd
    simp only [List.map_cons, List.nodup_cons] at hn
    rcases List.mem_cons.mp h with h1 | h1
    · simp only [Prod.mk.injEq] at h1
      obtain ⟨rfl, rfl⟩ := h1
      simp [List.lookup]
    · have hne : k ≠ k1 := by
        intro heq
        subst heq
        exact hn.1 (List.mem_map.mpr ⟨(k, v), h1, rfl⟩)
      have hbeq : (k == k1) = false := by simpa using hne
      simp only [List.lookup, hbeq]
      exact ih hn.2 h1

theorem valueAt_of_mem {m : List (String × Value)} (hn : (m.map Prod.fst).Nodup)
    {k : String} {v : Value} (h : (k, v) ∈ m) : valueAt m k = v := by
  simp [valueAt, lookup_of_mem hn h]

theorem mapKeys_eq {m es : List (String × Value)} (hp : es.Perm m) (ha : KeysAscending es) :
    mapKeys m = es.map Prod.fst := by
  apply ascending_unique
  · exact (sortStrings_perm _).trans (hp.map Prod.fst).symm
  · exact sortStrings_ascending _
  · unfold KeysAscending at ha
    unfold Ascending
    rw [List.pairwise_map]
    exact ha.imp (fun hab => strLess_asymm hab)

theorem map_mapKeys {α : Type} {m es : List (String × Value)} (hp : es.Perm m)
    (ha : KeysAscending es) (f : String → Value → α) :
    (mapKeys m).map (fun k => f k (valueAt m k)) = es.map (fun e => f e.1 e.2) := by
  rw [mapKeys_eq hp ha, List.map_map]
  apply List.map_congr_left
  intro e he
  have hn : (m.map Prod.fst).Nodup := (hp.map Prod.fst).nodup_iff.mp (keysAscending_nodup ha)
  have : valueAt m e.1 = e.2 := valueAt_of_mem hn (hp.mem_iff.mp he)
  simp [Function.comp, this]

theorem identity_defines : Defines identityFormatters identityRoles :=
  ⟨rfl, rfl, rfl, rfl, rfl, rfl, rfl, rfl, rfl⟩

/-! ## The compact layout -/

/-- C1: for a formatters table that defines the looked-up roles, `compactMap`
returns the entries of the map, taken in ascending key order (`es` is the
ascending enumeration of the bindings of `m`) and joined by one space; the
entry of `k` bound to `v` is the key under `object.key`, `=` under
`object.separator`, and then the compact rendering of `v` under `object.value`
when `v` is a map or a list, the primitive encoding of `v` without that
wrapping otherwise. The empty map gives the empty string. -/
theorem compactMap_entries (wide : Char → Bool) (c : config) (R : Roles)
    (hc : Defines c.format R) (m es : List (String × Value)) (hp : es.Perm m)
    (ha : KeysAscending es) :
    ∃ r : Value → String,
      (∀ v, compact wide v c = some (r v)) ∧
      (∀ p, primitive wide p c = some (r (.prim p))) ∧
      compactMap wide m c =
        some (" ".intercalate (es.map fun e =>
          R.key e.1 ++ R.separator "=" ++
            (if isComposite e.2 then R.value (r e.2) else r e.2))) ∧
      compactMap wide [] c = some "" := by
  have hr : ∀ v, compact wide v c = some ((compact wide v c).getD "") :=
    fun v => getD_of_isSome (compact_total wide c R hc v)
  refine ⟨fun v => (compact wide v c).getD "", hr, ?_, ?_, ?_⟩
  · intro p
    have := hr (.prim p)
    rw [compact] at this
    rw [this]
    simp [compact]
  · rw [compactMap,
      compactMapLoop_spec wide c R hc (fun v => (compact wide v c).getD "") m (mapKeys m)
        (mapKeys m) 0 "" (fun k _ => hr _) (by simp)]
    have := map_mapKeys hp ha (compactEntry R fun v => (compact wide v c).getD "")
    rw [this]
    simp [compactEntry]
  · rw [compactMap]
    have hk : mapKeys [] = [] := rfl
    rw [hk, compactMapLoop]

/-- Witness of C1: a map listed with `b` before `a`, under identity formatters. -/
theorem compactMap_entries_witness :
    compactMap samplePrintable [("b", .prim (.str "x")), ("a", .list [])]
      ⟨identityFormatters⟩ = some "a=[] b=x" := by
  obtain ⟨r, hr, -, hm, -⟩ :=
    compactMap_entries samplePrintable ⟨identityFormatters⟩ identityRoles identity_defines
      [("b", .prim (.str "x")), ("a", .list [])] [("a", .list []), ("b", .prim (.str "x"))]
      (List.Perm.swap _ _ _) (by simp [KeysAscending]; decide)
  have h1 : r (.list []) = "[]" := by
    have := hr (.list [])
    simp +decide [compact, compactSlice, compactSliceLoop, call, identityFormatters,
      List.lookup] at this
    exact this.symm
  have h2 : r (.prim (.str "x")) = "x" := by
    have := hr (.prim (.str "x"))
    simp +decide [compact, primitive, call, identityFormatters, List.lookup, containsAny,
      trimSpace] at this
    exact this.symm
  rw [hm]
  simp +decide [h1, h2, isComposite, identityRoles, String.intercalate, String.intercalate.go]

/-- C2: for a formatters table that defines the looked-up roles, `compactSlice`
returns `[` under `array.delimiter`, then the compact renderings of the
elements in list order with `, ` under `array.separator` between consecutive
elements (none before the first or after the last), then `]` under
`array.delimiter`. The empty list gives the two delimiters. -/
theorem compactSlice_elements (wide : Char → Bool) (c : config) (R : Roles)
    (hc : Defines c.format R) (xs : List Value) :
    ∃ r : Value → String,
      (∀ v, compact wide v c = some (r v)) ∧
      compactSlice wide xs c =
        some (R.delimiter "[" ++ (R.arraySeparator ", ").intercalate (xs.map r) ++
          R.delimiter "]") ∧
      compactSlice wide [] c = some (R.delimiter "[" ++ R.delimiter "]") := by
  have hr : ∀ v, compact wide v c = some ((compact wide v c).getD "") :=
    fun v => getD_of_isSome (compact_total wide c R hc v)
  obtain ⟨-, -, -, -, -, -, -, hdelim, -⟩ := id hc
  have hall : ∀ ys : List Value, compactSlice wide ys c =
      some (R.delimiter "[" ++
        (R.arraySeparator ", ").intercalate (ys.map fun v => (compact wide v c).getD "") ++
        R.delimiter "]") := by
    intro ys
    rw [compactSlice]
    simp only [call_of_lookup hdelim, Option.bind_eq_bind, Option.some_bind,
      compactSliceLoop_spec wide c R hc (fun v => (compact wide v c).getD "") ys 0 _
        (fun v _ => hr v), Option.pure_def]
    simp
  refine ⟨fun v => (compact wide v c).getD "", hr, hall xs, ?_⟩
  rw [hall []]
  simp [intercalate_nil]

/-- Witness of C2: a list of three elements and the empty list, under identity
formatters. -/
theorem compactSlice_elements_witness :
    compactSlice samplePrintable [.prim (.bool true), .list [], .prim (.str "q")]
        ⟨identityFormatters⟩ = some "[true, [], q]" ∧
      compactSlice samplePrintable [] ⟨identityFormatters⟩ = some "[]" := by
  obtain ⟨r, hr, hm, he⟩ :=
    compactSlice_elements samplePrintable ⟨identityFormatters⟩ identityRoles identity_defines
      [.prim (.bool true), .list [], .prim (.str "q")]
  have h1 : r (.list []) = "[]" := by
    have := hr (.list [])
    simp +decide [compact, compactSlice, compactSliceLoop, call, identityFormatters,
      List.lookup] at this
    exact this.symm
  have h2 : r (.prim (.str "q")) = "q" := by
    have := hr (.prim (.str "q"))
    simp +decide [compact, primitive, call, identityFormatters, List.lookup, containsAny,
      trimSpace] at this
    exact this.symm
  have h3 : r (.prim (.bool true)) = "true" := by
    have := hr (.prim (.bool true))
    simp +decide [compact, primitive, call, identityFormatters, List.lookup, formatBool] at this
    exact this.symm
  refine ⟨?_, ?_⟩
  · rw [hm]
    simp +decide [h1, h2, h3, identityRoles, String.intercalate, String.intercalate.go]
  · rw [he]
    simp +decide [identityRoles]

/-! ## The expanded layout -/

/-- C3: for a formatters table that defines the looked-up roles, `expandedMap`
returns the concatenation, over the keys in ascending order (`es` is the
ascending enumeration of the bindings of `m`), of one block per key `k` bound
to `v`: for a map or a list, the prefix, the key under `object.key`, `:` under
`object.separator`, a newline, and the expanded rendering of `v` under the
prefix extended by two spaces; for any other value the single line made of
the prefix, the key, the separator, a space, the encoding of `v` (the same
under every prefix) and a newline. -/
theorem expandedMap_blocks (wide : Char → Bool) (c : config) (R : Roles)
    (hc : Defines c.format R) (m es : List (String × Value)) (hp : es.Perm m)
    (ha : KeysAscending es) (pfx : String) :
    ∃ (e : Value → String → String) (enc : Prim → String),
      (∀ v p, expanded wide v p c = some (e v p)) ∧
      (∀ q, primitive wide q c = some (enc q)) ∧
      expandedMap wide m pfx c =
        some (String.join (es.map fun en =>
          match en.2 with
          | .prim q => pfx ++ R.key en.1 ++ R.separator ":" ++ " " ++ enc q ++ "\n"
          | v => pfx ++ R.key en.1 ++ R.separator ":" ++ "\n" ++ e v (pfx ++ "  "))) := by
  have he : ∀ v p, expanded wide v p c = some ((expanded wide v p c).getD "") :=
    fun v p => getD_of_isSome (expanded_total wide c R hc v p)
  have hq : ∀ q, primitive wide q c = some ((primitive wide q c).getD "") :=
    fun q => getD_of_isSome (primitive_total wide c R hc q)
  refine ⟨fun v p => (expanded wide v p c).getD "", fun q => (primitive wide q c).getD "",
    he, hq, ?_⟩
  rw [expandedMap,
    expandedMapLoop_spec wide c R hc (fun v p => (expanded wide v p c).getD "") m pfx
      (mapKeys m) "" (fun k _ => he _ _)]
  have := map_mapKeys hp ha
    (expandedMapBlock R (fun v p => (expanded wide v p c).getD "") pfx)
  rw [this]
  simp only [String.empty_append, Option.some.injEq]
  congr 1
  apply List.map_congr_left
  intro en _
  cases hv : en.2 with
  | prim q => simp [expandedMapBlock, isComposite, expanded]
  | map m1 => simp [expandedMapBlock, isComposite]
  | list xs1 => simp [expandedMapBlock, isComposite]

/-- Witness of C3: a map with a list and a string, under identity formatters. -/
theorem expandedMap_blocks_witness :
    expandedMap samplePrintable [("b", .prim (.str "x")), ("a", .list [.prim (.bool true)])]
      "  " ⟨identityFormatters⟩ = some "  a:\n    - true\n  b: x\n" := by
  obtain ⟨e, enc, he, hq, hm⟩ :=
    expandedMap_blocks samplePrintable ⟨identityFormatters⟩ identityRoles identity_defines
      [("b", .prim (.str "x")), ("a", .list [.prim (.bool true)])]
      [("a", .list [.prim (.bool true)]), ("b", .prim (.str "x"))]
      (List.Perm.swap _ _ _) (by simp [KeysAscending]; decide) "  "
  have h1 : e (.list [.prim (.bool true)]) "    " = "    - true\n" := by
    have := he (.list [.prim (.bool true)]) "    "
    simp +decide [expanded, expandedSlice, expandedSliceLoop, primitive, call,
      identityFormatters, List.lookup, formatBool] at this
    exact this.symm
  have h2 : enc (.str "x") = "x" := by
    have := hq (.str "x")
    simp +decide [primitive, call, identityFormatters, List.lookup, containsAny,
      trimSpace] at this
    exact this.symm
  rw [hm]
  simp +decide [h1, h2, identityRoles, String.join]

/-- C4: for a formatters table that defines the looked-up roles,
`expandedSlice` returns the concatenation, in list order, of one block per
element `v`: for a map or a list, the prefix, `-` under `array.separator`, a
newline, and the expanded rendering of `v` under the prefix extended by two
spaces; for any other value the single line made of the prefix, the
separator, a space, the encoding of `v` and a newline. The empty list gives
the empty string. -/
theorem expandedSlice_blocks (wide : Char → Bool) (c : config) (R : Roles)
    (hc : Defines c.format R) (xs : List Value) (pfx : String) :
    ∃ (e : Value → String → String) (enc : Prim → String),
      (∀ v p, expanded wide v p c = some (e v p)) ∧
      (∀ q, primitive wide q c = some (enc q)) ∧
      expandedSlice wide xs pfx c =
        some (String.join (xs.map fun v =>
          match v with
          | .prim q => pfx ++ R.arraySeparator "-" ++ " " ++ enc q ++ "\n"
          | v => pfx ++ R.arraySeparator "-" ++ "\n" ++ e v (pfx ++ "  "))) ∧
      expandedSlice wide [] pfx c = some "" := by
  have he : ∀ v p, expanded wide v p c = some ((expanded wide v p c).getD "") :=
    fun v p => getD_of_isSome (expanded_total wide c R hc v p)
  have hq : ∀ q, primitive wide q c = some ((primitive wide q c).getD "") :=
    fun q => getD_of_isSome (primitive_total wide c R hc q)
  refine ⟨fun v p => (expanded wide v p c).getD "", fun q => (primitive wide q c).getD "",
    he, hq, ?_, ?_⟩
  · rw [expandedSlice,
      expandedSliceLoop_spec wide c R hc (fun v p => (expanded wide v p c).getD "")
        (fun q => (primitive wide q c).getD "") pfx xs "" (fun v _ => he _ _)
        (fun q _ => hq q)]
    simp only [String.empty_append]
    rfl
  · rw [expandedSlice, expandedSliceLoop]

/-- Witness of C4: a list with a string and a nested list, and the empty list,
under identity formatters. -/
theorem expandedSlice_blocks_witness :
    expandedSlice samplePrintable [.prim (.str "a"), .list [.prim (.str "b")]] "  "
        ⟨identityFormatters⟩ = some "  - a\n  -\n    - b\n" ∧
      expandedSlice samplePrintable [] "  " ⟨identityFormatters⟩ = some "" := by
  obtain ⟨e, enc, he, hq, hm, hnil⟩ :=
    expandedSlice_blocks samplePrintable ⟨identityFormatters⟩ identityRoles identity_defines
      [.prim (.str "a"), .list [.prim (.str "b")]] "  "
  have h1 : e (.list [.prim (.str "b")]) "    " = "    - b\n" := by
    have := he (.list [.prim (.str "b")]) "    "
    simp +decide [expanded, expandedSlice, expandedSliceLoop, primitive, call,
      identityFormatters, List.lookup, containsAny, trimSpace] at this
    exact this.symm
  have h2 : enc (.str "a") = "a" := by
    have := hq (.str "a")
    simp +decide [primitive, call, identityFormatters, List.lookup, containsAny,
      trimSpace] at this
    exact this.symm
  refine ⟨?_, hnil⟩
  rw [hm]
  simp +decide [h1, h2, identityRoles, String.join]

/-! ## Independence of the order of a map -/

theorem compactMapLoop_congr (wide : Char → Bool) (c : config)
    (m1 m2 : List (String × Value)) (keys : List String) :
    ∀ (rest : List String) (i : Nat) (s : String),
      (∀ k ∈ rest, isComposite (valueAt m1 k) = isComposite (valueAt m2 k) ∧
        compact wide (valueAt m1 k) c = compact wide (valueAt m2 k) c) →
      compactMapLoop wide m1 c keys i rest s = compactMapLoop wide m2 c keys i rest s := by
  intro rest
  induction rest with
  | nil =>
    intro i s _
    conv_lhs => rw [compactMapLoop]
    conv_rhs => rw [compactMapLoop]
  | cons k rest ih =>
    intro i s h
    obtain ⟨h1, h2⟩ := h k (List.mem_cons_self _ _)
    have hrest := fun k hk => h k (List.mem_cons_of_mem _ hk)
    conv_lhs => rw [compactMapLoop]
    conv_rhs => rw [compactMapLoop]
    simp only [h1, h2, fun i s => ih i s hrest]

theorem compactSliceLoop_congr (wide : Char → Bool) (c : config) :
    ∀ (xs ys : List Value) (i : Nat) (s : String),
      List.Forall₂ (fun v w => compact wide v c = compact wide w c) xs ys →
      compactSliceLoop wide xs c i s = compactSliceLoop wide ys c i s := by
  intro xs ys i s h
  induction h generalizing i s with
  | nil => rfl
  | cons hvw _ ih =>
    conv_lhs => rw [compactSliceLoop]
    conv_rhs => rw [compactSliceLoop]
    simp only [hvw, ih]

theorem expandedMapLoop_congr (wide : Char → Bool) (c : config)
    (m1 m2 : List (String × Value)) (pfx : String) :
    ∀ (rest : List String) (s : String),
      (∀ k ∈ rest, isComposite (valueAt m1 k) = isComposite (valueAt m2 k) ∧
        expanded wide (valueAt m1 k) (pfx ++ "  ") c =
          expanded wide (valueAt m2 k) (pfx ++ "  ") c) →
      expandedMapLoop wide m1 pfx c rest s = expandedMapLoop wide m2 pfx c rest s := by
  intro rest
  induction rest with
  | nil =>
    intro s _
    conv_lhs => rw [expandedMapLoop]
    conv_rhs => rw [expandedMapLoop]
  | cons k rest ih =>
    intro s h
    obtain ⟨h1, h2⟩ := h k (List.mem_cons_self _ _)
    have hrest := fun k hk => h k (List.mem_cons_of_mem _ hk)
    conv_lhs => rw [expandedMapLoop]
    conv_rhs => rw [expandedMapLoop]
    simp only [h1, h2, fun s => ih s hrest]

theorem expandedSliceLoop_congr (wide : Char → Bool) (c : config) (pfx : String) :
    ∀ (xs ys : List Value) (s : String),
      List.Forall₂ (fun v w => (∀ p, v = .prim p → w = .prim p) ∧
        isComposite v = isComposite w ∧
        expanded wide v (pfx ++ "  ") c = expanded wide w (pfx ++ "  ") c) xs ys →
      expandedSliceLoop wide xs pfx c s = expandedSliceLoop wide ys pfx c s := by
  intro xs ys s h
  induction h generalizing s with
  | nil => rfl
  | @cons v w xs1 ys1 hvw _ ih =>
    obtain ⟨hp, hcomp, he⟩ := hvw
    conv_lhs => rw [expandedSliceLoop]
    conv_rhs => rw [expandedSliceLoop]
    cases v with
    | prim p =>
      rw [hp p rfl]
      simp only [ih]
    | map m1 =>
      cases w with
      | prim q => simp [isComposite] at hcomp
      | map m2 => simp only [he, ih]
      | list ys2 => simp only [he, ih]
    | list xs2 =>
      cases w with
      | prim q => simp [isComposite] at hcomp
      | map m2 => simp only [he, ih]
      | list ys2 => simp only [he, ih]

theorem sameBindings_isComposite {a b : Value} (h : SameBindings a b) :
    isComposite a = isComposite b := by
  cases h <;> rfl

theorem sameBindings_prim {p : Prim} {b : Value} (h : SameBindings (.prim p) b) :
    b = .prim p := by
  cases h
  rfl

theorem sameBindings_list {xs ys : List Value} (h : SameBindings (.list xs) (.list ys)) :
    List.Forall₂ SameBindings xs ys := by
  induction xs generalizing ys with
  | nil =>
    cases h
    exact List.Forall₂.nil
  | cons x xs ih =>
    cases h with
    | listCons _ v2 _ ys1 h1 h2 => exact List.Forall₂.cons h1 (ih h2)

theorem forall₂_weight {P Q : Value → Value → Prop} {n : Nat} :
    ∀ {xs ys : List Value}, List.Forall₂ P xs ys → weightList xs ≤ n →
      (∀ v w, v.weight ≤ n → P v w → Q v w) → List.Forall₂ Q xs ys := by
  intro xs ys h
  induction h with
  | nil => intro _ _; exact List.Forall₂.nil
  | cons hvw _ ih =>
    intro hw hpq
    simp only [weightList] at hw
    exact List.Forall₂.cons (hpq _ _ (by omega) hvw) (ih (by omega) hpq)

theorem sameBindings_mapKeys {m1 m2 : List (String × Value)}
    (hperm : (m1.map Prod.fst).Perm (m2.map Prod.fst)) : mapKeys m1 = mapKeys m2 :=
  ascending_unique _ _
    (((sortStrings_perm _).trans hperm).trans (sortStrings_perm _).symm)
    (sortStrings_ascending _) (sortStrings_ascending _)

theorem sameBindings_render_aux (wide : Char → Bool) (c : config) :
    ∀ (n : Nat) (a b : Value), a.weight ≤ n → SameBindings a b →
      compact wide a c = compact wide b c ∧
      ∀ pfx, expanded wide a pfx c = expanded wide b pfx c := by
  intro n
  induction n with
  | zero =>
    intro a b hw h
    cases h with
    | prim p => exact ⟨rfl, fun _ => rfl⟩
    | listNil => exact ⟨rfl, fun _ => rfl⟩
    | listCons v1 v2 xs ys h1 h2 => simp [Value.weight] at hw
    | map m1 m2 hn1 hn2 hperm hkids => simp [Value.weight] at hw
  | succ n ih =>
    intro a b hw h
    cases h with
    | prim p => exact ⟨rfl, fun _ => rfl⟩
    | listNil => exact ⟨rfl, fun _ => rfl⟩
    | listCons v1 v2 xs ys h1 h2 =>
      have hall := sameBindings_list (SameBindings.listCons v1 v2 xs ys h1 h2)
      simp only [Value.weight] at hw
      have hwl : weightList (v1 :: xs) ≤ n := by omega
      refine ⟨?_, fun pfx => ?_⟩
      · conv_lhs => rw [compact, compactSlice]
        conv_rhs => rw [compact, compactSlice]
        have hloop := fun i s => compactSliceLoop_congr wide c (v1 :: xs) (v2 :: ys) i s
          (forall₂_weight hall hwl (fun v w hv hvw => (ih v w hv hvw).1))
        simp only [hloop]
      · conv_lhs => rw [expanded, expandedSlice]
        conv_rhs => rw [expanded, expandedSlice]
        exact expandedSliceLoop_congr wide c pfx (v1 :: xs) (v2 :: ys) ""
          (forall₂_weight hall hwl (fun v w hv hvw =>
            ⟨fun p hp => by subst hp; exact sameBindings_prim hvw,
              sameBindings_isComposite hvw, (ih v w hv hvw).2 _⟩))
    | map m1 m2 hn1 hn2 hperm hkids =>
      simp only [Value.weight] at hw
      have hkeys := sameBindings_mapKeys hperm
      have hkid : ∀ k ∈ mapKeys m1, SameBindings (valueAt m1 k) (valueAt m2 k) := by
        intro k hk
        have hk1 : k ∈ m1.map Prod.fst := (sortStrings_perm _).mem_iff.mp hk
        have hk2 : k ∈ m2.map Prod.fst := hperm.mem_iff.mp hk1
        obtain ⟨⟨k1, v1⟩, hmem1, rfl⟩ := List.mem_map.mp hk1
        obtain ⟨⟨k2, v2⟩, hmem2, hk2eq⟩ := List.mem_map.mp hk2
        simp only at hk2eq
        subst hk2eq
        rw [valueAt_of_mem hn1 hmem1, valueAt_of_mem hn2 hmem2]
        exact hkids _ _ _ hmem1 hmem2
      have hwk : ∀ k, (valueAt m1 k).weight ≤ n := fun k => by
        have := weight_valueAt m1 k
        omega
      refine ⟨?_, fun pfx => ?_⟩
      · conv_lhs => rw [compact, compactMap]
        conv_rhs => rw [compact, compactMap]
        rw [← hkeys]
        exact compactMapLoop_congr wide c m1 m2 _ _ 0 ""
          (fun k hk => ⟨sameBindings_isComposite (hkid k hk), (ih _ _ (hwk k) (hkid k hk)).1⟩)
      · conv_lhs => rw [expanded, expandedMap]
        conv_rhs => rw [expanded, expandedMap]
        rw [← hkeys]
        exact expandedMapLoop_congr wide c m1 m2 pfx _ ""
          (fun k hk => ⟨sameBindings_isComposite (hkid k hk), (ih _ _ (hwk k) (hkid k hk)).2 _⟩)

/-- C5: rendering does not depend on the order in which the entries of a map
are listed: two records that hold the same bindings at every nesting level
(`SameBindings`) get the same result from `Compact` and the same result from
`Expanded`, whatever the options, hence whatever the formatters table. -/
theorem render_order_independent (colors : Colors) (wide : Char → Bool)
    (r1 r2 : List (String × Value)) (h : SameBindings (.map r1) (.map r2))
    (options : List ConfigOption) :
    Compact colors wide r1 options = Compact colors wide r2 options ∧
    Expanded colors wide r1 options = Expanded colors wide r2 options := by
  have haux := fun c => sameBindings_render_aux wide c _ _ _ (Nat.le_refl _) h
  exact ⟨(haux _).1, (haux _).2 _⟩

/-- Witness of C5: the map built as `b` then `a` renders `a` before `b`. -/
theorem render_order_independent_witness :
    Compact plainColors samplePrintable
        [("b", .prim (.num 0x3FF0000000000000)), ("a", .prim (.num 0x4000000000000000))]
        [WithFormatters identityFormatters] = some "a=2 b=1" ∧
      Expanded plainColors samplePrintable
        [("b", .prim (.num 0x3FF0000000000000)), ("a", .prim (.num 0x4000000000000000))]
        [WithFormatters identityFormatters] = some "  a: 2\n  b: 1\n" := by
  have hsame : SameBindings
      (.map [("b", .prim (.num 0x3FF0000000000000)), ("a", .prim (.num 0x4000000000000000))])
      (.map [("a", .prim (.num 0x4000000000000000)), ("b", .prim (.num 0x3FF0000000000000))]) := by
    refine SameBindings.map _ _ (by decide) (by decide) (List.Perm.swap _ _ _) ?_
    intro k v1 v2 h1 h2
    simp only [List.mem_cons, Prod.mk.injEq, List.mem_singleton, List.not_mem_nil,
      or_false] at h1 h2
    rcases h1 with ⟨rfl, rfl⟩ | ⟨rfl, rfl⟩ <;> rcases h2 with ⟨hk, rfl⟩ | ⟨hk, rfl⟩
    · exact absurd hk (by decide)
    · exact SameBindings.prim _
    · exact SameBindings.prim _
    · exact absurd hk (by decide)
  obtain ⟨hc, he⟩ := render_order_independent plainColors samplePrintable _ _ hsame
    [WithFormatters identityFormatters]
  have hk : mapKeys [("a", .prim (.num 0x4000000000000000)),
      ("b", .prim (.num 0x3FF0000000000000))] = ["a", "b"] := by decide
  have h1 : formatFloat 0x3FF0000000000000 = "1" := by decide
  have h2 : formatFloat 0x4000000000000000 = "2" := by decide
  rw [hc, he]
  constructor
  · simp +decide [Compact, WithFormatters, compact, compactMap, compactMapLoop, hk, primitive,
      call, identityFormatters, isComposite, valueAt, List.lookup, h1, h2]
  · simp +decide [Expanded, WithFormatters, expanded, expandedMap, expandedMapLoop, hk,
      primitive, call, identityFormatters, isComposite, valueAt, List.lookup, h1, h2]

/-! ## Primitive encoding of strings -/

theorem containsAny_of_mem {s : String} (h : ∃ ch ∈ s.data, ch = ' ' ∨ ch = '\t' ∨ ch = '\n') :
    containsAny s " \n\t" = true := by
  obtain ⟨ch, hmem, hch⟩ := h
  simp only [containsAny, List.any_eq_true]
  refine ⟨ch, hmem, ?_⟩
  rcases hch with rfl | rfl | rfl <;> decide

theorem containsAny_eq_false {s : String}
    (h : ∀ ch ∈ s.data, ch ≠ ' ' ∧ ch ≠ '\t' ∧ ch ≠ '\n') : containsAny s " \n\t" = false := by
  simp only [containsAny, List.any_eq_false]
  intro ch hmem
  obtain ⟨h1, h2, h3⟩ := h ch hmem
  have hd : (" \n\t" : String).data = [' ', '\n', '\t'] := rfl
  simp [hd, h1, h2, h3]

theorem trimSpace_ne_empty {s : String} (h : ∃ ch ∈ s.data, isSpace ch = false) :
    (trimSpace s == "") = false := by
  obtain ⟨ch, hmem, hch⟩ := h
  have h1 : ch ∈ s.data.dropWhile isSpace := by
    have hsplit := List.takeWhile_append_dropWhile isSpace s.data
    rw [← hsplit] at hmem
    rcases List.mem_append.mp hmem with h2 | h2
    · have := List.mem_takeWhile_imp h2
      rw [hch] at this
      exact absurd this (by decide)
    · exact h2
  have h2 : (s.data.dropWhile isSpace).reverse.dropWhile isSpace ≠ [] := by
    intro hnil
    rw [List.dropWhile_eq_nil_iff] at hnil
    have := hnil ch (List.mem_reverse.mpr h1)
    rw [hch] at this
    exact absurd this (by decide)
  have h3 : trimSpace s ≠ "" := by
    intro heq
    have hd := congrArg String.data heq
    simp only [trimSpace] at hd
    exact h2 (List.reverse_eq_nil_iff.mp hd)
  simpa using h3

/-- C6: a string that is empty or contains a space, a tab or a newline is
first turned into its quoted literal (`strconv.Quote`) and then passed through
the transform of the role `string`. -/
theorem primitive_string_quoted (wide : Char → Bool) (c : config) (R : Roles)
    (hc : Defines c.format R) (s : String)
    (h : s = "" ∨ ∃ ch ∈ s.data, ch = ' ' ∨ ch = '\t' ∨ ch = '\n') :
    primitive wide (.str s) c = some (R.string (quote wide s)) := by
  have hcond : (containsAny s " \n\t" || trimSpace s == "") = true := by
    rcases h with rfl | h
    · decide
    · simp [containsAny_of_mem h]
  simp only [primitive, hcond, if_true]
  exact call_of_lookup hc.1 _

/-- Witness of C6: `hello world` and the empty string are quoted. -/
theorem primitive_string_quoted_witness :
    primitive samplePrintable (.str "hello world") ⟨identityFormatters⟩ =
        some "\"hello world\"" ∧
      primitive samplePrintable (.str "") ⟨identityFormatters⟩ = some "\"\"" := by
  constructor
  · rw [primitive_string_quoted samplePrintable ⟨identityFormatters⟩ identityRoles
      identity_defines "hello world" (Or.inr ⟨' ', by decide, Or.inl rfl⟩)]
    decide
  · rw [primitive_string_quoted samplePrintable ⟨identityFormatters⟩ identityRoles
      identity_defines "" (Or.inl rfl)]
    decide

/-- C7, as stated, fails: the string made of one carriage return is not
empty and holds no space, tab or newline, yet it is quoted, because
`strings.TrimSpace` leaves nothing of it. -/
theorem primitive_string_bare_counterexample :
    ("\r" : String) ≠ "" ∧
      (∀ ch ∈ ("\r" : String).data, ch ≠ ' ' ∧ ch ≠ '\t' ∧ ch ≠ '\n') ∧
      primitive samplePrintable (.str "\r") ⟨identityFormatters⟩ = some "\"\\r\"" ∧
      primitive samplePrintable (.str "\r") ⟨identityFormatters⟩ ≠
        some (identityRoles.string "\r") := by
  refine ⟨by decide, by decide, by decide, by decide⟩

theorem trimSpace_eq_empty {s : String} (h : ∀ ch ∈ s.data, isSpace ch = true) :
    (trimSpace s == "") = true := by
  have h1 : s.data.dropWhile isSpace = [] := List.dropWhile_eq_nil_iff.mpr h
  simp only [trimSpace, h1, List.reverse_nil, List.dropWhile_nil]
  decide

/-- C7, amended: a string that contains no space, tab or newline and has at
least one character that is not white space is passed through the transform of
the role `string` as it is, unquoted and unescaped; a string made of white
space only is quoted, as the empty string is. -/
theorem primitive_string_bare (wide : Char → Bool) (c : config) (R : Roles)
    (hc : Defines c.format R) (s : String) :
    ((∀ ch ∈ s.data, ch ≠ ' ' ∧ ch ≠ '\t' ∧ ch ≠ '\n') →
      (∃ ch ∈ s.data, isSpace ch = false) →
      primitive wide (.str s) c = some (R.string s)) ∧
    ((∀ ch ∈ s.data, isSpace ch = true) →
      primitive wide (.str s) c = some (R.string (quote wide s))) := by
  constructor
  · intro h1 h2
    have hcond : (containsAny s " \n\t" || trimSpace s == "") = false := by
      simp [containsAny_eq_false h1, trimSpace_ne_empty h2]
    simp only [primitive, hcond]
    exact call_of_lookup hc.1 _
  · intro h
    have hcond : (containsAny s " \n\t" || trimSpace s == "") = true := by
      simp [trimSpace_eq_empty h]
    simp only [primitive, hcond, if_true]
    exact call_of_lookup hc.1 _

/-- Witness of C7 as amended: `hello` is rendered bare. -/
theorem primitive_string_bare_witness :
    primitive samplePrintable (.str "hello") ⟨identityFormatters⟩ = some "hello" := by
  rw [(primitive_string_bare samplePrintable ⟨identityFormatters⟩ identityRoles
    identity_defines "hello").1 (by decide) ⟨'h', by decide, by decide⟩]
  rfl

/-! ## Formatters tables -/

/-- C8, as stated, fails: with the empty table passed through `WithFormatters`
the lookup of `object.key` yields the nil function, and neither `Compact` nor
`Expanded` returns a string for a record with one key. -/
theorem role_lookup_counterexample :
    Compact plainColors samplePrintable [("a", .prim (.str "x"))] [WithFormatters []] = none ∧
      Expanded plainColors samplePrintable [("a", .prim (.str "x"))] [WithFormatters []] =
        none := by
  have hk : mapKeys [("a", .prim (.str "x"))] = ["a"] := by decide
  constructor
  · simp +decide [Compact, WithFormatters, compact, compactMap, compactMapLoop, hk, call,
      List.lookup]
  · simp +decide [Expanded, WithFormatters, expanded, expandedMap, expandedMapLoop, hk, call,
      List.lookup]

/-- C8, amended: for every table `f` that defines the nine looked-up roles and
for every record, `Compact` and `Expanded` with `WithFormatters(f)` return a
string; a role that is absent from the table is not replaced by the identity:
the call of its transform does not return. -/
theorem render_returns (colors : Colors) (wide : Char → Bool) (f : Formatters) (R : Roles)
    (hc : Defines f R) (r : List (String × Value)) :
    (∃ s, Compact colors wide r [WithFormatters f] = some s) ∧
    (∃ s, Expanded colors wide r [WithFormatters f] = some s) ∧
    (∀ role arg, f.lookup role = none → call ⟨f⟩ role arg = none) := by
  refine ⟨?_, ?_, ?_⟩
  · exact compact_total wide ⟨f⟩ R hc (.map r)
  · exact expanded_total wide ⟨f⟩ R hc (.map r) "  "
  · intro role arg h
    simp [call, h]

/-- Witness of C8 as amended: the table of identity formatters. -/
theorem render_returns_witness :
    (∃ s, Compact plainColors samplePrintable [("a", .prim (.str "x"))]
        [WithFormatters identityFormatters] = some s) ∧
      (∃ s, Expanded plainColors samplePrintable [("a", .prim (.str "x"))]
        [WithFormatters identityFormatters] = some s) :=
  let h := render_returns plainColors samplePrintable identityFormatters identityRoles
    identity_defines [("a", .prim (.str "x"))]
  ⟨h.1, h.2.1⟩

/-- C9, as stated, fails: after `WithFormatters` with the empty table the
active table has no entry for `string`, while the default table with the keys
of the empty table replaced has one; and with a table that only mentions
`string` the role `object.key` has not kept its default, so that `Compact`
does not return. -/
theorem withFormatters_counterexample :
    (([WithFormatters []].foldl (fun c o => o c)
        (⟨defaultFormatters plainColors⟩ : config)).format.lookup "string").isNone = true ∧
      ((withOverrides (defaultFormatters plainColors) []).lookup "string").isSome = true ∧
      Compact plainColors samplePrintable [("a", .prim (.str "x"))]
        [WithFormatters [("string", id)]] = none := by
  have hk : mapKeys [("a", .prim (.str "x"))] = ["a"] := by decide
  refine ⟨rfl, rfl, ?_⟩
  simp +decide [Compact, WithFormatters, compact, compactMap, compactMapLoop, hk, call,
    List.lookup]

/-- C9, amended: `WithFormatters` replaces the table: with `WithFormatters(f)`
as the last option, `Compact` and `Expanded` render with the table `f` itself,
so a role that `f` does not mention has no transform (no default is kept). -/
theorem withFormatters_replaces (colors : Colors) (wide : Char → Bool)
    (r : List (String × Value)) (options : List ConfigOption) (f : Formatters) :
    Compact colors wide r (options ++ [WithFormatters f]) = compact wide (.map r) ⟨f⟩ ∧
    Expanded colors wide r (options ++ [WithFormatters f]) =
      expanded wide (.map r) "  " ⟨f⟩ := by
  simp [Compact, Expanded, WithFormatters, List.foldl_append]

/-! ## The compact layout is a single line -/

theorem noNewline_append {a b : String} (ha : NoNewline a) (hb : NoNewline b) :
    NoNewline (a ++ b) := by
  simp only [NoNewline, String.data_append, List.mem_append, not_or] at *
  exact ⟨ha, hb⟩

theorem noNewline_join {l : List String} (h : ∀ x ∈ l, NoNewline x) :
    NoNewline (String.join l) := by
  induction l with
  | nil => simp [join_nil, NoNewline]
  | cons x xs ih =>
    rw [join_cons]
    exact noNewline_append (h x (List.mem_cons_self _ _))
      (ih fun y hy => h y (List.mem_cons_of_mem _ hy))

theorem noNewline_intercalate {sep : String} {l : List String} (hs : NoNewline sep)
    (h : ∀ x ∈ l, NoNewline x) : NoNewline (sep.intercalate l) := by
  cases l with
  | nil => simp [intercalate_nil, NoNewline]
  | cons x xs =>
    rw [intercalate_cons]
    refine noNewline_append (h x (List.mem_cons_self _ _)) (noNewline_join ?_)
    intro y hy
    obtain ⟨z, hz, rfl⟩ := List.mem_map.mp hy
    exact noNewline_append hs (h z (List.mem_cons_of_mem _ hz))

theorem noNewline_of_digits {l : List Char} (h : ∀ ch ∈ l, 48 ≤ ch.toNat) :
    NoNewline (String.mk l) := by
  intro hmem
  have := h _ hmem
  simp at this

theorem digitChar_ge (k : Nat) (hk : k < 10) : 48 ≤ (Nat.digitChar k).toNat := by
  interval_cases k <;> decide

theorem toDigitsCore_ge : ∀ (fuel n : Nat) (ds : List Char), (∀ ch ∈ ds, 48 ≤ ch.toNat) →
    ∀ ch ∈ Nat.toDigitsCore 10 fuel n ds, 48 ≤ ch.toNat := by
  intro fuel
  induction fuel with
  | zero =>
    intro n ds h
    simpa [Nat.toDigitsCore] using h
  | succ fuel ih =>
    intro n ds h
    have hd : ∀ ch ∈ Nat.digitChar (n % 10) :: ds, 48 ≤ ch.toNat := by
      intro ch hch
      rcases List.mem_cons.mp hch with rfl | hch
      · exact digitChar_ge _ (Nat.mod_lt _ (by decide))
      · exact h ch hch
    simp only [Nat.toDigitsCore]
    split
    · exact hd
    · exact ih _ _ hd

theorem toDigits_ge (n : Nat) : ∀ ch ∈ Nat.toDigits 10 n, 48 ≤ ch.toNat :=
  toDigitsCore_ge _ _ _ (by simp)

theorem trim_ge {a : Decimal} (h : ∀ ch ∈ a.d, 48 ≤ ch.toNat) :
    ∀ ch ∈ (trim a).d, 48 ≤ ch.toNat := by
  intro ch hch
  simp only [trim] at hch
  split at hch
  · simp at hch
  · have h1 := List.mem_reverse.mp hch
    have h2 := (List.dropWhile_sublist _).subset h1
    exact h ch (List.mem_reverse.mp h2)

theorem decimalOf_ge (mant : Nat) (e2 : Int) : ∀ ch ∈ (decimalOf mant e2).d, 48 ≤ ch.toNat := by
  cases e2 with
  | ofNat k => exact trim_ge (toDigits_ge _)
  | negSucc k => exact trim_ge (toDigits_ge _)

theorem roundDown_ge {a : Decimal} (h : ∀ ch ∈ a.d, 48 ≤ ch.toNat) (nd : Int) :
    ∀ ch ∈ (roundDown a nd).d, 48 ≤ ch.toNat := by
  simp only [roundDown]
  split
  · exact h
  · exact trim_ge (fun ch hch => h ch (List.mem_of_mem_take hch))

theorem bumpLast_ge : ∀ (l ds : List Char), (∀ ch ∈ l, 48 ≤ ch.toNat) →
    bumpLast l = some ds → ∀ ch ∈ ds, 48 ≤ ch.toNat := by
  intro l
  induction l with
  | nil => intro ds _ h; simp [bumpLast] at h
  | cons x xs ih =>
    intro ds h hb
    simp only [bumpLast] at hb
    split at hb
    · next hlt =>
      simp only [Option.some.injEq] at hb
      subst hb
      intro ch hch
      rcases List.mem_cons.mp (List.mem_reverse.mp hch) with rfl | hch
      · have hx := h x (List.mem_cons_self _ _)
        have h9 : ('9').toNat = 57 := rfl
        rw [h9] at hlt
        have hk : 49 ≤ x.toNat + 1 ∧ x.toNat + 1 ≤ 57 := by omega
        generalize x.toNat + 1 = k at hk
        obtain ⟨hk1, hk2⟩ := hk
        interval_cases k <;> decide
      · exact h ch (List.mem_cons_of_mem _ hch)
    · exact ih ds (fun ch hch => h ch (List.mem_cons_of_mem _ hch)) hb

theorem roundUp_ge {a : Decimal} (h : ∀ ch ∈ a.d, 48 ≤ ch.toNat) (nd : Int) :
    ∀ ch ∈ (roundUp a nd).d, 48 ≤ ch.toNat := by
  simp only [roundUp]
  split
  · exact h
  · split
    · next ds hb =>
      exact bumpLast_ge _ ds
        (fun ch hch => h ch (List.mem_of_mem_take (List.mem_reverse.mp hch))) hb
    · intro ch hch
      simp only [List.mem_singleton] at hch
      subst hch
      decide

theorem round_ge {a : Decimal} (h : ∀ ch ∈ a.d, 48 ≤ ch.toNat) (nd : Int) :
    ∀ ch ∈ (round a nd).d, 48 ≤ ch.toNat := by
  simp only [round]
  split
  · exact h
  · split
    · exact roundUp_ge h nd
    · exact roundDown_ge h nd

theorem roundShortestLoop_ge (d lower upper : Decimal) (inclusive : Bool)
    (h : ∀ ch ∈ d.d, 48 ≤ ch.toNat) :
    ∀ (left ui upperdelta : Nat),
      ∀ ch ∈ (roundShortestLoop d lower upper inclusive left ui upperdelta).d,
        48 ≤ ch.toNat := by
  intro left
  induction left with
  | zero => intro ui upperdelta; exact h
  | succ left ih =>
    intro ui upperdelta
    simp only [roundShortestLoop]
    repeat' split
    all_goals first
      | exact round_ge h _
      | exact roundDown_ge h _
      | exact roundUp_ge h _
      | exact ih _ _

theorem roundShortest_ge (d : Decimal) (mant : Nat) (exp : Int)
    (h : ∀ ch ∈ d.d, 48 ≤ ch.toNat) : ∀ ch ∈ (roundShortest d mant exp).d, 48 ≤ ch.toNat := by
  simp only [roundShortest]
  split
  · simp
  · split
    · exact h
    · exact roundShortestLoop_ge d _ _ _ h _ _ _

theorem digitAt_ge {ds : List Char} (h : ∀ ch ∈ ds, 48 ≤ ch.toNat) (i : Int) :
    48 ≤ (digitAt ds i).toNat := by
  simp only [digitAt]
  split
  · next hi =>
    have hlt : i.toNat < ds.length := by omega
    rw [List.getD_eq_getElem _ _ hlt]
    exact h _ (List.getElem_mem _)
  · decide

theorem fmtF_noNewline (neg : Bool) (d : Decimal) (prec : Nat)
    (h : ∀ ch ∈ d.d, 48 ≤ ch.toNat) : NoNewline (String.mk (fmtF neg d prec)) := by
  have hge : ∀ ch : Char, 48 ≤ ch.toNat → ch ≠ '\n' := by
    intro ch hch heq
    subst heq
    simp at hch
  intro hmem
  simp only [fmtF, List.mem_append] at hmem
  rcases hmem with (hmem | hmem) | hmem
  · split at hmem
    · simp at hmem
    · simp at hmem
  · split at hmem
    · rcases List.mem_append.mp hmem with h1 | h1
      · exact hge _ (h _ (List.mem_of_mem_take h1)) rfl
      · have := (List.mem_replicate.mp h1).2
        simp at this
    · simp at hmem
  · split at hmem
    · rcases List.mem_cons.mp hmem with h1 | h1
      · simp at h1
      · obtain ⟨i, _, hi⟩ := List.mem_map.mp h1
        exact hge _ (hi ▸ digitAt_ge h _) rfl
    · simp at hmem

theorem formatFloat_noNewline (bits : Nat) : NoNewline (formatFloat bits) := by
  simp only [formatFloat]
  split
  · split
    · unfold NoNewline; decide
    · split <;> (unfold NoNewline; decide)
  · exact fmtF_noNewline _ _ _ (roundShortest_ge _ _ _ (decimalOf_ge _ _))

theorem lowerhex_ne (n : Nat) : lowerhex n ≠ '\n' := by
  have hlt : n % 16 < 16 := Nat.mod_lt _ (by decide)
  simp only [lowerhex]
  generalize n % 16 = k at hlt
  interval_cases k <;> decide

theorem hexEscape_ne (n : Nat) : ∀ ch ∈ hexEscape n, ch ≠ '\n' := by
  have hb : backslash ≠ '\n' := by decide
  intro ch hch
  unfold hexEscape at hch
  split at hch
  · simp only [List.mem_cons, List.mem_singleton, List.not_mem_nil, or_false] at hch
    rcases hch with rfl | rfl | rfl | rfl
    · exact hb
    · decide
    · exact lowerhex_ne _
    · exact lowerhex_ne _
  · split at hch
    · simp only [List.mem_cons, List.mem_singleton, List.not_mem_nil, or_false] at hch
      rcases hch with rfl | rfl | rfl | rfl | rfl | rfl
      · exact hb
      · decide
      all_goals exact lowerhex_ne _
    · simp only [List.mem_cons, List.mem_singleton, List.not_mem_nil, or_false] at hch
      rcases hch with rfl | rfl | rfl | rfl | rfl | rfl | rfl | rfl | rfl | rfl
      · exact hb
      · decide
      all_goals exact lowerhex_ne _

theorem escapeCode_ne (n : Nat) : ∀ ch ∈ escapeCode n, ch ≠ '\n' := by
  intro ch hch
  unfold escapeCode at hch
  split at hch
  case h_8 => exact hexEscape_ne _ ch hch
  all_goals
    simp only [List.mem_cons, List.mem_singleton, List.not_mem_nil, or_false] at hch
    rcases hch with rfl | rfl <;> decide

theorem escapedRune_ne (wide : Char → Bool) (r : Char) :
    ∀ ch ∈ escapedRune wide r, ch ≠ '\n' := by
  intro ch hch
  unfold escapedRune at hch
  split at hch
  · next h =>
    simp only [List.mem_cons, List.mem_singleton, List.not_mem_nil, or_false] at hch
    rcases hch with rfl | rfl
    · decide
    · rcases h with rfl | rfl <;> decide
  · split at hch
    · next h =>
      simp only [List.mem_singleton] at hch
      subst hch
      intro heq
      subst heq
      simp [isPrint] at h
    · exact escapeCode_ne _ ch hch

theorem quote_noNewline (wide : Char → Bool) (s : String) : NoNewline (quote wide s) := by
  intro hmem
  simp only [quote, List.mem_cons, List.mem_append, List.mem_flatMap, List.mem_singleton,
    List.not_mem_nil, or_false] at hmem
  rcases hmem with h | h | h
  · exact absurd h (by decide)
  · obtain ⟨r, _, hr⟩ := h
    exact escapedRune_ne wide r _ hr rfl
  · exact absurd h (by decide)

theorem formatBool_noNewline (b : Bool) : NoNewline (formatBool b) := by
  cases b <;> (unfold NoNewline; decide)

theorem monthAbbr_noNewline (n : Nat) : NoNewline (monthAbbr n) := by
  unfold monthAbbr
  split <;> (unfold NoNewline; decide)

theorem dateSuffix_noNewline (t : Time) : NoNewline (dateSuffix t) := by
  unfold dateSuffix
  split <;> (unfold NoNewline; decide)

theorem pad2_noNewline (n : Nat) : NoNewline (pad2 n) := by
  apply noNewline_of_digits
  intro ch hch
  simp only [pad2, List.mem_append] at hch
  rcases hch with h | h
  · split at h
    · simp only [List.mem_singleton] at h
      subst h
      decide
    · simp at h
  · exact toDigits_ge _ _ h

theorem formatDate_noNewline (t : Time) : NoNewline (formatDate t) := by
  have hlit : ∀ s : String, s = " " ∨ s = ":" ∨ s = "pm" ∨ s = "am" → NoNewline s := by
    intro s hs
    rcases hs with rfl | rfl | rfl | rfl <;> (unfold NoNewline; decide)
  unfold formatDate
  refine noNewline_append (noNewline_append (noNewline_append (noNewline_append
    (noNewline_append (noNewline_append (noNewline_append (noNewline_append (noNewline_append
    (noNewline_append (monthAbbr_noNewline _) (hlit _ (Or.inl rfl)))
    (noNewline_of_digits (toDigits_ge _))) (dateSuffix_noNewline _)) (hlit _ (Or.inl rfl)))
    (pad2_noNewline _)) (hlit _ (Or.inr (Or.inl rfl)))) (pad2_noNewline _))
    (hlit _ (Or.inr (Or.inl rfl)))) (pad2_noNewline _)) ?_
  split
  · exact hlit _ (Or.inr (Or.inr (Or.inl rfl)))
  · exact hlit _ (Or.inr (Or.inr (Or.inr rfl)))

theorem noNewline_of_containsAny {s : String} (h : containsAny s " \n\t" = false) :
    NoNewline s := by
  intro hmem
  simp only [containsAny, List.any_eq_false] at h
  exact h _ hmem (by decide)

theorem primitive_noNewline (wide : Char → Bool) (c : config)
    (hc : Defines c.format identityRoles) (p : Prim) (hp : (Value.prim p).plain = true) :
    ∃ s, primitive wide p c = some s ∧ NoNewline s := by
  obtain ⟨hstr, hnum, hbool, hdate, -, -, -, -, -⟩ := hc
  cases p with
  | str s =>
    simp only [primitive]
    split
    · exact ⟨_, call_of_lookup hstr _, quote_noNewline wide s⟩
    · next hcond =>
      refine ⟨_, call_of_lookup hstr _, ?_⟩
      show NoNewline s
      apply noNewline_of_containsAny
      cases hca : containsAny s " \n\t" with
      | false => rfl
      | true => simp [hca] at hcond
  | time t => exact ⟨_, call_of_lookup hdate _, formatDate_noNewline t⟩
  | bool b => exact ⟨_, call_of_lookup hbool _, formatBool_noNewline b⟩
  | num bits => exact ⟨_, call_of_lookup hnum _, formatFloat_noNewline bits⟩
  | other text => simp [Value.plain] at hp

theorem plainEntries_valueAt {m : List (String × Value)} (h : plainEntries m = true)
    {k : String} (hk : k ∈ m.map Prod.fst) : NoNewline k ∧ (valueAt m k).plain = true := by
  induction m with
  | nil => simp at hk
  | cons hd tl ih =>
    obtain ⟨k1, v1⟩ := hd
    simp only [plainEntries, Bool.and_eq_true, Bool.not_eq_true'] at h
    obtain ⟨⟨hk1, hv1⟩, htl⟩ := h
    by_cases heq : k = k1
    · subst heq
      refine ⟨?_, ?_⟩
      · intro hmem
        simp [hmem] at hk1
      · simpa [valueAt, List.lookup] using hv1
    · have hk2 : k ∈ tl.map Prod.fst := by
        simp only [List.map_cons, List.mem_cons] at hk
        rcases hk with hk | hk
        · exact absurd hk heq
        · exact hk
      have hbeq : (k == k1) = false := by simpa using heq
      have hva : valueAt ((k1, v1) :: tl) k = valueAt tl k := by
        simp [valueAt, List.lookup, hbeq]
      rw [hva]
      exact ih htl hk2

theorem plainList_mem {xs : List Value} (h : plainList xs = true) {v : Value} (hv : v ∈ xs) :
    v.plain = true := by
  induction xs with
  | nil => simp at hv
  | cons x xs ih =>
    simp only [plainList, Bool.and_eq_true] at h
    rcases List.mem_cons.mp hv with rfl | hv
    · exact h.1
    · exact ih h.2 hv

theorem compact_noNewline_aux (wide : Char → Bool) (c : config)
    (hc : Defines c.format identityRoles) :
    ∀ (n : Nat) (v : Value), v.weight ≤ n → v.plain = true →
      ∃ s, compact wide v c = some s ∧ NoNewline s := by
  have hlit : ∀ s : String, s = " " ∨ s = "=" ∨ s = "[" ∨ s = "]" ∨ s = ", " → NoNewline s := by
    intro s hs
    rcases hs with rfl | rfl | rfl | rfl | rfl <;> (unfold NoNewline; decide)
  have hr : ∀ v, compact wide v c = some ((compact wide v c).getD "") :=
    fun v => getD_of_isSome (compact_total wide c identityRoles hc v)
  have hget : ∀ v, (∃ s, compact wide v c = some s ∧ NoNewline s) →
      NoNewline ((compact wide v c).getD "") := by
    intro v hv
    obtain ⟨s, hs, hn⟩ := hv
    rw [hs]
    exact hn
  intro n
  induction n with
  | zero =>
    intro v hw hp
    cases v with
    | prim p =>
      rw [compact]
      exact primitive_noNewline wide c hc p hp
    | map m => simp [Value.weight] at hw
    | list xs => simp [Value.weight] at hw
  | succ n ih =>
    intro v hw hp
    cases v with
    | prim p =>
      rw [compact]
      exact primitive_noNewline wide c hc p hp
    | map m =>
      simp only [Value.weight] at hw
      simp only [Value.plain] at hp
      refine ⟨_, hr _, ?_⟩
      have hm := compactMapLoop_spec wide c identityRoles hc
        (fun v => (compact wide v c).getD "") m (mapKeys m) (mapKeys m) 0 ""
        (fun k _ => hr _) (by simp)
      rw [compact, compactMap, hm]
      simp only [String.empty_append, Option.getD_some]
      apply noNewline_intercalate (hlit _ (Or.inl rfl))
      intro x hx
      obtain ⟨k, hk, rfl⟩ := List.mem_map.mp hx
      have hk1 : k ∈ m.map Prod.fst := (sortStrings_perm _).mem_iff.mp hk
      obtain ⟨hkn, hvp⟩ := plainEntries_valueAt hp hk1
      have hkid := hget _ (ih (valueAt m k) (by have := weight_valueAt m k; omega) hvp)
      simp only [compactEntry, identityRoles, id]
      refine noNewline_append (noNewline_append hkn (hlit _ (Or.inr (Or.inl rfl)))) ?_
      split <;> exact hkid
    | list xs =>
      simp only [Value.weight] at hw
      simp only [Value.plain] at hp
      refine ⟨_, hr _, ?_⟩
      obtain ⟨-, -, -, -, -, -, -, hdelim, -⟩ := id hc
      rw [compact, compactSlice]
      simp only [call_of_lookup hdelim, Option.bind_eq_bind, Option.some_bind,
        compactSliceLoop_spec wide c identityRoles hc (fun v => (compact wide v c).getD "")
          xs 0 _ (fun v _ => hr v), Option.pure_def]
      simp only [Option.getD_some, identityRoles, id, gt_iff_lt, Nat.lt_irrefl, if_false]
      refine noNewline_append (noNewline_append (hlit _ (Or.inr (Or.inr (Or.inl rfl)))) ?_)
        (hlit _ (Or.inr (Or.inr (Or.inr (Or.inl rfl)))))
      apply noNewline_intercalate (hlit _ (Or.inr (Or.inr (Or.inr (Or.inr rfl)))))
      intro x hx
      obtain ⟨v, hv, rfl⟩ := List.mem_map.mp hx
      exact hget _ (ih v (by have := weight_mem hv; omega) (plainList_mem hp hv))

/-- C10, as stated, fails: a key is passed to the role `object.key` as it is,
so a record whose key contains a newline gets a compact rendering that
contains that newline. -/
theorem compact_single_line_counterexample :
    Compact plainColors samplePrintable [("a\nb", .prim (.str "x"))]
        [WithFormatters identityFormatters] = some "a\nb=x" ∧
      '\n' ∈ ("a\nb=x" : String).data := by
  have hk : mapKeys [("a\nb", .prim (.str "x"))] = ["a\nb"] := by decide
  refine ⟨?_, by decide⟩
  simp +decide [Compact, WithFormatters, compact, compactMap, compactMapLoop, hk, primitive,
    call, identityFormatters, isComposite, valueAt, List.lookup, containsAny, trimSpace]

/-- C10, amended: for every record whose keys, at every nesting level, contain
no newline character and whose leaves are strings, bools, numbers or
date-times, rendered with a table that has the identity under each of the nine
roles, `Compact` returns a string that contains no newline character; in
particular its last character is not a newline. -/
theorem compact_single_line (colors : Colors) (wide : Char → Bool) (f : Formatters)
    (hf : Defines f identityRoles) (r : List (String × Value)) (hr : plainEntries r = true) :
    ∃ s, Compact colors wide r [WithFormatters f] = some s ∧ '\n' ∉ s.data ∧
      s.data.getLast? ≠ some '\n' := by
  obtain ⟨s, hs, hn⟩ := compact_noNewline_aux wide ⟨f⟩ hf _ (.map r) (Nat.le_refl _)
    (by simpa [Value.plain] using hr)
  refine ⟨s, hs, hn, ?_⟩
  intro hlast
  exact hn (List.mem_of_getLast?_eq_some hlast)

/-- Witness of C10 as amended: a newline inside a string value is escaped by the
quoting, so that the compact rendering stays on one line. -/
theorem compact_single_line_witness :
    ∃ s, Compact plainColors samplePrintable
        [("msg", .prim (.str "line one\nline two")), ("n", .list [.prim (.bool true)])]
        [WithFormatters identityFormatters] = some s ∧ '\n' ∉ s.data ∧
      s.data.getLast? ≠ some '\n' :=
  compact_single_line plainColors samplePrintable identityFormatters identity_defines
    [("msg", .prim (.str "line one\nline two")), ("n", .list [.prim (.bool true)])]
    (by decide)

/-! ## Dates -/

/-- C14: `dateSuffix` returns `st` exactly on the days 1, 21 and 31, `nd`
exactly on 2 and 22, `rd` exactly on 3 and 23, and `th` on every other day (so
on 11, 12 and 13); `formatDate` puts that suffix directly after the day number
printed without padding, between the month and the time of day, as in
`Jan 2nd 03:04:05pm` for 2 January, 15:04:05. -/
theorem dateSuffix_table (t : Time) :
    (dateSuffix t = "st" ↔ t.day = 1 ∨ t.day = 21 ∨ t.day = 31) ∧
    (dateSuffix t = "nd" ↔ t.day = 2 ∨ t.day = 22) ∧
    (dateSuffix t = "rd" ↔ t.day = 3 ∨ t.day = 23) ∧
    (dateSuffix t = "th" ↔
      t.day ≠ 1 ∧ t.day ≠ 21 ∧ t.day ≠ 31 ∧ t.day ≠ 2 ∧ t.day ≠ 22 ∧ t.day ≠ 3 ∧ t.day ≠ 23) ∧
    (∃ before after : String,
      before = monthAbbr t.month ++ " " ∧
      formatDate t = before ++ String.mk (Nat.toDigits 10 t.day) ++ dateSuffix t ++ after) ∧
    formatDate ⟨1, 2, 15, 4, 5⟩ = "Jan 2nd 03:04:05pm" := by
  refine ⟨?_, ?_, ?_, ?_, ?_, by decide⟩
  · unfold dateSuffix
    split <;> simp_all
  · unfold dateSuffix
    split <;> simp_all
  · unfold dateSuffix
    split <;> simp_all
  · unfold dateSuffix
    split <;> simp_all
  · refine ⟨_, " " ++ pad2 (if t.hour % 12 = 0 then 12 else t.hour % 12) ++ ":" ++
      pad2 t.minute ++ ":" ++ pad2 t.second ++ (if t.hour ≥ 12 then "pm" else "am"), rfl, ?_⟩
    simp only [formatDate, String.append_assoc]

/-! ## Other values -/

/-- C15: a value that is none of string, bool, number, date-time, map or list
is encoded as its generic text (`fmt.Sprintf("%v", v)`) with no role transform
applied: whatever the formatters table, also the empty one, `primitive`,
`compact` and `expanded` return that text; so the Go integer 359 is rendered
as `359` under every table. -/
theorem primitive_other (wide : Char → Bool) (c : config) (text pfx : String) :
    primitive wide (.other text) c = some text ∧
    compact wide (.prim (.other text)) c = some text ∧
    expanded wide (.prim (.other text)) pfx c = some text ∧
    compact wide (.prim (.other "359")) ⟨[]⟩ = some "359" := by
  refine ⟨rfl, ?_, ?_, ?_⟩
  · rw [compact]
    rfl
  · rw [expanded]
    rfl
  · rw [compact]
    rfl

/-! ## End to end -/

/-- C16: the record with `level` = `info`, `count` = 3.0 and `tags` = the list
of `a` and `b`, rendered with identity formatters, gives
`count=3 level=info tags=[a, b]` in the compact layout. -/
theorem compact_example (colors : Colors) (wide : Char → Bool) :
    Compact colors wide
      [("level", .prim (.str "info")), ("count", .prim (.num 0x4008000000000000)),
        ("tags", .list [.prim (.str "a"), .prim (.str "b")])]
      [WithFormatters identityFormatters] = some "count=3 level=info tags=[a, b]" := by
  have hk : mapKeys [("level", .prim (.str "info")),
      ("count", .prim (.num 0x4008000000000000)),
      ("tags", .list [.prim (.str "a"), .prim (.str "b")])] = ["count", "level", "tags"] := by
    decide
  have hf : formatFloat 0x4008000000000000 = "3" := by decide
  simp +decide [Compact, WithFormatters, compact, compactMap, compactMapLoop, compactSlice,
    compactSliceLoop, hk, primitive, call, identityFormatters, isComposite, valueAt,
    List.lookup, hf, containsAny, trimSpace]

/-! ## The default table -/

/-- C18: the default table is keyed by the seventeen role names, each once;
it defines each of the nine roles that the renderers look up, so that
`Compact` and `Expanded` without options return a string for every record. -/
theorem defaultFormatters_keys (colors : Colors) (wide : Char → Bool)
    (r : List (String × Value)) :
    (defaultFormatters colors).map Prod.fst =
      ["debug", "info", "warn", "warning", "error", "fatal", "critical", "emergency",
        "string", "number", "bool", "date", "object.key", "object.separator",
        "object.value", "array.delimiter", "array.separator"] ∧
    ((defaultFormatters colors).map Prod.fst).Nodup ∧
    (∀ role ∈ ["string", "number", "bool", "date", "object.key", "object.separator",
        "object.value", "array.delimiter", "array.separator"],
      ((defaultFormatters colors).lookup role).isSome = true) ∧
    (∃ s, Compact colors wide r [] = some s) ∧
    (∃ s, Expanded colors wide r [] = some s) := by
  have hd : Defines (defaultFormatters colors)
      ⟨colors.None, colors.None, colors.None, colors.None, colors.Purple, colors.Gray,
        colors.None, colors.Gray, colors.Gray⟩ :=
    ⟨rfl, rfl, rfl, rfl, rfl, rfl, rfl, rfl, rfl⟩
  have hkeys : (defaultFormatters colors).map Prod.fst =
      ["debug", "info", "warn", "warning", "error", "fatal", "critical", "emergency",
        "string", "number", "bool", "date", "object.key", "object.separator",
        "object.value", "array.delimiter", "array.separator"] := rfl
  refine ⟨hkeys, by rw [hkeys]; decide, ?_, ?_, ?_⟩
  · intro role hrole
    simp only [List.mem_cons, List.mem_singleton, List.not_mem_nil, or_false] at hrole
    rcases hrole with rfl | rfl | rfl | rfl | rfl | rfl | rfl | rfl | rfl <;> rfl
  · exact compact_total wide ⟨defaultFormatters colors⟩ _ hd (.map r)
  · exact expanded_total wide ⟨defaultFormatters colors⟩ _ hd (.map r) "  "

/-! ## The keys of a map -/

/-- C19: for a map (an association list with pairwise distinct keys),
`mapKeys` returns a list that contains every key of the map, each exactly
once, and nothing else, in strictly ascending order of Go's `<` on strings; for
the empty map it is the empty list. -/
theorem mapKeys_sorted (m : List (String × Value)) (hm : (m.map Prod.fst).Nodup) :
    (∀ k, k ∈ mapKeys m ↔ k ∈ m.map Prod.fst) ∧
    (∀ k, (mapKeys m).count k = if k ∈ m.map Prod.fst then 1 else 0) ∧
    (mapKeys m).Pairwise (fun a b => strLess a b = true) ∧
    mapKeys [] = [] := by
  have hperm : (mapKeys m).Perm (m.map Prod.fst) := sortStrings_perm _
  have hnd : (mapKeys m).Nodup := hperm.nodup_iff.mpr hm
  refine ⟨fun k => hperm.mem_iff, ?_, ?_, rfl⟩
  · intro k
    by_cases hk : k ∈ m.map Prod.fst
    · rw [if_pos hk]
      exact List.count_eq_one_of_mem hnd (hperm.mem_iff.mpr hk)
    · rw [if_neg hk]
      exact List.count_eq_zero_of_not_mem (fun h => hk (hperm.mem_iff.mp h))
  · have hasc : Ascending (mapKeys m) := sortStrings_ascending _
    unfold Ascending at hasc
    have hboth := hasc.and hnd
    refine hboth.imp ?_
    intro a b hab
    obtain ⟨h1, h2⟩ := hab
    cases hlt : strLess a b with
    | true => rfl
    | false => exact absurd (strLess_total hlt h1) h2

/-- Witness of C19: a map listed as `b`, `a`, `c`. -/
theorem mapKeys_sorted_witness :
    mapKeys [("b", .prim (.bool true)), ("a", .list []), ("c", .map [])] = ["a", "b", "c"] ∧
      (mapKeys [("b", .prim (.bool true)), ("a", .list []), ("c", .map [])]).Pairwise
        (fun a b => strLess a b = true) :=
  ⟨by decide,
    (mapKeys_sorted [("b", .prim (.bool true)), ("a", .list []), ("c", .map [])]
      (by decide)).2.2.1⟩

/-! ## Roles that are never looked up -/

theorem call_agree {f g : Formatters} (h : AgreeOnRoles f g) {role : String}
    (hr : role ∈ lookedUpRoles) (arg : String) : call ⟨f⟩ role arg = call ⟨g⟩ role arg := by
  simp only [call, h role hr]

theorem primitive_agree (wide : Char → Bool) {f g : Formatters} (h : AgreeOnRoles f g)
    (p : Prim) : primitive wide p ⟨f⟩ = primitive wide p ⟨g⟩ := by
  cases p with
  | str s =>
    simp only [primitive, call_agree h (show "string" ∈ lookedUpRoles by decide)]
  | time t => simp only [primitive, call_agree h (show "date" ∈ lookedUpRoles by decide)]
  | bool b => simp only [primitive, call_agree h (show "bool" ∈ lookedUpRoles by decide)]
  | num bits => simp only [primitive, call_agree h (show "number" ∈ lookedUpRoles by decide)]
  | other text => rfl

theorem compactMapLoop_agree (wide : Char → Bool) {f g : Formatters} (h : AgreeOnRoles f g)
    (m : List (String × Value)) (keys : List String)
    (hkid : ∀ k, compact wide (valueAt m k) ⟨f⟩ = compact wide (valueAt m k) ⟨g⟩) :
    ∀ (rest : List String) (i : Nat) (s : String),
      compactMapLoop wide m ⟨f⟩ keys i rest s = compactMapLoop wide m ⟨g⟩ keys i rest s := by
  intro rest
  induction rest with
  | nil =>
    intro i s
    conv_lhs => rw [compactMapLoop]
    conv_rhs => rw [compactMapLoop]
  | cons k rest ih =>
    intro i s
    conv_lhs => rw [compactMapLoop]
    conv_rhs => rw [compactMapLoop]
    simp only [call_agree h (show "object.key" ∈ lookedUpRoles by decide),
      call_agree h (show "object.separator" ∈ lookedUpRoles by decide),
      call_agree h (show "object.value" ∈ lookedUpRoles by decide), hkid, ih]

theorem compactSliceLoop_agree (wide : Char → Bool) {f g : Formatters} (h : AgreeOnRoles f g) :
    ∀ (rest : List Value) (i : Nat) (s : String),
      (∀ v ∈ rest, compact wide v ⟨f⟩ = compact wide v ⟨g⟩) →
      compactSliceLoop wide rest ⟨f⟩ i s = compactSliceLoop wide rest ⟨g⟩ i s := by
  intro rest
  induction rest with
  | nil =>
    intro i s _
    conv_lhs => rw [compactSliceLoop]
    conv_rhs => rw [compactSliceLoop]
  | cons v rest ih =>
    intro i s hkid
    have hv := hkid v (List.mem_cons_self _ _)
    have hrest := fun i s => ih i s (fun w hw => hkid w (List.mem_cons_of_mem _ hw))
    conv_lhs => rw [compactSliceLoop]
    conv_rhs => rw [compactSliceLoop]
    simp only [call_agree h (show "array.separator" ∈ lookedUpRoles by decide), hv, hrest]

theorem expandedMapLoop_agree (wide : Char → Bool) {f g : Formatters} (h : AgreeOnRoles f g)
    (m : List (String × Value)) (pfx : String)
    (hkid : ∀ k p, expanded wide (valueAt m k) p ⟨f⟩ = expanded wide (valueAt m k) p ⟨g⟩) :
    ∀ (rest : List String) (s : String),
      expandedMapLoop wide m pfx ⟨f⟩ rest s = expandedMapLoop wide m pfx ⟨g⟩ rest s := by
  intro rest
  induction rest with
  | nil =>
    intro s
    conv_lhs => rw [expandedMapLoop]
    conv_rhs => rw [expandedMapLoop]
  | cons k rest ih =>
    intro s
    conv_lhs => rw [expandedMapLoop]
    conv_rhs => rw [expandedMapLoop]
    simp only [call_agree h (show "object.key" ∈ lookedUpRoles by decide),
      call_agree h (show "object.separator" ∈ lookedUpRoles by decide), hkid, ih]

theorem expandedSliceLoop_agree (wide : Char → Bool) {f g : Formatters}
    (h : AgreeOnRoles f g) (pfx : String) :
    ∀ (rest : List Value) (s : String),
      (∀ v ∈ rest, ∀ p, expanded wide v p ⟨f⟩ = expanded wide v p ⟨g⟩) →
      expandedSliceLoop wide rest pfx ⟨f⟩ s = expandedSliceLoop wide rest pfx ⟨g⟩ s := by
  intro rest
  induction rest with
  | nil =>
    intro s _
    conv_lhs => rw [expandedSliceLoop]
    conv_rhs => rw [expandedSliceLoop]
  | cons v rest ih =>
    intro s hkid
    have hv := hkid v (List.mem_cons_self _ _)
    have hrest := fun s => ih s (fun w hw => hkid w (List.mem_cons_of_mem _ hw))
    conv_lhs => rw [expandedSliceLoop]
    conv_rhs => rw [expandedSliceLoop]
    cases v with
    | prim p =>
      simp only [call_agree h (show "array.separator" ∈ lookedUpRoles by decide),
        primitive_agree wide h, hrest]
    | map m1 =>
      simp only [call_agree h (show "array.separator" ∈ lookedUpRoles by decide), hv, hrest]
    | list xs1 =>
      simp only [call_agree h (show "array.separator" ∈ lookedUpRoles by decide), hv, hrest]

theorem render_agree_aux (wide : Char → Bool) {f g : Formatters} (h : AgreeOnRoles f g) :
    ∀ (n : Nat) (v : Value), v.weight ≤ n →
      compact wide v ⟨f⟩ = compact wide v ⟨g⟩ ∧
      ∀ pfx, expanded wide v pfx ⟨f⟩ = expanded wide v pfx ⟨g⟩ := by
  intro n
  induction n with
  | zero =>
    intro v hv
    cases v with
    | prim p =>
      refine ⟨?_, fun pfx => ?_⟩
      · conv_lhs => rw [compact]
        conv_rhs => rw [compact]
        exact primitive_agree wide h p
      · conv_lhs => rw [expanded]
        conv_rhs => rw [expanded]
        exact primitive_agree wide h p
    | map m => simp [Value.weight] at hv
    | list xs => simp [Value.weight] at hv
  | succ n ih =>
    intro v hv
    cases v with
    | prim p =>
      refine ⟨?_, fun pfx => ?_⟩
      · conv_lhs => rw [compact]
        conv_rhs => rw [compact]
        exact primitive_agree wide h p
      · conv_lhs => rw [expanded]
        conv_rhs => rw [expanded]
        exact primitive_agree wide h p
    | map m =>
      simp only [Value.weight] at hv
      have hkid : ∀ k, (valueAt m k).weight ≤ n := fun k => by
        have := weight_valueAt m k
        omega
      refine ⟨?_, fun pfx => ?_⟩
      · conv_lhs => rw [compact, compactMap]
        conv_rhs => rw [compact, compactMap]
        exact compactMapLoop_agree wide h m _ (fun k => (ih _ (hkid k)).1) _ _ _
      · conv_lhs => rw [expanded, expandedMap]
        conv_rhs => rw [expanded, expandedMap]
        exact expandedMapLoop_agree wide h m pfx (fun k p => (ih _ (hkid k)).2 p) _ _
    | list xs =>
      simp only [Value.weight] at hv
      have hkid : ∀ v ∈ xs, v.weight ≤ n := fun v hv1 => by
        have := weight_mem hv1
        omega
      refine ⟨?_, fun pfx => ?_⟩
      · conv_lhs => rw [compact, compactSlice]
        conv_rhs => rw [compact, compactSlice]
        simp only [call_agree h (show "array.delimiter" ∈ lookedUpRoles by decide),
          fun i s => compactSliceLoop_agree wide h xs i s (fun v hv1 => (ih v (hkid v hv1)).1)]
      · conv_lhs => rw [expanded, expandedSlice]
        conv_rhs => rw [expanded, expandedSlice]
        exact expandedSliceLoop_agree wide h pfx xs ""
          (fun v hv1 p => (ih v (hkid v hv1)).2 p)

/-- C12: the roles that the renderers never look up are ignored: two tables
that agree on the nine looked-up roles, whatever they hold under the level
roles or under any other name, give the same result of `Compact` and the same
result of `Expanded` for every record. -/
theorem unused_roles_ignored (colors : Colors) (wide : Char → Bool) (f g : Formatters)
    (h : AgreeOnRoles f g) (r : List (String × Value)) :
    Compact colors wide r [WithFormatters f] = Compact colors wide r [WithFormatters g] ∧
    Expanded colors wide r [WithFormatters f] = Expanded colors wide r [WithFormatters g] := by
  have haux := render_agree_aux wide h _ (.map r) (Nat.le_refl _)
  exact ⟨haux.1, haux.2 _⟩

/-- Witness of C12: the identity table, and the same table with transforms
under the level role `info` and under an unknown name. -/
theorem unused_roles_ignored_witness :
    Compact plainColors samplePrintable [("level", .prim (.str "info"))]
        [WithFormatters identityFormatters] =
      Compact plainColors samplePrintable [("level", .prim (.str "info"))]
        [WithFormatters (("info", fun s => "<" ++ s ++ ">") :: identityFormatters ++
          [("no.such.role", fun _ => "")])] :=
  (unused_roles_ignored plainColors samplePrintable identityFormatters
    (("info", fun s => "<" ++ s ++ ">") :: identityFormatters ++ [("no.such.role", fun _ => "")])
    (by
      intro role hrole
      simp only [lookedUpRoles, List.mem_cons, List.mem_singleton, List.not_mem_nil,
        or_false] at hrole
      rcases hrole with rfl | rfl | rfl | rfl | rfl | rfl | rfl | rfl | rfl <;> rfl)
    [("level", .prim (.str "info"))]).1

/-! ## Lines of the expanded layout end with a newline -/

theorem endsWithNewline_append_right {a b : String} (hb : EndsWithNewline b) :
    EndsWithNewline (a ++ b) := by
  simp only [EndsWithNewline, String.data_append, List.getLast?_append] at *
  rw [hb]
  rfl

theorem endsWithNewline_newline : EndsWithNewline "\n" := rfl

theorem endsWithNewline_append_empty_or {a b : String} (ha : EndsWithNewline a)
    (hb : b = "" ∨ EndsWithNewline b) : EndsWithNewline (a ++ b) := by
  rcases hb with rfl | hb
  · simpa using ha
  · exact endsWithNewline_append_right hb

theorem endsWithNewline_join {l : List String} (h : ∀ x ∈ l, EndsWithNewline x)
    (hne : l ≠ []) : EndsWithNewline (String.join l) := by
  induction l with
  | nil => exact absurd rfl hne
  | cons x xs ih =>
    rw [join_cons]
    cases xs with
    | nil =>
      rw [join_nil]
      simpa using h x (List.mem_cons_self _ _)
    | cons y ys =>
      exact endsWithNewline_append_right
        (ih (fun z hz => h z (List.mem_cons_of_mem _ hz)) (List.cons_ne_nil _ _))

theorem endsWithNewline_ne_empty {s : String} (h : EndsWithNewline s) : s ≠ "" := by
  intro he
  subst he
  simp [EndsWithNewline] at h

theorem join_empty_or_endsWithNewline {l : List String} (h : ∀ x ∈ l, EndsWithNewline x) :
    String.join l = "" ∨ EndsWithNewline (String.join l) := by
  cases l with
  | nil => exact Or.inl rfl
  | cons x xs => exact Or.inr (endsWithNewline_join h (List.cons_ne_nil _ _))

theorem expanded_endsWithNewline_aux (wide : Char → Bool) (c : config) (R : Roles)
    (hc : Defines c.format R) :
    ∀ (n : Nat) (v : Value), v.weight ≤ n → isComposite v = true → ∀ pfx,
      ∃ s, expanded wide v pfx c = some s ∧ (s = "" ∨ EndsWithNewline s) := by
  have he : ∀ v p, expanded wide v p c = some ((expanded wide v p c).getD "") :=
    fun v p => getD_of_isSome (expanded_total wide c R hc v p)
  have hq : ∀ q, primitive wide q c = some ((primitive wide q c).getD "") :=
    fun q => getD_of_isSome (primitive_total wide c R hc q)
  intro n
  induction n with
  | zero =>
    intro v hw hcomp
    cases v with
    | prim p => simp [isComposite] at hcomp
    | map m => simp [Value.weight] at hw
    | list xs => simp [Value.weight] at hw
  | succ n ih =>
    intro v hw hcomp pfx
    have hkid : ∀ w p, w.weight ≤ n → isComposite w = true →
        ((expanded wide w p c).getD "" = "" ∨
          EndsWithNewline ((expanded wide w p c).getD "")) := by
      intro w p hw1 hc1
      obtain ⟨s, hs, hs2⟩ := ih w hw1 hc1 p
      rw [hs]
      exact hs2
    cases v with
    | prim p => simp [isComposite] at hcomp
    | map m =>
      simp only [Value.weight] at hw
      refine ⟨_, he _ _, ?_⟩
      have hm := expandedMapLoop_spec wide c R hc (fun v p => (expanded wide v p c).getD "")
        m pfx (mapKeys m) "" (fun k _ => he _ _)
      rw [expanded, expandedMap, hm]
      simp only [String.empty_append, Option.getD_some]
      apply join_empty_or_endsWithNewline
      intro x hx
      obtain ⟨k, _, rfl⟩ := List.mem_map.mp hx
      simp only [expandedMapBlock]
      split
      · next hcomp1 =>
        refine endsWithNewline_append_empty_or
          (endsWithNewline_append_right endsWithNewline_newline) ?_
        exact hkid _ _ (by have := weight_valueAt m k; omega) hcomp1
      · exact endsWithNewline_append_right endsWithNewline_newline
    | list xs =>
      simp only [Value.weight] at hw
      refine ⟨_, he _ _, ?_⟩
      have hm := expandedSliceLoop_spec wide c R hc
        (fun v p => (expanded wide v p c).getD "") (fun q => (primitive wide q c).getD "")
        pfx xs "" (fun v _ => he _ _) (fun q _ => hq q)
      rw [expanded, expandedSlice, hm]
      simp only [String.empty_append, Option.getD_some]
      apply join_empty_or_endsWithNewline
      intro x hx
      obtain ⟨v, hv, rfl⟩ := List.mem_map.mp hx
      cases v with
      | prim q =>
        simp only [expandedSliceBlock]
        exact endsWithNewline_append_right endsWithNewline_newline
      | map m1 =>
        simp only [expandedSliceBlock]
        exact endsWithNewline_append_empty_or
          (endsWithNewline_append_right endsWithNewline_newline)
          (hkid _ _ (by have := weight_mem hv; omega) rfl)
      | list xs1 =>
        simp only [expandedSliceBlock]
        exact endsWithNewline_append_empty_or
          (endsWithNewline_append_right endsWithNewline_newline)
          (hkid _ _ (by have := weight_mem hv; omega) rfl)

/-- C11: for a formatters table that defines the looked-up roles, `Expanded`
returns the empty string for a record without keys and otherwise a string that
is not empty and whose last character is a newline, also when the last entry
is an empty map or an empty list. -/
theorem expanded_newline_terminated (colors : Colors) (wide : Char → Bool) (f : Formatters)
    (R : Roles) (hc : Defines f R) (r : List (String × Value)) :
    ∃ s, Expanded colors wide r [WithFormatters f] = some s ∧
      (r = [] → s = "") ∧
      (r ≠ [] → s ≠ "" ∧ s.data.getLast? = some '\n') := by
  have he : ∀ v p, expanded wide v p ⟨f⟩ = some ((expanded wide v p ⟨f⟩).getD "") :=
    fun v p => getD_of_isSome (expanded_total wide ⟨f⟩ R hc v p)
  have hm := expandedMapLoop_spec wide ⟨f⟩ R hc
    (fun v p => (expanded wide v p ⟨f⟩).getD "") r "  " (mapKeys r) "" (fun k _ => he _ _)
  have hE : Expanded colors wide r [WithFormatters f] =
      some (String.join ((mapKeys r).map fun k =>
        expandedMapBlock R (fun v p => (expanded wide v p ⟨f⟩).getD "") "  " k
          (valueAt r k))) := by
    simp only [Expanded, WithFormatters, List.foldl_cons, List.foldl_nil]
    rw [expanded, expandedMap, hm]
    simp
  refine ⟨_, hE, ?_, ?_⟩
  · intro hr
    subst hr
    rfl
  · intro hr
    have hkeys : mapKeys r ≠ [] := by
      intro hnil
      have hp : (mapKeys r).Perm (r.map Prod.fst) := sortStrings_perm _
      rw [hnil] at hp
      have := hp.symm.eq_nil
      exact hr (List.map_eq_nil_iff.mp this)
    have hends : EndsWithNewline (String.join ((mapKeys r).map fun k =>
        expandedMapBlock R (fun v p => (expanded wide v p ⟨f⟩).getD "") "  " k
          (valueAt r k))) := by
      apply endsWithNewline_join
      · intro x hx
        obtain ⟨k, _, rfl⟩ := List.mem_map.mp hx
        simp only [expandedMapBlock]
        split
        · next hcomp =>
          refine endsWithNewline_append_empty_or
            (endsWithNewline_append_right endsWithNewline_newline) ?_
          obtain ⟨s, hs, hs2⟩ := expanded_endsWithNewline_aux wide ⟨f⟩ R hc _ _
            (Nat.le_refl _) hcomp ("  " ++ "  ")
          rw [hs]
          exact hs2
        · exact endsWithNewline_append_right endsWithNewline_newline
      · simpa using hkeys
    exact ⟨endsWithNewline_ne_empty hends, hends⟩

/-- Witness of C11: a record whose last entry is an empty map, and one whose
only entry is an empty list. -/
theorem expanded_newline_terminated_witness :
    (∃ s, Expanded plainColors samplePrintable [("a", .prim (.bool true)), ("b", .map [])]
        [WithFormatters identityFormatters] = some s ∧ s.data.getLast? = some '\n') ∧
      Expanded plainColors samplePrintable [("a", .list [])]
        [WithFormatters identityFormatters] = some "  a:\n" := by
  constructor
  · obtain ⟨s, hs, -, h2⟩ := expanded_newline_terminated plainColors samplePrintable
      identityFormatters identityRoles identity_defines
      [("a", .prim (.bool true)), ("b", .map [])]
    exact ⟨s, hs, (h2 (by simp)).2⟩
  · have hk : mapKeys [("a", .list [])] = ["a"] := by decide
    simp +decide [Expanded, WithFormatters, expanded, expandedMap, expandedMapLoop,
      expandedSlice, expandedSliceLoop, hk, call, identityFormatters, isComposite, valueAt,
      List.lookup]

/-! ## Numbers that are integers -/

theorem log2Fuel_spec : ∀ (fuel n : Nat), 0 < n → n < 2 ^ fuel →
    2 ^ log2Fuel fuel n ≤ n ∧ n < 2 ^ (log2Fuel fuel n + 1) := by
  intro fuel
  induction fuel with
  | zero =>
    intro n h1 h2
    simp at h2
    omega
  | succ fuel ih =>
    intro n h1 h2
    simp only [log2Fuel]
    split
    · next hge =>
      have hlt : n / 2 < 2 ^ fuel := by
        rw [Nat.pow_succ] at h2
        omega
      obtain ⟨ha, hb⟩ := ih (n / 2) (by omega) hlt
      constructor
      · rw [Nat.pow_succ]
        omega
      · rw [Nat.pow_succ]
        omega
    · simp
      omega

theorem formatFloat_finite (neg : Bool) (E F : Nat) (hE1 : 0 < E) (hE2 : E < 2047)
    (hF : F < 2 ^ 52) :
    formatFloat ((if neg then 2 ^ 63 else 0) + E * 2 ^ 52 + F) =
      String.mk (fmtF neg
        (roundShortest (decimalOf (F + 2 ^ 52) ((E : Int) - 1023 - 52)) (F + 2 ^ 52)
          ((E : Int) - 1023))
        ((roundShortest (decimalOf (F + 2 ^ 52) ((E : Int) - 1023 - 52)) (F + 2 ^ 52)
          ((E : Int) - 1023)).nd -
          (roundShortest (decimalOf (F + 2 ^ 52) ((E : Int) - 1023 - 52)) (F + 2 ^ 52)
          ((E : Int) - 1023)).dp).toNat) := by
  have hS : (if neg then 2 ^ 63 else 0 : Nat) = 0 ∨ (if neg then 2 ^ 63 else 0 : Nat) = 2 ^ 63 := by
    cases neg <;> simp
  generalize hb : (if neg then 2 ^ 63 else 0 : Nat) + E * 2 ^ 52 + F = bits
  have h64 : bits % 2 ^ 64 = bits := by
    apply Nat.mod_eq_of_lt
    rcases hS with h | h <;> rw [h] at hb <;> omega
  have hneg : (bits / 2 ^ 63 != 0) = neg := by
    cases neg
    · simp only [Bool.false_eq_true, if_false] at hb
      have : bits / 2 ^ 63 = 0 := by omega
      rw [this]
      rfl
    · simp only [if_true] at hb
      have : bits / 2 ^ 63 = 1 := by omega
      rw [this]
      rfl
  have hexp : bits / 2 ^ 52 % 2 ^ 11 = E := by
    rcases hS with h | h <;> rw [h] at hb <;> omega
  have hmant : bits % 2 ^ 52 = F := by
    rcases hS with h | h <;> rw [h] at hb <;> omega
  have hne1 : ¬ (E = 2 ^ 11 - 1) := by omega
  have hne2 : ¬ (E = 0) := by omega
  simp only [formatFloat, h64, hneg, hexp, hmant, hne1, hne2, if_false]

theorem toDigitsCore_eq : ∀ (fuel n : Nat) (ds : List Char), n < fuel →
    Nat.toDigitsCore 10 fuel n ds = Nat.toDigits 10 n ++ ds := by
  intro fuel
  induction fuel using Nat.strong_induction_on with
  | _ fuel ih =>
    intro n ds hn
    cases fuel with
    | zero => omega
    | succ fuel =>
      simp only [Nat.toDigits, Nat.toDigitsCore]
      by_cases h0 : n / 10 = 0
      · simp [h0]
      · simp only [h0, if_false]
        have hlt : n / 10 < n := by omega
        rw [ih fuel (Nat.lt_succ_self _) (n / 10) _ (by omega)]
        rw [ih n (by omega) (n / 10) _ hlt]
        simp

theorem toDigits_small (n : Nat) (h : n < 10) : Nat.toDigits 10 n = [Nat.digitChar n] := by
  have h0 : n / 10 = 0 := by omega
  have h1 : n % 10 = n := by omega
  simp [Nat.toDigits, Nat.toDigitsCore, h0, h1]

theorem toDigits_step (n : Nat) (h : 10 ≤ n) :
    Nat.toDigits 10 n = Nat.toDigits 10 (n / 10) ++ [Nat.digitChar (n % 10)] := by
  have h0 : ¬ (n / 10 = 0) := by omega
  conv_lhs => rw [Nat.toDigits, Nat.toDigitsCore]
  simp only [h0, if_false]
  exact toDigitsCore_eq n (n / 10) _ (by omega)

theorem toDigits_mul_ten (n : Nat) (h : 0 < n) :
    Nat.toDigits 10 (n * 10) = Nat.toDigits 10 n ++ ['0'] := by
  rw [toDigits_step (n * 10) (by omega)]
  have h1 : n * 10 / 10 = n := by omega
  have h2 : n * 10 % 10 = 0 := by omega
  rw [h1, h2]
  rfl

theorem toDigits_mul_pow_ten (n : Nat) (h : 0 < n) (j : Nat) :
    Nat.toDigits 10 (n * 10 ^ j) = Nat.toDigits 10 n ++ List.replicate j '0' := by
  induction j with
  | zero => simp
  | succ j ih =>
    rw [Nat.pow_succ, ← Nat.mul_assoc, toDigits_mul_ten _ (Nat.mul_pos h (Nat.pow_pos (by decide))),
      ih, List.replicate_succ', List.append_assoc]

theorem toDigits_has_nonzero : ∀ (n : Nat), 0 < n → ∃ ch ∈ Nat.toDigits 10 n, ch ≠ '0' := by
  intro n
  induction n using Nat.strong_induction_on with
  | _ n ih =>
    intro hn
    by_cases h : n < 10
    · rw [toDigits_small n h]
      refine ⟨_, List.mem_singleton.mpr rfl, ?_⟩
      interval_cases n <;> decide
    · obtain ⟨ch, hch, hne⟩ := ih (n / 10) (by omega) (by omega)
      rw [toDigits_step n (by omega)]
      exact ⟨ch, List.mem_append_left _ hch, hne⟩

/-- The digits without the trailing zeros. -/
theorem strip_append_zeros (l : List Char) (j : Nat) :
    ((l ++ List.replicate j '0').reverse.dropWhile (fun ch => ch = '0')).reverse =
      (l.reverse.dropWhile (fun ch => ch = '0')).reverse := by
  congr 1
  rw [List.reverse_append, List.reverse_replicate]
  induction j with
  | zero => simp
  | succ j ih =>
    rw [List.replicate_succ, List.cons_append, List.dropWhile_cons]
    simp only [decide_True, if_true]
    exact ih

theorem strip_restore (l : List Char) :
    (l.reverse.dropWhile (fun ch => ch = '0')).reverse ++
      List.replicate (l.length - (l.reverse.dropWhile (fun ch => ch = '0')).reverse.length) '0'
      = l := by
  have hsplit := List.takeWhile_append_dropWhile (fun ch => decide (ch = '0')) l.reverse
  have htake : l.reverse.takeWhile (fun ch => decide (ch = '0')) =
      List.replicate (l.reverse.takeWhile (fun ch => decide (ch = '0'))).length '0' := by
    apply List.eq_replicate_of_mem
    intro ch hch
    simpa using List.mem_takeWhile_imp hch
  have hlen : l.length = (l.reverse.takeWhile (fun ch => decide (ch = '0'))).length +
      (l.reverse.dropWhile (fun ch => decide (ch = '0'))).length := by
    have := congrArg List.length hsplit
    simp only [List.length_append, List.length_reverse] at this
    omega
  have hrev := congrArg List.reverse hsplit
  simp only [List.reverse_append, List.reverse_reverse] at hrev
  conv_rhs => rw [← hrev]
  congr 1
  rw [List.length_reverse]
  have hk : l.length - (l.reverse.dropWhile (fun ch => decide (ch = '0'))).length =
      (l.reverse.takeWhile (fun ch => decide (ch = '0'))).length := by omega
  rw [hk]
  conv_rhs => rw [htake]
  rw [List.reverse_replicate]

theorem strip_ne_nil (l : List Char) (h : ∃ ch ∈ l, ch ≠ '0') :
    (l.reverse.dropWhile (fun ch => ch = '0')).reverse ≠ [] := by
  obtain ⟨ch, hch, hne⟩ := h
  intro hnil
  have h1 := List.reverse_eq_nil_iff.mp hnil
  rw [List.dropWhile_eq_nil_iff] at h1
  have := h1 ch (List.mem_reverse.mpr hch)
  simp at this
  exact hne this

theorem trim_digits (l : List Char) (dp : Int) (h : ∃ ch ∈ l, ch ≠ '0') :
    trim ⟨l, dp⟩ = ⟨(l.reverse.dropWhile (fun ch => ch = '0')).reverse, dp⟩ := by
  simp only [trim]
  rw [if_neg (strip_ne_nil l h)]

theorem decimalOf_int (n j : Nat) (hn : 0 < n) :
    decimalOf (n * 2 ^ j) (-(j : Int)) =
      ⟨((Nat.toDigits 10 n).reverse.dropWhile (fun ch => ch = '0')).reverse,
        (Nat.toDigits 10 n).length⟩ := by
  have hnz := toDigits_has_nonzero n hn
  cases j with
  | zero =>
    show decimalOf (n * 2 ^ 0) (Int.ofNat 0) = _
    simp only [decimalOf, Nat.pow_zero, Nat.mul_one]
    exact trim_digits _ _ hnz
  | succ k =>
    show decimalOf (n * 2 ^ (k + 1)) (Int.negSucc k) = _
    simp only [decimalOf]
    have hmul : n * 2 ^ (k + 1) * 5 ^ (k + 1) = n * 10 ^ (k + 1) := by
      rw [Nat.mul_assoc, ← Nat.mul_pow]
    rw [hmul, toDigits_mul_pow_ten n hn (k + 1)]
    rw [trim_digits _ _ (by
      obtain ⟨ch, hch, hne⟩ := hnz
      exact ⟨ch, List.mem_append_left _ hch, hne⟩)]
    rw [strip_append_zeros]
    congr 1
    simp only [List.length_append, List.length_replicate]
    push_cast
    omega

theorem strip_length_le (l : List Char) :
    (l.reverse.dropWhile (fun ch => ch = '0')).reverse.length ≤ l.length := by
  rw [List.length_reverse]
  have := (List.dropWhile_sublist (fun ch => decide (ch = '0')) (l := l.reverse)).length_le
  simpa using this

theorem formatFloat_int (neg : Bool) (n e : Nat) (hn : 0 < n) (h1 : 2 ^ e ≤ n)
    (h2 : n < 2 ^ (e + 1)) (he : e ≤ 52) :
    formatFloat ((if neg then 2 ^ 63 else 0) + (e + 1023) * 2 ^ 52 +
        (n * 2 ^ (52 - e) - 2 ^ 52)) =
      String.mk ((if neg then ['-'] else []) ++ Nat.toDigits 10 n) := by
  have hpow : 2 ^ e * 2 ^ (52 - e) = 2 ^ 52 := by
    rw [← Nat.pow_add]
    congr 1
    omega
  have hlo : 2 ^ 52 ≤ n * 2 ^ (52 - e) := by
    rw [← hpow]
    exact Nat.mul_le_mul_right _ h1
  have hhi : n * 2 ^ (52 - e) < 2 ^ 53 := by
    have h3 : 2 ^ (e + 1) * 2 ^ (52 - e) = 2 ^ 53 := by
      rw [← Nat.pow_add]
      congr 1
      omega
    rw [← h3]
    exact Nat.mul_lt_mul_of_pos_right h2 (Nat.pow_pos (by decide))
  have hF : n * 2 ^ (52 - e) - 2 ^ 52 < 2 ^ 52 := by omega
  have hM : n * 2 ^ (52 - e) - 2 ^ 52 + 2 ^ 52 = n * 2 ^ (52 - e) := by omega
  have hexp52 : ((e + 1023 : Nat) : Int) - 1023 - 52 = -((52 - e : Nat) : Int) := by omega
  have hexp : ((e + 1023 : Nat) : Int) - 1023 = (e : Int) := by omega
  rw [formatFloat_finite neg (e + 1023) _ (by omega) (by omega) hF, hM, hexp52, hexp,
    decimalOf_int n (52 - e) hn]
  have hnz := toDigits_has_nonzero n hn
  have hlen := strip_length_le (Nat.toDigits 10 n)
  have hpos : 0 < (Nat.toDigits 10 n).length := by
    obtain ⟨ch, hch, _⟩ := hnz
    exact List.length_pos_of_mem hch
  have hmz : ¬ (n * 2 ^ (52 - e) = 0) := by omega
  have hround : roundShortest
      ⟨((Nat.toDigits 10 n).reverse.dropWhile (fun ch => ch = '0')).reverse,
        (Nat.toDigits 10 n).length⟩ (n * 2 ^ (52 - e)) (e : Int) =
      ⟨((Nat.toDigits 10 n).reverse.dropWhile (fun ch => ch = '0')).reverse,
        (Nat.toDigits 10 n).length⟩ := by
    simp only [roundShortest, hmz, if_false]
    rw [if_pos]
    simp only [Decimal.nd]
    constructor
    · omega
    · omega
  rw [hround]
  refine congrArg String.mk ?_
  simp only [fmtF, Decimal.nd]
  have hprec : ((((Nat.toDigits 10 n).reverse.dropWhile (fun ch => ch = '0')).reverse.length :
      Int) - ((Nat.toDigits 10 n).length : Int)).toNat = 0 := by omega
  have hdp : ((Nat.toDigits 10 n).length : Int) > 0 := by omega
  rw [hprec, if_pos hdp]
  simp only [Int.toNat_ofNat, Nat.lt_irrefl, if_false, List.append_nil, gt_iff_lt]
  rw [List.take_of_length_le hlen, strip_restore]

theorem toDigits_isDigit : ∀ (n : Nat), ∀ ch ∈ Nat.toDigits 10 n, ch.isDigit = true := by
  intro n
  induction n using Nat.strong_induction_on with
  | _ n ih =>
    intro ch hch
    by_cases h : n < 10
    · rw [toDigits_small n h, List.mem_singleton] at hch
      subst hch
      interval_cases n <;> decide
    · rw [toDigits_step n (by omega)] at hch
      rcases List.mem_append.mp hch with h1 | h1
      · exact ih (n / 10) (by omega) ch h1
      · rw [List.mem_singleton] at h1
        subst h1
        have hlt : n % 10 < 10 := Nat.mod_lt _ (by decide)
        generalize n % 10 = k at hlt
        interval_cases k <;> decide

theorem formatFloat_zero : formatFloat 0 = "0" := by
  have h : decimalOf 0 ((1 : Int) - 1023 - 52) = ⟨[], 0⟩ := by
    show decimalOf 0 (Int.negSucc 1073) = _
    simp only [decimalOf, Nat.zero_mul]
    rfl
  have hr : roundShortest ⟨[], 0⟩ 0 ((1 : Int) - 1023) = ⟨[], 0⟩ := by
    simp [roundShortest]
  have h0 : ¬ (0 = 2 ^ 11 - 1) := by decide
  simp only [formatFloat, Nat.zero_mod, Nat.zero_div, h0, if_false, if_true, h, hr]
  rfl

theorem formatFloat_float64OfInt (z : Int) (hz : z.natAbs < 2 ^ 53) :
    formatFloat (float64OfInt z) =
      String.mk ((if z < 0 then ['-'] else []) ++ Nat.toDigits 10 z.natAbs) := by
  by_cases h0 : z.natAbs = 0
  · have hz0 : z = 0 := Int.natAbs_eq_zero.mp h0
    subst hz0
    exact formatFloat_zero
  · have hpos : 0 < z.natAbs := Nat.pos_of_ne_zero h0
    obtain ⟨h1, h2⟩ := log2Fuel_spec 64 z.natAbs hpos (by omega)
    have he : log2Fuel 64 z.natAbs ≤ 52 := by
      by_contra hgt
      have h53 : 2 ^ 53 ≤ 2 ^ log2Fuel 64 z.natAbs :=
        Nat.pow_le_pow_right (by decide) (by omega)
      omega
    have hfmt := fun neg => formatFloat_int neg z.natAbs (log2Fuel 64 z.natAbs) hpos h1 h2 he
    simp only [float64OfInt, h0, if_false]
    by_cases hneg : z < 0
    · have := hfmt true
      simp only [if_true] at this
      simp only [hneg, if_true]
      exact this
    · have := hfmt false
      simp only [Bool.false_eq_true, if_false] at this
      simp only [hneg, if_false]
      exact this

theorem formatFloat_negZero : formatFloat 0x8000000000000000 = "-0" := by
  have h : decimalOf 0 ((1 : Int) - 1023 - 52) = ⟨[], 0⟩ := by
    show decimalOf 0 (Int.negSucc 1073) = _
    simp only [decimalOf, Nat.zero_mul]
    rfl
  have hr : roundShortest ⟨[], 0⟩ 0 ((1 : Int) - 1023) = ⟨[], 0⟩ := by
    simp [roundShortest]
  have h64 : 0x8000000000000000 % 2 ^ 64 = 0x8000000000000000 := by decide
  have hneg : (0x8000000000000000 / 2 ^ 63 != 0) = true := by decide
  have hexp : 0x8000000000000000 / 2 ^ 52 % 2 ^ 11 = 0 := by decide
  have hmant : 0x8000000000000000 % 2 ^ 52 = 0 := by decide
  have h0 : ¬ (0 = 2 ^ 11 - 1) := by decide
  simp only [formatFloat, h64, hneg, hexp, hmant, h0, if_false, if_true, h, hr]
  rfl

theorem float64Value_negZero : float64Value 0x8000000000000000 = some 0 := by
  have h64 : 0x8000000000000000 % 2 ^ 64 = 0x8000000000000000 := by decide
  have hexp : 0x8000000000000000 / 2 ^ 52 % 2 ^ 11 = 0 := by decide
  have hmant : 0x8000000000000000 % 2 ^ 52 = 0 := by decide
  have h0 : ¬ (0 = 2 ^ 11 - 1) := by decide
  simp only [float64Value, h64, hexp, hmant, h0, if_false, if_true]
  simp

theorem float64Value_finite (neg : Bool) (E F : Nat) (hE1 : 0 < E) (hE2 : E < 2047)
    (hF : F < 2 ^ 52) :
    float64Value ((if neg then 2 ^ 63 else 0) + E * 2 ^ 52 + F) =
      some ((if neg then -1 else 1) * ((F + 2 ^ 52 : Nat) : ℚ) * (2 : ℚ) ^ ((E : Int) - 1075)) := by
  have hS : (if neg then 2 ^ 63 else 0 : Nat) = 0 ∨ (if neg then 2 ^ 63 else 0 : Nat) = 2 ^ 63 := by
    cases neg <;> simp
  generalize hb : (if neg then 2 ^ 63 else 0 : Nat) + E * 2 ^ 52 + F = bits
  have h64 : bits % 2 ^ 64 = bits := by
    apply Nat.mod_eq_of_lt
    rcases hS with h | h <;> rw [h] at hb <;> omega
  have hneg : (bits / 2 ^ 63 != 0) = neg := by
    cases neg
    · simp only [Bool.false_eq_true, if_false] at hb
      have : bits / 2 ^ 63 = 0 := by omega
      rw [this]
      rfl
    · simp only [if_true] at hb
      have : bits / 2 ^ 63 = 1 := by omega
      rw [this]
      rfl
  have hexp : bits / 2 ^ 52 % 2 ^ 11 = E := by
    rcases hS with h | h <;> rw [h] at hb <;> omega
  have hmant : bits % 2 ^ 52 = F := by
    rcases hS with h | h <;> rw [h] at hb <;> omega
  have hne1 : ¬ (E = 2 ^ 11 - 1) := by omega
  have hne2 : ¬ (E = 0) := by omega
  simp only [float64Value, h64, hneg, hexp, hmant, hne1, hne2, if_false]

theorem float64Value_float64OfInt (z : Int) (hz : z.natAbs < 2 ^ 53) :
    float64Value (float64OfInt z) = some (z : ℚ) := by
  by_cases h0 : z.natAbs = 0
  · have hz0 : z = 0 := Int.natAbs_eq_zero.mp h0
    subst hz0
    have h1 : ¬ (0 = 2 ^ 11 - 1) := by decide
    show float64Value 0 = _
    simp only [float64Value, Nat.zero_mod, Nat.zero_div, h1, if_false, if_true]
    simp
  · have hpos : 0 < z.natAbs := Nat.pos_of_ne_zero h0
    obtain ⟨h1, h2⟩ := log2Fuel_spec 64 z.natAbs hpos (by omega)
    have he : log2Fuel 64 z.natAbs ≤ 52 := by
      by_contra hgt
      have h53 : 2 ^ 53 ≤ 2 ^ log2Fuel 64 z.natAbs :=
        Nat.pow_le_pow_right (by decide) (by omega)
      omega
    have hpow : 2 ^ log2Fuel 64 z.natAbs * 2 ^ (52 - log2Fuel 64 z.natAbs) = 2 ^ 52 := by
      rw [← Nat.pow_add]
      congr 1
      omega
    have hlo : 2 ^ 52 ≤ z.natAbs * 2 ^ (52 - log2Fuel 64 z.natAbs) := by
      rw [← hpow]
      exact Nat.mul_le_mul_right _ h1
    have hhi : z.natAbs * 2 ^ (52 - log2Fuel 64 z.natAbs) < 2 ^ 53 := by
      have h3 : 2 ^ (log2Fuel 64 z.natAbs + 1) * 2 ^ (52 - log2Fuel 64 z.natAbs) = 2 ^ 53 := by
        rw [← Nat.pow_add]
        congr 1
        omega
      rw [← h3]
      exact Nat.mul_lt_mul_of_pos_right h2 (Nat.pow_pos (by decide))
    have hF : z.natAbs * 2 ^ (52 - log2Fuel 64 z.natAbs) - 2 ^ 52 < 2 ^ 52 := by omega
    have hM : z.natAbs * 2 ^ (52 - log2Fuel 64 z.natAbs) - 2 ^ 52 + 2 ^ 52 =
        z.natAbs * 2 ^ (52 - log2Fuel 64 z.natAbs) := by omega
    have hexp : ((log2Fuel 64 z.natAbs + 1023 : Nat) : Int) - 1075 =
        -((52 - log2Fuel 64 z.natAbs : Nat) : Int) := by omega
    have hval := fun neg => float64Value_finite neg (log2Fuel 64 z.natAbs + 1023) _
      (by omega) (by omega) hF
    have hcancel : ((z.natAbs * 2 ^ (52 - log2Fuel 64 z.natAbs) : Nat) : ℚ) *
        (2 : ℚ) ^ (-((52 - log2Fuel 64 z.natAbs : Nat) : Int)) = (z.natAbs : ℚ) := by
      rw [zpow_neg, zpow_natCast]
      push_cast
      field_simp
    simp only [float64OfInt, h0, if_false]
    by_cases hneg : z < 0
    · have := hval true
      simp only [if_true] at this
      simp only [hneg, if_true]
      rw [this, hM, hexp, mul_assoc, hcancel]
      have hz1 : ((z.natAbs : Int) : ℚ) = -(z : ℚ) := by
        have : (z.natAbs : Int) = -z := by omega
        rw [this]
        push_cast
        rfl
      have hz2 : (z.natAbs : ℚ) = -(z : ℚ) := by
        rw [← hz1, Int.cast_natCast]
      rw [hz2]
      simp
    · have := hval false
      simp only [Bool.false_eq_true, if_false] at this
      simp only [hneg, if_false]
      rw [this, hM, hexp, mul_assoc, hcancel]
      have hz1 : ((z.natAbs : Int) : ℚ) = (z : ℚ) := by
        have : (z.natAbs : Int) = z := by omega
        rw [this]
      have hz2 : (z.natAbs : ℚ) = (z : ℚ) := by
        rw [← hz1, Int.cast_natCast]
      rw [hz2]
      simp

theorem log2_unique {n a b : Nat} (ha1 : 2 ^ a ≤ n) (ha2 : n < 2 ^ (a + 1))
    (hb1 : 2 ^ b ≤ n) (hb2 : n < 2 ^ (b + 1)) : a = b := by
  by_contra hne
  rcases Nat.lt_or_gt_of_ne hne with h | h
  · have : 2 ^ (a + 1) ≤ 2 ^ b := Nat.pow_le_pow_right (by decide) h
    omega
  · have : 2 ^ (b + 1) ≤ 2 ^ a := Nat.pow_le_pow_right (by decide) h
    omega

/-- The fields of a finite nonzero integer: from `(F + 2 ^ 52) * 2 ^ E = n * 2 ^ 1075`
with `1 ≤ n < 2 ^ 53`, the exponent and the fraction are those of `float64OfInt`. -/
theorem fields_of_integer {E F n : Nat} (hF : F < 2 ^ 52) (hn1 : 0 < n) (hn2 : n < 2 ^ 53)
    (h : (F + 2 ^ 52) * 2 ^ E = n * 2 ^ 1075) :
    ∃ e, e ≤ 52 ∧ E = e + 1023 ∧ 2 ^ e ≤ n ∧ n < 2 ^ (e + 1) ∧
      F = n * 2 ^ (52 - e) - 2 ^ 52 := by
  have hE : E ≤ 1075 := by
    by_contra hgt
    have hsplit : 2 ^ E = 2 ^ (E - 1075) * 2 ^ 1075 := by
      have hs : E - 1075 + 1075 = E := by omega
      rw [← Nat.pow_add, hs]
    rw [hsplit, ← Nat.mul_assoc] at h
    have h1 := Nat.eq_of_mul_eq_mul_right (Nat.pow_pos (by decide)) h
    have h2 : 2 ^ 1 ≤ 2 ^ (E - 1075) := Nat.pow_le_pow_right (by decide) (by omega)
    have h3 : (F + 2 ^ 52) * 2 ^ 1 ≤ (F + 2 ^ 52) * 2 ^ (E - 1075) :=
      Nat.mul_le_mul_left _ h2
    omega
  have hsplit : 2 ^ 1075 = 2 ^ (1075 - E) * 2 ^ E := by
    have hs : 1075 - E + E = 1075 := by omega
    rw [← Nat.pow_add, hs]
  rw [hsplit, ← Nat.mul_assoc] at h
  have hm : F + 2 ^ 52 = n * 2 ^ (1075 - E) :=
    Nat.eq_of_mul_eq_mul_right (Nat.pow_pos (by decide)) h
  have hd : 1075 - E ≤ 52 := by
    by_contra hgt
    have h2 : 2 ^ 53 ≤ 2 ^ (1075 - E) := Nat.pow_le_pow_right (by decide) (by omega)
    have h3 : 1 * 2 ^ (1075 - E) ≤ n * 2 ^ (1075 - E) := Nat.mul_le_mul_right _ hn1
    omega
  refine ⟨52 - (1075 - E), by omega, by omega, ?_, ?_, ?_⟩
  · have hp : 2 ^ (52 - (1075 - E)) * 2 ^ (1075 - E) = 2 ^ 52 := by
      have hs : 52 - (1075 - E) + (1075 - E) = 52 := by omega
      rw [← Nat.pow_add, hs]
    have hle : 2 ^ (52 - (1075 - E)) * 2 ^ (1075 - E) ≤ n * 2 ^ (1075 - E) := by
      rw [hp, ← hm]
      omega
    exact Nat.le_of_mul_le_mul_right hle (Nat.pow_pos (by decide))
  · have hp : 2 ^ (52 - (1075 - E) + 1) * 2 ^ (1075 - E) = 2 ^ 53 := by
      have hs : 52 - (1075 - E) + 1 + (1075 - E) = 53 := by omega
      rw [← Nat.pow_add, hs]
    have hlt : n * 2 ^ (1075 - E) < 2 ^ (52 - (1075 - E) + 1) * 2 ^ (1075 - E) := by
      rw [hp, ← hm]
      omega
    exact Nat.lt_of_mul_lt_mul_right hlt
  · have hdd : 52 - (52 - (1075 - E)) = 1075 - E := by omega
    rw [hdd, ← hm]
    omega

theorem float64Value_cases (bits : Nat) :
    float64Value bits =
      if (bits % 2 ^ 64) / 2 ^ 52 % 2 ^ 11 = 2047 then none
      else if (bits % 2 ^ 64) / 2 ^ 52 % 2 ^ 11 = 0 then
        some ((if (bits % 2 ^ 64) / 2 ^ 63 = 0 then 1 else -1) *
          (((bits % 2 ^ 64) % 2 ^ 52 : Nat) : ℚ) * (2 : ℚ) ^ ((1 : Int) - 1075))
      else
        some ((if (bits % 2 ^ 64) / 2 ^ 63 = 0 then 1 else -1) *
          (((bits % 2 ^ 64) % 2 ^ 52 + 2 ^ 52 : Nat) : ℚ) *
          (2 : ℚ) ^ ((((bits % 2 ^ 64) / 2 ^ 52 % 2 ^ 11 : Nat) : Int) - 1075)) := by
  simp only [float64Value]
  by_cases h1 : (bits % 2 ^ 64) / 2 ^ 52 % 2 ^ 11 = 2047
  · have h1b : (bits % 2 ^ 64) / 2 ^ 52 % 2 ^ 11 = 2 ^ 11 - 1 := h1
    simp only [h1b, if_true]
    rfl
  · have h1b : ¬ ((bits % 2 ^ 64) / 2 ^ 52 % 2 ^ 11 = 2 ^ 11 - 1) := h1
    simp only [h1b, h1, if_false]
    by_cases h2 : (bits % 2 ^ 64) / 2 ^ 52 % 2 ^ 11 = 0
    · simp only [h2, if_true]
      by_cases h3 : (bits % 2 ^ 64) / 2 ^ 63 = 0
      · simp [h3]
      · simp [h3]
    · simp only [h2, if_false]
      by_cases h3 : (bits % 2 ^ 64) / 2 ^ 63 = 0
      · simp [h3]
      · simp [h3]

theorem scaled_pos {m E : Nat} {z : Int}
    (h : (m : ℚ) * (2 : ℚ) ^ ((E : Int) - 1075) = (z : ℚ)) :
    m * 2 ^ E = z.natAbs * 2 ^ 1075 ∧ 0 ≤ z := by
  have hq : (m : ℚ) * (2 : ℚ) ^ E = (z : ℚ) * (2 : ℚ) ^ 1075 := by
    rw [← h, zpow_sub₀ (by norm_num : (2 : ℚ) ≠ 0), zpow_natCast]
    have : ((2 : ℚ) ^ (1075 : Int)) = (2 : ℚ) ^ (1075 : Nat) := by
      rw [← zpow_natCast]
      rfl
    rw [this]
    field_simp
  have hZ : (m : Int) * (2 : Int) ^ E = z * (2 : Int) ^ 1075 := by exact_mod_cast hq
  have hz0 : 0 ≤ z := by
    by_contra hneg
    have h1 : z * (2 : Int) ^ 1075 < 0 :=
      Int.mul_neg_of_neg_of_pos (by omega) (pow_pos (by norm_num) _)
    have h2 : 0 ≤ (m : Int) * (2 : Int) ^ E :=
      Int.mul_nonneg (Int.ofNat_nonneg _) (pow_nonneg (by norm_num) _)
    omega
  refine ⟨?_, hz0⟩
  have hzn : ((z.natAbs : Nat) : Int) = z := Int.natAbs_of_nonneg hz0
  have hZ2 : ((m * 2 ^ E : Nat) : Int) = ((z.natAbs * 2 ^ 1075 : Nat) : Int) := by
    push_cast
    rw [abs_of_nonneg hz0]
    exact hZ
  exact_mod_cast hZ2

theorem scaled_neg {m E : Nat} {z : Int}
    (h : -(m : ℚ) * (2 : ℚ) ^ ((E : Int) - 1075) = (z : ℚ)) :
    m * 2 ^ E = z.natAbs * 2 ^ 1075 ∧ z ≤ 0 := by
  have h1 : (m : ℚ) * (2 : ℚ) ^ ((E : Int) - 1075) = ((-z : Int) : ℚ) := by
    push_cast
    rw [← h]
    ring
  obtain ⟨h2, h3⟩ := scaled_pos h1
  rw [Int.natAbs_neg] at h2
  exact ⟨h2, by omega⟩

theorem float64Value_integer (bits : Nat) (z : Int)
    (hv : float64Value bits = some (z : ℚ)) (hz : z.natAbs < 2 ^ 53) :
    bits % 2 ^ 64 = float64OfInt z ∨ bits % 2 ^ 64 = 2 ^ 63 := by
  rw [float64Value_cases] at hv
  have hb : bits % 2 ^ 64 < 2 ^ 64 := Nat.mod_lt _ (by decide)
  generalize bits % 2 ^ 64 = b at hv hb
  have hs : b / 2 ^ 63 = 0 ∨ b / 2 ^ 63 = 1 := by omega
  have hdec : b = (b / 2 ^ 63) * 2 ^ 63 + (b / 2 ^ 52 % 2 ^ 11) * 2 ^ 52 + b % 2 ^ 52 := by
    omega
  have hF : b % 2 ^ 52 < 2 ^ 52 := Nat.mod_lt _ (by decide)
  by_cases h1 : b / 2 ^ 52 % 2 ^ 11 = 2047
  · rw [if_pos h1] at hv
    exact absurd hv (by simp)
  · rw [if_neg h1] at hv
    by_cases h2 : b / 2 ^ 52 % 2 ^ 11 = 0
    · rw [if_pos h2] at hv
      have hv1 := Option.some.inj hv
      have hone : ((1 : Int) - 1075) = (((1 : Nat) : Int) - 1075) := rfl
      rw [hone] at hv1
      have hnat : b % 2 ^ 52 * 2 ^ 1 = z.natAbs * 2 ^ 1075 := by
        rcases hs with h3 | h3
        · rw [if_pos h3, one_mul] at hv1
          exact (scaled_pos hv1).1
        · rw [if_neg (by omega)] at hv1
          have hv2 : -((b % 2 ^ 52 : Nat) : ℚ) * (2 : ℚ) ^ (((1 : Nat) : Int) - 1075) = (z : ℚ) := by
            rw [← hv1]
            ring
          exact (scaled_neg hv2).1
      have hn0 : z.natAbs = 0 := by
        by_contra hne
        have h4 : 1 * 2 ^ 1075 ≤ z.natAbs * 2 ^ 1075 :=
          Nat.mul_le_mul_right _ (Nat.pos_of_ne_zero hne)
        have h5 : 2 ^ 54 ≤ 2 ^ 1075 := Nat.pow_le_pow_right (by decide) (by decide)
        omega
      have hz0 : z = 0 := Int.natAbs_eq_zero.mp hn0
      have hF0 : b % 2 ^ 52 = 0 := by
        rw [hn0] at hnat
        omega
      subst hz0
      have h0 : float64OfInt 0 = 0 := by simp [float64OfInt]
      rw [h0]
      rcases hs with h3 | h3
      · left
        omega
      · right
        omega
    · rw [if_neg h2] at hv
      have hv1 := Option.some.inj hv
      have hnat : (b % 2 ^ 52 + 2 ^ 52) * 2 ^ (b / 2 ^ 52 % 2 ^ 11) = z.natAbs * 2 ^ 1075 ∧
          (z < 0 ↔ b / 2 ^ 63 = 1) := by
        rcases hs with h3 | h3
        · rw [if_pos h3, one_mul] at hv1
          obtain ⟨h4, h5⟩ := scaled_pos hv1
          exact ⟨h4, by omega⟩
        · rw [if_neg (by omega)] at hv1
          have hv2 : -((b % 2 ^ 52 + 2 ^ 52 : Nat) : ℚ) *
              (2 : ℚ) ^ (((b / 2 ^ 52 % 2 ^ 11 : Nat) : Int) - 1075) = (z : ℚ) := by
            rw [← hv1]
            ring
          obtain ⟨h4, h5⟩ := scaled_neg hv2
          refine ⟨h4, ?_⟩
          have hne : z ≠ 0 := by
            intro h0
            rw [h0, Int.natAbs_zero, Nat.zero_mul] at h4
            have := Nat.mul_pos (show 0 < b % 2 ^ 52 + 2 ^ 52 by omega)
              (Nat.pow_pos (show 0 < 2 by decide) (n := b / 2 ^ 52 % 2 ^ 11))
            omega
          omega
      obtain ⟨hnat, hsign⟩ := hnat
      have hn0 : z.natAbs ≠ 0 := by
        intro h0
        rw [h0, Nat.zero_mul] at hnat
        have := Nat.mul_pos (show 0 < b % 2 ^ 52 + 2 ^ 52 by omega)
          (Nat.pow_pos (show 0 < 2 by decide) (n := b / 2 ^ 52 % 2 ^ 11))
        omega
      obtain ⟨e, he, hE, hlo, hhi, hfr⟩ :=
        fields_of_integer hF (Nat.pos_of_ne_zero hn0) hz hnat
      obtain ⟨g1, g2⟩ := log2Fuel_spec 64 z.natAbs (Nat.pos_of_ne_zero hn0) (by omega)
      have hlog : log2Fuel 64 z.natAbs = e := log2_unique g1 g2 hlo hhi
      left
      simp only [float64OfInt, hn0, if_false, hlog]
      by_cases hneg : z < 0
      · rw [if_pos hneg]
        have := hsign.mp hneg
        omega
      · rw [if_neg hneg]
        have : b / 2 ^ 63 = 0 := by
          rcases hs with h3 | h3
          · exact h3
          · exact absurd (hsign.mpr h3) hneg
        omega

/-- C13, as stated, fails at the negative zero: the `float64` with only the
sign bit set is a number equal to the integer 0, and it is encoded as `-0`,
which is not the decimal numeral `0` of that integer. -/
theorem primitive_integer_counterexample :
    float64Value 0x8000000000000000 = some 0 ∧
    primitive samplePrintable (.num 0x8000000000000000) ⟨identityFormatters⟩ = some "-0" ∧
    "-0" ≠ String.mk ((if (0 : Int) < 0 then ['-'] else []) ++ Nat.toDigits 10 (0 : Int).natAbs) := by
  refine ⟨float64Value_negZero, ?_, by decide⟩
  simp only [primitive, formatFloat_negZero]
  rfl

/-- C13, amended: for every number value other than the negative zero that
is an integer `z` with `|z| < 2 ^ 53`, the encoding is the plain decimal numeral
of `z` passed through the role `number`: a minus sign when `z` is negative,
followed by the decimal digits of `|z|`, which are digits only (no decimal
point, no exponent); every such integer is a number value, `float64(z)`; and
the negative zero is encoded as `-0` passed through the role `number`. -/
theorem primitive_integer (wide : Char → Bool) (c : config) (R : Roles)
    (hc : Defines c.format R) :
    (∀ (bits : Nat) (z : Int), float64Value bits = some (z : ℚ) → z.natAbs < 2 ^ 53 →
      bits % 2 ^ 64 ≠ 0x8000000000000000 →
      primitive wide (.num bits) c =
        some (R.number (String.mk ((if z < 0 then ['-'] else []) ++
          Nat.toDigits 10 z.natAbs))) ∧
      (∀ ch ∈ Nat.toDigits 10 z.natAbs, ch.isDigit = true)) ∧
    (∀ z : Int, z.natAbs < 2 ^ 53 → float64Value (float64OfInt z) = some (z : ℚ)) ∧
    primitive wide (.num 0x8000000000000000) c = some (R.number "-0") := by
  refine ⟨?_, float64Value_float64OfInt, ?_⟩
  · intro bits z hv hz hnz
    refine ⟨?_, toDigits_isDigit _⟩
    have hmod : formatFloat bits = formatFloat (bits % 2 ^ 64) := by
      simp only [formatFloat, Nat.mod_mod]
    have hbits : bits % 2 ^ 64 = float64OfInt z := by
      rcases float64Value_integer bits z hv hz with h | h
      · exact h
      · exact absurd h hnz
    simp only [primitive, hmod, hbits, formatFloat_float64OfInt z hz]
    exact call_of_lookup hc.2.1 _
  · simp only [primitive, formatFloat_negZero]
    exact call_of_lookup hc.2.1 _

/-- Witness of C13 as amended: 27.0 is encoded as `27` and 3.0 as `3`; the
number 15.99, which is not an integer, as `15.99`. -/
theorem primitive_integer_witness :
    float64Value 0x403B000000000000 = some ((27 : Int) : ℚ) ∧
      primitive samplePrintable (.num 0x403B000000000000) ⟨identityFormatters⟩ = some "27" ∧
      float64Value 0x4008000000000000 = some ((3 : Int) : ℚ) ∧
      primitive samplePrintable (.num 0x4008000000000000) ⟨identityFormatters⟩ = some "3" ∧
      primitive samplePrintable (.num 0x402FFAE147AE147B) ⟨identityFormatters⟩ =
        some "15.99" := by
  have e27 : float64OfInt 27 = 0x403B000000000000 := by decide
  have e3 : float64OfInt 3 = 0x4008000000000000 := by decide
  have v27 : float64Value 0x403B000000000000 = some ((27 : Int) : ℚ) := by
    have := float64Value_float64OfInt 27 (by decide)
    rwa [e27] at this
  have v3 : float64Value 0x4008000000000000 = some ((3 : Int) : ℚ) := by
    have := float64Value_float64OfInt 3 (by decide)
    rwa [e3] at this
  have h27 := ((primitive_integer samplePrintable ⟨identityFormatters⟩ identityRoles
    identity_defines).1 0x403B000000000000 27 v27 (by decide) (by decide)).1
  have h3 := ((primitive_integer samplePrintable ⟨identityFormatters⟩ identityRoles
    identity_defines).1 0x4008000000000000 3 v3 (by decide) (by decide)).1
  refine ⟨v27, ?_, v3, ?_, ?_⟩
  · rw [h27]
    decide
  · rw [h3]
    decide
  · have hf : formatFloat 0x402FFAE147AE147B = "15.99" := by decide
    simp only [primitive, hf]
    rfl

/-! ## Indentation of the expanded layout -/

theorem splitNewline_ne_nil : ∀ l : List Char, splitNewline l ≠ []
  | [] => by simp [splitNewline]
  | ch :: rest => by
    simp only [splitNewline]
    split
    · simp
    · split <;> simp

theorem splitNewline_line : ∀ (a rest : List Char), '\n' ∉ a →
    splitNewline (a ++ '\n' :: rest) = a :: splitNewline rest
  | [], rest, _ => by simp [splitNewline]
  | ch :: a, rest, h => by
    have hch : ch ≠ '\n' := fun he => h (he ▸ List.mem_cons_self _ _)
    have ha : '\n' ∉ a := fun hm => h (List.mem_cons_of_mem _ hm)
    have ih := splitNewline_line a rest ha
    show splitNewline (ch :: (a ++ '\n' :: rest)) = _
    simp only [splitNewline, hch, if_false, ih]

theorem splitNewline_structured (p : List Char) (hp : '\n' ∉ p) :
    ∀ bodies : List (List Char), (∀ b ∈ bodies, '\n' ∉ b) →
      splitNewline (bodies.map fun b => p ++ b ++ ['\n']).flatten =
        bodies.map (fun b => p ++ b) ++ [[]] := by
  intro bodies
  induction bodies with
  | nil => intro _; rfl
  | cons b bs ih =>
    intro h
    have hb : '\n' ∉ p ++ b := by
      simp only [List.mem_append, not_or]
      exact ⟨hp, h b (List.mem_cons_self _ _)⟩
    have ih1 := ih (fun x hx => h x (List.mem_cons_of_mem _ hx))
    have hsplit : ((b :: bs).map fun b => p ++ b ++ ['\n']).flatten =
        (p ++ b) ++ '\n' :: (bs.map fun b => p ++ b ++ ['\n']).flatten := by
      simp
    rw [hsplit, splitNewline_line _ _ hb, ih1]
    simp

theorem linesBeginWith_of_structured {p s : String} (hp : NoNewline p)
    (h : Structured p.data s) : LinesBeginWith p s := by
  obtain ⟨bodies, hb, hs⟩ := h
  intro l hl
  simp only [terminatedLines, hs, splitNewline_structured p.data hp bodies hb,
    List.dropLast_concat] at hl
  obtain ⟨b, _, rfl⟩ := List.mem_map.mp hl
  exact ⟨b, rfl⟩

theorem structured_empty (p : List Char) : Structured p "" := ⟨[], by simp, rfl⟩

theorem structured_append {p : List Char} {s t : String} (hs : Structured p s)
    (ht : Structured p t) : Structured p (s ++ t) := by
  obtain ⟨b1, h1, e1⟩ := hs
  obtain ⟨b2, h2, e2⟩ := ht
  refine ⟨b1 ++ b2, ?_, ?_⟩
  · intro b hb
    rcases List.mem_append.mp hb with h | h
    · exact h1 b h
    · exact h2 b h
  · simp [e1, e2]

theorem structured_line (p : String) (body : String) (hb : NoNewline body) :
    Structured p.data (p ++ body ++ "\n") :=
  ⟨[body.data], by simpa using hb, by simp⟩

theorem structured_deeper {p q : String} {s : String} (hq : NoNewline q)
    (h : Structured (p ++ q).data s) : Structured p.data s := by
  obtain ⟨bodies, hb, hs⟩ := h
  refine ⟨bodies.map (fun b => q.data ++ b), ?_, ?_⟩
  · intro b hb1
    obtain ⟨b0, hb0, rfl⟩ := List.mem_map.mp hb1
    simp only [List.mem_append, not_or]
    exact ⟨hq, hb b0 hb0⟩
  · rw [hs]
    simp [List.map_map, Function.comp_def]

theorem structured_join {p : List Char} {l : List String} (h : ∀ x ∈ l, Structured p x) :
    Structured p (String.join l) := by
  induction l with
  | nil => exact structured_empty p
  | cons x xs ih =>
    rw [join_cons]
    exact structured_append (h x (List.mem_cons_self _ _))
      (ih fun y hy => h y (List.mem_cons_of_mem _ hy))

theorem noNewline_literal (s : String) (h : s = ":" ∨ s = " " ∨ s = "-" ∨ s = "  ") :
    NoNewline s := by
  rcases h with rfl | rfl | rfl | rfl <;> (unfold NoNewline; decide)

theorem expanded_structured_aux (wide : Char → Bool) (c : config)
    (hc : Defines c.format identityRoles) :
    ∀ (n : Nat) (v : Value), v.weight ≤ n → v.plain = true → isComposite v = true →
      ∀ pfx, ∃ s, expanded wide v pfx c = some s ∧ Structured pfx.data s := by
  have he : ∀ v p, expanded wide v p c = some ((expanded wide v p c).getD "") :=
    fun v p => getD_of_isSome (expanded_total wide c identityRoles hc v p)
  have hq : ∀ q, primitive wide q c = some ((primitive wide q c).getD "") :=
    fun q => getD_of_isSome (primitive_total wide c identityRoles hc q)
  have hprim : ∀ q, (Value.prim q).plain = true → NoNewline ((primitive wide q c).getD "") := by
    intro q hqp
    obtain ⟨s, hs, hn⟩ := primitive_noNewline wide c hc q hqp
    rw [hs]
    exact hn
  intro n
  induction n with
  | zero =>
    intro v hw _ hcomp
    cases v with
    | prim p => simp [isComposite] at hcomp
    | map m => simp [Value.weight] at hw
    | list xs => simp [Value.weight] at hw
  | succ n ih =>
    intro v hw hp hcomp pfx
    have hkid : ∀ w p, w.weight ≤ n → w.plain = true → isComposite w = true →
        Structured p.data ((expanded wide w p c).getD "") := by
      intro w p hw1 hp1 hc1
      obtain ⟨s, hs, hs2⟩ := ih w hw1 hp1 hc1 p
      rw [hs]
      exact hs2
    cases v with
    | prim p => simp [isComposite] at hcomp
    | map m =>
      simp only [Value.weight] at hw
      simp only [Value.plain] at hp
      refine ⟨_, he _ _, ?_⟩
      have hm := expandedMapLoop_spec wide c identityRoles hc
        (fun v p => (expanded wide v p c).getD "") m pfx (mapKeys m) "" (fun k _ => he _ _)
      rw [expanded, expandedMap, hm]
      simp only [String.empty_append, Option.getD_some]
      apply structured_join
      intro x hx
      obtain ⟨k, hk, rfl⟩ := List.mem_map.mp hx
      have hk1 : k ∈ m.map Prod.fst := (sortStrings_perm _).mem_iff.mp hk
      obtain ⟨hkn, hvp⟩ := plainEntries_valueAt hp hk1
      have hkey : NoNewline (k ++ ":") := noNewline_append hkn (noNewline_literal _ (Or.inl rfl))
      simp only [expandedMapBlock, identityRoles, id]
      split
      · next hcomp1 =>
        have h1 := structured_line pfx (k ++ ":") hkey
        have h2 : Structured pfx.data ((expanded wide (valueAt m k) (pfx ++ "  ") c).getD "") :=
          structured_deeper (noNewline_literal _ (Or.inr (Or.inr (Or.inr rfl))))
            (hkid _ _ (by have := weight_valueAt m k; omega) hvp hcomp1)
        have := structured_append h1 h2
        simpa [String.append_assoc] using this
      · next hcomp1 =>
        cases hv : valueAt m k with
        | prim q =>
          rw [hv] at hvp
          have hexp : (expanded wide (.prim q) (pfx ++ "  ") c).getD "" =
              (primitive wide q c).getD "" := by
            rw [expanded]
          rw [hexp]
          have h1 := structured_line pfx (k ++ ":" ++ " " ++ (primitive wide q c).getD "")
            (noNewline_append (noNewline_append hkey (noNewline_literal _ (Or.inr (Or.inl rfl))))
              (hprim q hvp))
          simpa [String.append_assoc] using h1
        | map m1 => simp [hv, isComposite] at hcomp1
        | list xs1 => simp [hv, isComposite] at hcomp1
    | list xs =>
      simp only [Value.weight] at hw
      simp only [Value.plain] at hp
      refine ⟨_, he _ _, ?_⟩
      have hm := expandedSliceLoop_spec wide c identityRoles hc
        (fun v p => (expanded wide v p c).getD "") (fun q => (primitive wide q c).getD "")
        pfx xs "" (fun v _ => he _ _) (fun q _ => hq q)
      rw [expanded, expandedSlice, hm]
      simp only [String.empty_append, Option.getD_some]
      apply structured_join
      intro x hx
      obtain ⟨v, hv, rfl⟩ := List.mem_map.mp hx
      have hvp := plainList_mem hp hv
      have hdash : NoNewline "-" := noNewline_literal _ (Or.inr (Or.inr (Or.inl rfl)))
      cases v with
      | prim q =>
        simp only [expandedSliceBlock, identityRoles, id]
        have h1 := structured_line pfx ("-" ++ " " ++ (primitive wide q c).getD "")
          (noNewline_append (noNewline_append hdash (noNewline_literal _ (Or.inr (Or.inl rfl))))
            (hprim q hvp))
        simpa [String.append_assoc] using h1
      | map m1 =>
        simp only [expandedSliceBlock, identityRoles, id]
        have h1 := structured_line pfx "-" hdash
        have h2 : Structured pfx.data ((expanded wide (.map m1) (pfx ++ "  ") c).getD "") :=
          structured_deeper (noNewline_literal _ (Or.inr (Or.inr (Or.inr rfl))))
            (hkid _ _ (by have := weight_mem hv; omega) hvp rfl)
        have := structured_append h1 h2
        simpa [String.append_assoc] using this
      | list xs1 =>
        simp only [expandedSliceBlock, identityRoles, id]
        have h1 := structured_line pfx "-" hdash
        have h2 : Structured pfx.data ((expanded wide (.list xs1) (pfx ++ "  ") c).getD "") :=
          structured_deeper (noNewline_literal _ (Or.inr (Or.inr (Or.inr rfl))))
            (hkid _ _ (by have := weight_mem hv; omega) hvp rfl)
        have := structured_append h1 h2
        simpa [String.append_assoc] using this

theorem join_append (l1 l2 : List String) :
    String.join (l1 ++ l2) = String.join l1 ++ String.join l2 := by
  induction l1 with
  | nil => simp [join_nil]
  | cons x xs ih => simp only [List.cons_append, join_cons, ih, String.append_assoc]

theorem splitNewline_append : ∀ (s t : List Char),
    splitNewline (s ++ '\n' :: t) = splitNewline s ++ splitNewline t
  | [], t => by simp [splitNewline]
  | ch :: s, t => by
    have ih := splitNewline_append s t
    show splitNewline (ch :: (s ++ '\n' :: t)) = _
    by_cases hch : ch = '\n'
    · simp only [splitNewline, hch, if_true, ih, List.cons_append]
    · simp only [splitNewline, hch, if_false, ih]
      cases hs : splitNewline s with
      | nil => exact absurd hs (splitNewline_ne_nil s)
      | cons l ls => simp

theorem terminatedLines_append {a t : String} (ha : a = "" ∨ EndsWithNewline a) :
    terminatedLines (a ++ t) = terminatedLines a ++ terminatedLines t := by
  rcases ha with rfl | ha
  · simp [terminatedLines, splitNewline]
  · unfold EndsWithNewline at ha
    have hne : a.data ≠ [] := by
      intro h
      rw [h] at ha
      simp at ha
    have hlast : a.data.getLast hne = '\n' := by
      have := List.getLast?_eq_getLast _ hne
      rw [this] at ha
      exact Option.some.inj ha
    have hsplit : a.data = a.data.dropLast ++ ['\n'] := by
      conv_lhs => rw [← List.dropLast_concat_getLast hne, hlast]
    simp only [terminatedLines, String.data_append]
    rw [hsplit, List.append_assoc, List.singleton_append, splitNewline_append,
      ← List.singleton_append, ← List.append_assoc, List.append_nil]
    have h1 : splitNewline (a.data.dropLast ++ ['\n']) = splitNewline a.data.dropLast ++ [[]] := by
      have := splitNewline_append a.data.dropLast []
      simpa [splitNewline] using this
    rw [h1, List.dropLast_concat, List.dropLast_append_of_ne_nil _ (splitNewline_ne_nil _)]

theorem spaces_succ (pfx : String) (k : Nat) :
    pfx ++ "  " ++ spaces (2 * k) = pfx ++ spaces (2 * (k + 1)) := by
  have h2 : 2 * (k + 1) = 2 * k + 1 + 1 := by omega
  have hs : spaces (2 * (k + 1)) = "  " ++ spaces (2 * k) := by
    apply String.ext
    simp only [spaces, String.data_append, h2, List.replicate_succ]
    rfl
  rw [hs, String.append_assoc]

theorem nestedIn_plain {k : Nat} {v w : Value} (h : NestedIn k v w) (hv : v.plain = true) :
    w.plain = true := by
  induction h with
  | here v => exact hv
  | inMap m key w k hkey _ ih =>
    simp only [Value.plain] at hv
    exact ih (plainEntries_valueAt hv hkey).2
  | inList xs x w k hx _ ih =>
    simp only [Value.plain] at hv
    exact ih (plainList_mem hv hx)

theorem nestedIn_composite {k : Nat} {v w : Value} (h : NestedIn k v w)
    (hw : isComposite w = true) : isComposite v = true := by
  cases h with
  | here => exact hw
  | inMap => rfl
  | inList => rfl

theorem nested_segment (wide : Char → Bool) (c : config)
    (hc : Defines c.format identityRoles) {k : Nat} {v w : Value} (h : NestedIn k v w)
    (hw : isComposite w = true) :
    ∀ pfx, ∃ a x b, expanded wide v pfx c = some (a ++ x ++ b) ∧
      expanded wide w (pfx ++ spaces (2 * k)) c = some x ∧
      (a = "" ∨ EndsWithNewline a) := by
  have he : ∀ v p, expanded wide v p c = some ((expanded wide v p c).getD "") :=
    fun v p => getD_of_isSome (expanded_total wide c identityRoles hc v p)
  have hq : ∀ q, primitive wide q c = some ((primitive wide q c).getD "") :=
    fun q => getD_of_isSome (primitive_total wide c identityRoles hc q)
  induction h with
  | here v =>
    intro pfx
    refine ⟨"", (expanded wide v pfx c).getD "", "", ?_, ?_, Or.inl rfl⟩
    · simpa using he v pfx
    · have : pfx ++ spaces (2 * 0) = pfx := by
        apply String.ext
        simp [spaces]
      rw [this]
      exact he v pfx
  | inMap m key w k hkey hnest ih =>
    intro pfx
    obtain ⟨a1, x, b1, h1, h2, h3⟩ := ih hw (pfx ++ "  ")
    have hcomp := nestedIn_composite hnest hw
    have hkeys : key ∈ mapKeys m := (sortStrings_perm _).mem_iff.mpr hkey
    obtain ⟨k1, k2, hsplit⟩ := List.append_of_mem hkeys
    have hm := expandedMapLoop_spec wide c identityRoles hc
      (fun v p => (expanded wide v p c).getD "") m pfx (mapKeys m) "" (fun k _ => he _ _)
    refine ⟨String.join (k1.map fun k => expandedMapBlock identityRoles
        (fun v p => (expanded wide v p c).getD "") pfx k (valueAt m k)) ++
        (pfx ++ key ++ ":" ++ "\n" ++ a1), x,
      b1 ++ String.join (k2.map fun k => expandedMapBlock identityRoles
        (fun v p => (expanded wide v p c).getD "") pfx k (valueAt m k)), ?_, ?_, ?_⟩
    · rw [expanded, expandedMap, hm, hsplit]
      simp only [String.empty_append, List.map_append, List.map_cons, join_append, join_cons,
        expandedMapBlock, hcomp, if_true, h1, Option.getD_some, identityRoles, id,
        String.append_assoc]
    · rw [← spaces_succ]
      exact h2
    · refine Or.inr (endsWithNewline_append_right ?_)
      exact endsWithNewline_append_empty_or
        (endsWithNewline_append_right endsWithNewline_newline) h3
  | inList xs x0 w k hx hnest ih =>
    intro pfx
    obtain ⟨a1, x, b1, h1, h2, h3⟩ := ih hw (pfx ++ "  ")
    have hcomp := nestedIn_composite hnest hw
    obtain ⟨l1, l2, hsplit⟩ := List.append_of_mem hx
    have hm := expandedSliceLoop_spec wide c identityRoles hc
      (fun v p => (expanded wide v p c).getD "") (fun q => (primitive wide q c).getD "")
      pfx xs "" (fun v _ => he _ _) (fun q _ => hq q)
    have hblock : expandedSliceBlock identityRoles (fun v p => (expanded wide v p c).getD "")
        (fun q => (primitive wide q c).getD "") pfx x0 =
        pfx ++ "-" ++ "\n" ++ (a1 ++ x ++ b1) := by
      cases x0 with
      | prim q => simp [isComposite] at hcomp
      | map m1 => simp only [expandedSliceBlock, h1, Option.getD_some, identityRoles, id]
      | list xs1 => simp only [expandedSliceBlock, h1, Option.getD_some, identityRoles, id]
    refine ⟨String.join (l1.map fun v => expandedSliceBlock identityRoles
        (fun v p => (expanded wide v p c).getD "") (fun q => (primitive wide q c).getD "")
        pfx v) ++ (pfx ++ "-" ++ "\n" ++ a1), x,
      b1 ++ String.join (l2.map fun v => expandedSliceBlock identityRoles
        (fun v p => (expanded wide v p c).getD "") (fun q => (primitive wide q c).getD "")
        pfx v), ?_, ?_, ?_⟩
    · rw [expanded, expandedSlice, hm, hsplit]
      simp only [String.empty_append, List.map_append, List.map_cons, join_append, join_cons,
        hblock, String.append_assoc]
    · rw [← spaces_succ]
      exact h2
    · refine Or.inr (endsWithNewline_append_right ?_)
      exact endsWithNewline_append_empty_or
        (endsWithNewline_append_right endsWithNewline_newline) h3

/-- C20: with identity formatters, for every map or list `v` whose keys at
every nesting level contain no newline and whose leaves are strings, bools,
numbers or date-times, and for every prefix `p` without a newline, which
includes every prefix that the renderer passes (two spaces at the top and two
more for each level): every newline-terminated line of `expanded(v, p)` begins
with `p`; for a map or list `w` nested `k` levels below `v`, the text
`expanded(w, p` followed by `2 * k` spaces`)` is a run of whole lines of
`expanded(v, p)`, each of which begins with `p` followed by `2 * k` spaces; and
every line of `Expanded(r)` begins with two spaces. -/
theorem expanded_indentation (colors : Colors) (wide : Char → Bool) (f : Formatters)
    (hf : Defines f identityRoles) :
    (∀ (v : Value) (p : String), isComposite v = true → v.plain = true → NoNewline p →
      ∃ s, expanded wide v p ⟨f⟩ = some s ∧ LinesBeginWith p s) ∧
    (∀ (k : Nat) (v w : Value) (p : String), NestedIn k v w → isComposite w = true →
      v.plain = true → NoNewline p →
      ∃ a x b, expanded wide v p ⟨f⟩ = some (a ++ x ++ b) ∧
        expanded wide w (p ++ spaces (2 * k)) ⟨f⟩ = some x ∧
        (∀ l ∈ terminatedLines x, l ∈ terminatedLines (a ++ x ++ b)) ∧
        LinesBeginWith (p ++ spaces (2 * k)) x) ∧
    (∀ r : List (String × Value), plainEntries r = true →
      ∃ s, Expanded colors wide r [WithFormatters f] = some s ∧ LinesBeginWith "  " s) := by
  have hmain : ∀ (v : Value) (p : String), isComposite v = true → v.plain = true →
      NoNewline p → ∃ s, expanded wide v p ⟨f⟩ = some s ∧ LinesBeginWith p s := by
    intro v p hcomp hplain hp
    obtain ⟨s, hs, hst⟩ := expanded_structured_aux wide ⟨f⟩ hf _ v (Nat.le_refl _) hplain hcomp p
    exact ⟨s, hs, linesBeginWith_of_structured hp hst⟩
  refine ⟨hmain, ?_, ?_⟩
  · intro k v w p hnest hw hplain hp
    obtain ⟨a, x, b, h1, h2, h3⟩ := nested_segment wide ⟨f⟩ hf hnest hw p
    have hsp : NoNewline (p ++ spaces (2 * k)) := by
      refine noNewline_append hp ?_
      intro hmem
      have := (List.mem_replicate.mp hmem).2
      exact absurd this (by decide)
    obtain ⟨x1, hx1, hlines⟩ := hmain w (p ++ spaces (2 * k)) hw (nestedIn_plain hnest hplain) hsp
    rw [h2] at hx1
    have hxx : x = x1 := Option.some.inj hx1
    subst hxx
    refine ⟨a, x, b, h1, h2, ?_, hlines⟩
    obtain ⟨x2, hx2, hends⟩ := expanded_endsWithNewline_aux wide ⟨f⟩ identityRoles hf _ w
      (Nat.le_refl _) hw (p ++ spaces (2 * k))
    rw [h2] at hx2
    have hxx2 : x = x2 := Option.some.inj hx2
    subst hxx2
    intro l hl
    rw [String.append_assoc, terminatedLines_append h3, terminatedLines_append hends]
    exact List.mem_append_right _ (List.mem_append_left _ hl)
  · intro r hr
    exact hmain (.map r) "  " rfl (by simpa [Value.plain] using hr) (by unfold NoNewline; decide)

/-- Witness of C20: a record with a list nested one level below it;
every line begins with two spaces, the line of the element with four. -/
theorem expanded_indentation_witness :
    (∃ s, Expanded plainColors samplePrintable [("tags", .list [.prim (.str "a")])]
        [WithFormatters identityFormatters] = some s ∧ LinesBeginWith "  " s) ∧
      (∃ a x b, expanded samplePrintable (.map [("tags", .list [.prim (.str "a")])]) "  "
          ⟨identityFormatters⟩ = some (a ++ x ++ b) ∧
        expanded samplePrintable (.list [.prim (.str "a")]) ("  " ++ spaces (2 * 1))
          ⟨identityFormatters⟩ = some x ∧
        (∀ l ∈ terminatedLines x, l ∈ terminatedLines (a ++ x ++ b)) ∧
        LinesBeginWith ("  " ++ spaces (2 * 1)) x) :=
  let h := expanded_indentation plainColors samplePrintable identityFormatters identity_defines
  ⟨h.2.2 [("tags", .list [.prim (.str "a")])] (by decide),
    h.2.1 1 (.map [("tags", .list [.prim (.str "a")])]) (.list [.prim (.str "a")]) "  "
      (NestedIn.inMap _ "tags" _ 0 (by decide) (NestedIn.here _)) rfl (by decide)
      (by unfold NoNewline; decide)⟩

/-! ## Compact and expanded renderings of the same record -/

theorem lowerhex_plain (n : Nat) : lowerhex n ≠ ' ' ∧ lowerhex n ≠ '=' := by
  have hlt : n % 16 < 16 := Nat.mod_lt _ (by decide)
  simp only [lowerhex]
  generalize n % 16 = k at hlt
  interval_cases k <;> decide

theorem hexEscape_plain (n : Nat) : ∀ ch ∈ hexEscape n, ch ≠ ' ' ∧ ch ≠ '=' := by
  have hb : backslash ≠ ' ' ∧ backslash ≠ '=' := by decide
  intro ch hch
  unfold hexEscape at hch
  split at hch
  · simp only [List.mem_cons, List.mem_singleton, List.not_mem_nil, or_false] at hch
    rcases hch with rfl | rfl | rfl | rfl
    · exact hb
    · decide
    · exact lowerhex_plain _
    · exact lowerhex_plain _
  · split at hch
    · simp only [List.mem_cons, List.mem_singleton, List.not_mem_nil, or_false] at hch
      rcases hch with rfl | rfl | rfl | rfl | rfl | rfl
      · exact hb
      · decide
      all_goals exact lowerhex_plain _
    · simp only [List.mem_cons, List.mem_singleton, List.not_mem_nil, or_false] at hch
      rcases hch with rfl | rfl | rfl | rfl | rfl | rfl | rfl | rfl | rfl | rfl
      · exact hb
      · decide
      all_goals exact lowerhex_plain _

theorem escapeCode_plain (n : Nat) : ∀ ch ∈ escapeCode n, ch ≠ ' ' ∧ ch ≠ '=' := by
  intro ch hch
  unfold escapeCode at hch
  split at hch
  case h_8 => exact hexEscape_plain _ ch hch
  all_goals
    simp only [List.mem_cons, List.mem_singleton, List.not_mem_nil, or_false] at hch
    rcases hch with rfl | rfl <;> decide

theorem escapedRune_plain (wide : Char → Bool) (r : Char) :
    ∀ ch ∈ escapedRune wide r, (ch = ' ' → r = ' ') ∧ (ch = '=' → r = '=') := by
  intro ch hch
  unfold escapedRune at hch
  split at hch
  · next h =>
    simp only [List.mem_cons, List.mem_singleton, List.not_mem_nil, or_false] at hch
    rcases hch with rfl | rfl
    · exact ⟨fun h1 => absurd h1 (by decide), fun h1 => absurd h1 (by decide)⟩
    · exact ⟨fun h1 => h1, fun h1 => h1⟩
  · split at hch
    · simp only [List.mem_singleton] at hch
      subst hch
      exact ⟨fun h1 => h1, fun h1 => h1⟩
    · have := escapeCode_plain _ ch hch
      exact ⟨fun h1 => absurd h1 this.1, fun h1 => absurd h1 this.2⟩

theorem quote_plain (wide : Char → Bool) (s : String) :
    (' ' ∉ s.data → ' ' ∉ (quote wide s).data) ∧ ('=' ∉ s.data → '=' ∉ (quote wide s).data) := by
  constructor
  · intro hs hmem
    simp only [quote, List.mem_cons, List.mem_append, List.mem_flatMap, List.mem_singleton,
      List.not_mem_nil, or_false] at hmem
    rcases hmem with h | h | h
    · exact absurd h (by decide)
    · obtain ⟨r, hr, hmem⟩ := h
      have := (escapedRune_plain wide r _ hmem).1 rfl
      exact hs (this ▸ hr)
    · exact absurd h (by decide)
  · intro hs hmem
    simp only [quote, List.mem_cons, List.mem_append, List.mem_flatMap, List.mem_singleton,
      List.not_mem_nil, or_false] at hmem
    rcases hmem with h | h | h
    · exact absurd h (by decide)
    · obtain ⟨r, hr, hmem⟩ := h
      have := (escapedRune_plain wide r _ hmem).2 rfl
      exact hs (this ▸ hr)
    · exact absurd h (by decide)

theorem fmtF_noSpace (neg : Bool) (d : Decimal) (prec : Nat)
    (h : ∀ ch ∈ d.d, 48 ≤ ch.toNat) : ' ' ∉ fmtF neg d prec := by
  have hge : ∀ ch : Char, 48 ≤ ch.toNat → ch ≠ ' ' := by
    intro ch hch heq
    subst heq
    simp at hch
  intro hmem
  simp only [fmtF, List.mem_append] at hmem
  rcases hmem with (hmem | hmem) | hmem
  · split at hmem
    · simp at hmem
    · simp at hmem
  · split at hmem
    · rcases List.mem_append.mp hmem with h1 | h1
      · exact hge _ (h _ (List.mem_of_mem_take h1)) rfl
      · have := (List.mem_replicate.mp h1).2
        simp at this
    · simp at hmem
  · split at hmem
    · rcases List.mem_cons.mp hmem with h1 | h1
      · simp at h1
      · obtain ⟨i, _, hi⟩ := List.mem_map.mp h1
        exact hge _ (hi ▸ digitAt_ge h _) rfl
    · simp at hmem

theorem formatFloat_noSpace (bits : Nat) : ' ' ∉ (formatFloat bits).data := by
  simp only [formatFloat]
  split
  · split
    · decide
    · split <;> decide
  · exact fmtF_noSpace _ _ _ (roundShortest_ge _ _ _ (decimalOf_ge _ _))

theorem noEq_append {a b : String} (ha : '=' ∉ a.data) (hb : '=' ∉ b.data) :
    '=' ∉ (a ++ b).data := by
  rw [String.data_append]
  intro h
  rcases List.mem_append.mp h with h | h
  · exact ha h
  · exact hb h

theorem noEq_of_digits {l : List Char} (h : ∀ ch ∈ l, ch.isDigit = true) :
    '=' ∉ (String.mk l).data := by
  intro hmem
  have := h _ hmem
  exact absurd this (by decide)

theorem pad2_noEq (n : Nat) : '=' ∉ (pad2 n).data := by
  apply noEq_of_digits
  intro ch hch
  simp only [pad2, List.mem_append] at hch
  rcases hch with h | h
  · split at h
    · simp only [List.mem_singleton] at h
      subst h
      decide
    · simp at h
  · exact toDigits_isDigit _ _ h

theorem formatDate_noEq (t : Time) : '=' ∉ (formatDate t).data := by
  have hlit : ∀ s : String, s = " " ∨ s = ":" ∨ s = "pm" ∨ s = "am" → '=' ∉ s.data := by
    intro s hs
    rcases hs with rfl | rfl | rfl | rfl <;> decide
  have hmonth : '=' ∉ (monthAbbr t.month).data := by
    unfold monthAbbr
    split <;> decide
  have hsuffix : '=' ∉ (dateSuffix t).data := by
    unfold dateSuffix
    split <;> decide
  unfold formatDate
  refine noEq_append (noEq_append (noEq_append (noEq_append
    (noEq_append (noEq_append (noEq_append (noEq_append (noEq_append
    (noEq_append hmonth (hlit _ (Or.inl rfl)))
    (noEq_of_digits (toDigits_isDigit _))) hsuffix) (hlit _ (Or.inl rfl)))
    (pad2_noEq _)) (hlit _ (Or.inr (Or.inl rfl)))) (pad2_noEq _))
    (hlit _ (Or.inr (Or.inl rfl)))) (pad2_noEq _)) ?_
  split
  · exact hlit _ (Or.inr (Or.inr (Or.inl rfl)))
  · exact hlit _ (Or.inr (Or.inr (Or.inr rfl)))

theorem plainEncoding_unambiguous (wide : Char → Bool) (p : Prim) (hp : p.Unambiguous) :
    '\n' ∉ (plainEncoding wide p).data ∧
      (' ' ∉ (plainEncoding wide p).data ∨ '=' ∉ (plainEncoding wide p).data) := by
  have hid : ∀ role, role ∈ lookedUpRoles → ∀ arg,
      call ⟨identityFormatters⟩ role arg = some arg := by
    intro role hr arg
    simp only [lookedUpRoles, List.mem_cons, List.mem_singleton, List.not_mem_nil,
      or_false] at hr
    rcases hr with rfl | rfl | rfl | rfl | rfl | rfl | rfl | rfl | rfl <;> rfl
  cases p with
  | str s =>
    simp only [plainEncoding, primitive]
    split
    · rw [hid "string" (by decide)]
      refine ⟨quote_noNewline wide s, ?_⟩
      rcases hp with h | h
      · exact Or.inl ((quote_plain wide s).1 h)
      · exact Or.inr ((quote_plain wide s).2 h)
    · next hcond =>
      rw [hid "string" (by decide)]
      have hca : containsAny s " \n\t" = false := by
        cases hca : containsAny s " \n\t" with
        | false => rfl
        | true => simp [hca] at hcond
      refine ⟨noNewline_of_containsAny hca, Or.inl ?_⟩
      intro hmem
      simp only [containsAny, List.any_eq_false] at hca
      exact hca _ hmem (by decide)
  | time t =>
    simp only [plainEncoding, primitive]
    rw [hid "date" (by decide)]
    exact ⟨formatDate_noNewline t, Or.inr (formatDate_noEq t)⟩
  | bool b =>
    simp only [plainEncoding, primitive]
    rw [hid "bool" (by decide)]
    cases b
    · exact ⟨by decide, Or.inl (by decide)⟩
    · exact ⟨by decide, Or.inl (by decide)⟩
  | num bits =>
    simp only [plainEncoding, primitive]
    rw [hid "number" (by decide)]
    exact ⟨formatFloat_noNewline bits, Or.inl (formatFloat_noSpace bits)⟩
  | other text =>
    simp only [plainEncoding, primitive]
    exact hp

theorem sep_unique (c : Char) : ∀ (a a1 b b1 : List Char), c ∉ a → c ∉ a1 →
    a ++ c :: b = a1 ++ c :: b1 → a = a1 ∧ b = b1
  | [], [], b, b1, _, _, h => by simpa using h
  | [], x :: a1, b, b1, _, h1, h => by
    simp only [List.nil_append, List.cons_append, List.cons.injEq] at h
    exact absurd (h.1 ▸ List.mem_cons_self _ _) h1
  | x :: a, [], b, b1, h0, _, h => by
    simp only [List.nil_append, List.cons_append, List.cons.injEq] at h
    exact absurd (h.1 ▸ List.mem_cons_self _ _) h0
  | x :: a, y :: a1, b, b1, h0, h1, h => by
    simp only [List.cons_append, List.cons.injEq] at h
    obtain ⟨hxy, hrest⟩ := h
    obtain ⟨ha, hb⟩ := sep_unique c a a1 b b1 (fun hm => h0 (List.mem_cons_of_mem _ hm))
      (fun hm => h1 (List.mem_cons_of_mem _ hm)) hrest
    exact ⟨by rw [hxy, ha], hb⟩

theorem value_cut_aux {v v1 u u1 a : List Char} (hv1 : ' ' ∉ v1 ∨ '=' ∉ v1)
    (hu : u = [] ∨ ∃ k x, '=' ∉ k ∧ ' ' ∉ k ∧ u = ' ' :: (k ++ '=' :: x))
    (hu1 : u1 = [] ∨ ∃ k x, '=' ∉ k ∧ ' ' ∉ k ∧ u1 = ' ' :: (k ++ '=' :: x))
    (h1 : v1 = v ++ a) (h2 : u = a ++ u1) : a = [] := by
  cases a with
  | nil => rfl
  | cons c a =>
    exfalso
    rcases hu with hu | ⟨k, x, hk1, hk2, hu⟩
    · rw [hu] at h2
      simp at h2
    · rw [hu, List.cons_append] at h2
      obtain ⟨hc, h3⟩ := List.cons.inj h2
      subst hc
      have hsp : ' ' ∈ v1 := by
        rw [h1]
        exact List.mem_append_right _ (List.mem_cons_self _ _)
      have hne : '=' ∉ v1 := by
        rcases hv1 with h | h
        · exact absurd hsp h
        · exact h
      have hna : '=' ∉ a := by
        intro hm
        apply hne
        rw [h1]
        exact List.mem_append_right _ (List.mem_cons_of_mem _ hm)
      rcases hu1 with hu1 | ⟨k2, x2, hk3, _, hu1⟩
      · rw [hu1, List.append_nil] at h3
        apply hna
        rw [← h3]
        exact List.mem_append_right _ (List.mem_cons_self _ _)
      · rw [hu1] at h3
        have h4 : k ++ '=' :: x = (a ++ ' ' :: k2) ++ '=' :: x2 := by
          rw [h3]
          simp
        have hn2 : '=' ∉ a ++ ' ' :: k2 := by
          intro hm
          rcases List.mem_append.mp hm with hm | hm
          · exact hna hm
          · rcases List.mem_cons.mp hm with hm | hm
            · exact absurd hm (by decide)
            · exact hk3 hm
        obtain ⟨h5, -⟩ := sep_unique '=' _ _ _ _ hk1 hn2 h4
        apply hk2
        rw [h5]
        exact List.mem_append_right _ (List.mem_cons_self _ _)

theorem value_cut {v v1 u u1 : List Char} (hv : ' ' ∉ v ∨ '=' ∉ v) (hv1 : ' ' ∉ v1 ∨ '=' ∉ v1)
    (hu : u = [] ∨ ∃ k x, '=' ∉ k ∧ ' ' ∉ k ∧ u = ' ' :: (k ++ '=' :: x))
    (hu1 : u1 = [] ∨ ∃ k x, '=' ∉ k ∧ ' ' ∉ k ∧ u1 = ' ' :: (k ++ '=' :: x))
    (h : v ++ u = v1 ++ u1) : v = v1 ∧ u = u1 := by
  rcases List.append_eq_append_iff.mp h with ⟨a, h1, h2⟩ | ⟨a, h1, h2⟩
  · have ha := value_cut_aux hv1 hu hu1 h1 h2
    subst ha
    simp only [List.append_nil, List.nil_append] at h1 h2
    exact ⟨h1.symm, h2⟩
  · have ha := value_cut_aux hv hu1 hu h1 h2
    subst ha
    simp only [List.append_nil, List.nil_append] at h1 h2
    exact ⟨h1, h2.symm⟩

theorem agree_of_defines {f g : Formatters} {R : Roles} (hf : Defines f R) (hg : Defines g R) :
    AgreeOnRoles f g := by
  obtain ⟨f1, f2, f3, f4, f5, f6, f7, f8, f9⟩ := hf
  obtain ⟨g1, g2, g3, g4, g5, g6, g7, g8, g9⟩ := hg
  intro role hr
  simp only [lookedUpRoles, List.mem_cons, List.mem_singleton, List.not_mem_nil, or_false] at hr
  rcases hr with rfl | rfl | rfl | rfl | rfl | rfl | rfl | rfl | rfl
  · rw [f1, g1]
  · rw [f2, g2]
  · rw [f3, g3]
  · rw [f4, g4]
  · rw [f5, g5]
  · rw [f6, g6]
  · rw [f7, g7]
  · rw [f8, g8]
  · rw [f9, g9]

theorem valueAt_mem_of_key : ∀ (r : List (String × Value)) (k : String),
    k ∈ r.map Prod.fst → (k, valueAt r k) ∈ r
  | [], k, h => by simp at h
  | (k0, v0) :: r, k, h => by
    by_cases hk : k = k0
    · subst hk
      simp [valueAt, List.lookup]
    · have hmem : k ∈ r.map Prod.fst := by
        simpa [hk] using h
      have ih := valueAt_mem_of_key r k hmem
      have hb : (k == k0) = false := by simpa using hk
      have : valueAt ((k0, v0) :: r) k = valueAt r k := by
        simp only [valueAt, List.lookup, hb]
      rw [this]
      exact List.mem_cons_of_mem _ ih

theorem flat_valueAt {r : List (String × Value)} (hr : FlatUnambiguous r)
    {k : String} (hk : k ∈ mapKeys r) :
    '=' ∉ k.data ∧ ' ' ∉ k.data ∧ ∃ p, valueAt r k = .prim p ∧ p.Unambiguous := by
  have hk1 : k ∈ r.map Prod.fst := (sortStrings_perm _).mem_iff.mp hk
  exact hr _ (valueAt_mem_of_key r k hk1)

theorem encodedPairs_unambiguous (wide : Char → Bool) {r : List (String × Value)}
    (hr : FlatUnambiguous r) : ∀ e ∈ encodedPairs wide r, UnambiguousPair e := by
  intro e he
  simp only [encodedPairs, List.mem_map] at he
  obtain ⟨k, hk, rfl⟩ := he
  obtain ⟨h1, h2, p, hp, h3⟩ := flat_valueAt hr hk
  refine ⟨h1, h2, ?_⟩
  simp only [encodingAt, hp]
  exact plainEncoding_unambiguous wide p h3

theorem compact_flat (colors : Colors) (wide : Char → Bool) (f : Formatters)
    (hf : Defines f identityRoles) (r : List (String × Value)) (hr : FlatUnambiguous r) :
    Compact colors wide r [WithFormatters f] =
      some (" ".intercalate ((encodedPairs wide r).map compactItem)) := by
  have hagree := agree_of_defines hf identity_defines
  have hc : Defines (config.mk f).format identityRoles := hf
  simp only [Compact, WithFormatters, List.foldl_cons, List.foldl_nil]
  rw [compact, compactMap,
    compactMapLoop_spec wide ⟨f⟩ identityRoles hc (fun v => (compact wide v ⟨f⟩).getD "") r
      (mapKeys r) (mapKeys r) 0 ""
      (fun k _ => getD_of_isSome (compact_total wide ⟨f⟩ identityRoles hc _)) (by simp)]
  simp only [encodedPairs, List.map_map, String.empty_append]
  congr 2
  apply List.map_congr_left
  intro k hk
  obtain ⟨-, -, p, hp, -⟩ := flat_valueAt hr hk
  simp only [Function.comp, compactEntry, compactItem, encodingAt, hp, isComposite,
    identityRoles, id, plainEncoding]
  rw [compact, primitive_agree wide hagree p]
  simp

theorem expanded_flat (colors : Colors) (wide : Char → Bool) (f : Formatters)
    (hf : Defines f identityRoles) (r : List (String × Value)) (hr : FlatUnambiguous r) :
    Expanded colors wide r [WithFormatters f] =
      some (String.join ((encodedPairs wide r).map expandedItem)) := by
  have hagree := agree_of_defines hf identity_defines
  have hc : Defines (config.mk f).format identityRoles := hf
  simp only [Expanded, WithFormatters, List.foldl_cons, List.foldl_nil]
  rw [expanded, expandedMap,
    expandedMapLoop_spec wide ⟨f⟩ identityRoles hc
      (fun v p => (expanded wide v p ⟨f⟩).getD "") r "  " (mapKeys r) ""
      (fun k _ => getD_of_isSome (expanded_total wide ⟨f⟩ identityRoles hc _ _))]
  simp only [encodedPairs, List.map_map, String.empty_append]
  congr 2
  apply List.map_congr_left
  intro k hk
  obtain ⟨-, -, p, hp, -⟩ := flat_valueAt hr hk
  simp only [Function.comp, expandedMapBlock, expandedItem, encodingAt, hp, isComposite,
    identityRoles, id, plainEncoding]
  rw [expanded, primitive_agree wide hagree p]
  simp

theorem compactItem_data (e : String × String) :
    (compactItem e).data = e.1.data ++ '=' :: e.2.data := by
  simp [compactItem, String.data_append]

theorem expandedItem_data (e : String × String) :
    (expandedItem e).data =
      ' ' :: ' ' :: ((e.1.data ++ [':']) ++ ' ' :: (e.2.data ++ ['\n'])) := by
  simp [expandedItem, String.data_append]

theorem spaced_data_cons (x : String) (l : List String) :
    (String.join ((x :: l).map fun y => " " ++ y)).data =
      ' ' :: (x.data ++ (String.join (l.map fun y => " " ++ y)).data) := by
  simp only [List.map_cons, join_cons, String.data_append]
  rfl

theorem spaced_items_cons (x : String × String) (l : List (String × String)) :
    (String.join (((x :: l).map compactItem).map fun y => " " ++ y)).data =
      ' ' :: (x.1.data ++ '=' :: (x.2.data ++
        (String.join ((l.map compactItem).map fun y => " " ++ y)).data)) := by
  have := spaced_data_cons (compactItem x) (l.map compactItem)
  rw [compactItem_data] at this
  simpa using this

theorem spaced_shape (l : List (String × String)) (hl : ∀ e ∈ l, UnambiguousPair e) :
    (String.join ((l.map compactItem).map fun y => " " ++ y)).data = [] ∨
      ∃ k x, '=' ∉ k ∧ ' ' ∉ k ∧
        (String.join ((l.map compactItem).map fun y => " " ++ y)).data =
          ' ' :: (k ++ '=' :: x) := by
  cases l with
  | nil => exact Or.inl rfl
  | cons e l =>
    have he := hl e (List.mem_cons_self _ _)
    exact Or.inr ⟨e.1.data, _, he.1, he.2.1, spaced_items_cons e l⟩

theorem spaced_inj : ∀ (P Q : List (String × String)),
    (∀ e ∈ P, UnambiguousPair e) → (∀ e ∈ Q, UnambiguousPair e) →
    (String.join ((P.map compactItem).map fun y => " " ++ y)).data =
      (String.join ((Q.map compactItem).map fun y => " " ++ y)).data → P = Q
  | [], [], _, _, _ => rfl
  | [], q :: Q, _, _, h => by
    rw [spaced_items_cons] at h
    exact absurd h (by simp [join_nil])
  | p :: P, [], _, _, h => by
    rw [spaced_items_cons] at h
    exact absurd h (by simp [join_nil])
  | p :: P, q :: Q, hP, hQ, h => by
    rw [spaced_items_cons, spaced_items_cons] at h
    have hp := hP p (List.mem_cons_self _ _)
    have hq := hQ q (List.mem_cons_self _ _)
    have hP1 : ∀ e ∈ P, UnambiguousPair e := fun e he => hP e (List.mem_cons_of_mem _ he)
    have hQ1 : ∀ e ∈ Q, UnambiguousPair e := fun e he => hQ e (List.mem_cons_of_mem _ he)
    obtain ⟨h1, h2⟩ := sep_unique '=' _ _ _ _ hp.1 hq.1 (List.cons.inj h).2
    obtain ⟨h3, h4⟩ := value_cut hp.2.2.2 hq.2.2.2 (spaced_shape P hP1) (spaced_shape Q hQ1) h2
    have hpq : p = q := Prod.ext (String.ext h1) (String.ext h3)
    rw [hpq, spaced_inj P Q hP1 hQ1 h4]

theorem intercalate_inj (P Q : List (String × String))
    (hP : ∀ e ∈ P, UnambiguousPair e) (hQ : ∀ e ∈ Q, UnambiguousPair e)
    (h : " ".intercalate (P.map compactItem) = " ".intercalate (Q.map compactItem)) :
    P = Q := by
  have hnil : ∀ (q : String × String) (Q : List (String × String)),
      (" ".intercalate ((q :: Q).map compactItem)).data ≠ [] := by
    intro q Q hd
    rw [List.map_cons, intercalate_cons, String.data_append, compactItem_data] at hd
    simp at hd
  cases P with
  | nil =>
    cases Q with
    | nil => rfl
    | cons q Q => exact absurd (congrArg String.data h).symm (hnil q Q)
  | cons p P =>
    cases Q with
    | nil => exact absurd (congrArg String.data h) (hnil p P)
    | cons q Q =>
      have hd := congrArg String.data h
      rw [List.map_cons, List.map_cons, intercalate_cons, intercalate_cons,
        String.data_append, String.data_append, compactItem_data, compactItem_data,
        List.append_assoc, List.append_assoc, List.cons_append, List.cons_append] at hd
      have hp := hP p (List.mem_cons_self _ _)
      have hq := hQ q (List.mem_cons_self _ _)
      have hP1 : ∀ e ∈ P, UnambiguousPair e := fun e he => hP e (List.mem_cons_of_mem _ he)
      have hQ1 : ∀ e ∈ Q, UnambiguousPair e := fun e he => hQ e (List.mem_cons_of_mem _ he)
      obtain ⟨h1, h2⟩ := sep_unique '=' _ _ _ _ hp.1 hq.1 hd
      obtain ⟨h3, h4⟩ := value_cut hp.2.2.2 hq.2.2.2 (spaced_shape P hP1) (spaced_shape Q hQ1) h2
      have hpq : p = q := Prod.ext (String.ext h1) (String.ext h3)
      rw [hpq, spaced_inj P Q hP1 hQ1 h4]

theorem lines_inj : ∀ (P Q : List (String × String)),
    (∀ e ∈ P, UnambiguousPair e) → (∀ e ∈ Q, UnambiguousPair e) →
    String.join (P.map expandedItem) = String.join (Q.map expandedItem) → P = Q
  | [], [], _, _, _ => rfl
  | [], q :: Q, _, _, h => by
    have hd := congrArg String.data h
    rw [List.map_cons, join_cons, String.data_append, expandedItem_data] at hd
    exact absurd hd (by simp [join_nil])
  | p :: P, [], _, _, h => by
    have hd := congrArg String.data h
    rw [List.map_cons, join_cons, String.data_append, expandedItem_data] at hd
    exact absurd hd (by simp [join_nil])
  | p :: P, q :: Q, hP, hQ, h => by
    have hd := congrArg String.data h
    rw [List.map_cons, List.map_cons, join_cons, join_cons, String.data_append,
      String.data_append, expandedItem_data, expandedItem_data] at hd
    simp only [List.cons_append, List.cons.injEq, true_and, List.append_assoc,
      List.singleton_append, List.nil_append] at hd
    have hp := hP p (List.mem_cons_self _ _)
    have hq := hQ q (List.mem_cons_self _ _)
    have hc : ∀ e : String × String, UnambiguousPair e → ' ' ∉ e.1.data ++ [':'] := by
      intro e he hm
      rcases List.mem_append.mp hm with hm | hm
      · exact he.2.1 hm
      · exact absurd (List.mem_singleton.mp hm) (by decide)
    have hd1 : (p.1.data ++ [':']) ++ ' ' :: (p.2.data ++ '\n' ::
        (String.join (P.map expandedItem)).data) =
        (q.1.data ++ [':']) ++ ' ' :: (q.2.data ++ '\n' ::
        (String.join (Q.map expandedItem)).data) := by
      simpa using hd
    obtain ⟨h1, h2⟩ := sep_unique ' ' _ _ _ _ (hc p hp) (hc q hq) hd1
    obtain ⟨h3, h4⟩ := sep_unique '\n' _ _ _ _ hp.2.2.1 hq.2.2.1 h2
    have hpq : p = q := Prod.ext (String.ext (List.append_cancel_right h1)) (String.ext h3)
    have hrest := lines_inj P Q (fun e he => hP e (List.mem_cons_of_mem _ he))
      (fun e he => hQ e (List.mem_cons_of_mem _ he)) (String.ext h4)
    rw [hpq, hrest]

/-- C17, as stated, fails in both directions, and each of the following pairs
of records has one rendering in common and the other one different. Compact
renderings equal, expanded ones different: key `a=b` bound to `c` and key `a`
bound to `b=c`; `a` bound to the map with `b` bound to `c` and `a` bound to the
string `b=c`; `a` bound to the list of `x` and `a` bound to the string `[x]`;
`a` bound to the string `x b=y` and `a`, `b` bound to the strings `"x` and
`y"`; `a` bound to a value of another type printed as `x b=y` and `a`, `b`
bound to `x`, `y`; the record with `level` = `info`, `count` = 3.0 and
`tags` = the list of `a` and `b`, and the same record with `tags` bound to a
value of another type printed as `[a, b]`. Expanded renderings equal, compact
ones different: key `a: b` bound to `c` and key `a` bound to a value of another
type printed as `b: c`; `a` bound to the empty map and to the empty list; `a`
bound to a value of another type printed on two lines and `a`, `b` bound to
`x`, `y`. -/
theorem compact_iff_expanded_counterexample :
    (Compact plainColors samplePrintable [("a=b", .prim (.str "c"))]
        [WithFormatters identityFormatters] =
      Compact plainColors samplePrintable [("a", .prim (.str "b=c"))]
        [WithFormatters identityFormatters] ∧
     Expanded plainColors samplePrintable [("a=b", .prim (.str "c"))]
        [WithFormatters identityFormatters] ≠
      Expanded plainColors samplePrintable [("a", .prim (.str "b=c"))]
        [WithFormatters identityFormatters]) ∧
    (Expanded plainColors samplePrintable [("a: b", .prim (.str "c"))]
        [WithFormatters identityFormatters] =
      Expanded plainColors samplePrintable [("a", .prim (.other "b: c"))]
        [WithFormatters identityFormatters] ∧
     Compact plainColors samplePrintable [("a: b", .prim (.str "c"))]
        [WithFormatters identityFormatters] ≠
      Compact plainColors samplePrintable [("a", .prim (.other "b: c"))]
        [WithFormatters identityFormatters]) ∧
    (Compact plainColors samplePrintable [("a", .map [("b", .prim (.str "c"))])]
        [WithFormatters identityFormatters] =
      Compact plainColors samplePrintable [("a", .prim (.str "b=c"))]
        [WithFormatters identityFormatters] ∧
     Expanded plainColors samplePrintable [("a", .map [("b", .prim (.str "c"))])]
        [WithFormatters identityFormatters] ≠
      Expanded plainColors samplePrintable [("a", .prim (.str "b=c"))]
        [WithFormatters identityFormatters]) ∧
    (Compact plainColors samplePrintable [("a", .list [.prim (.str "x")])]
        [WithFormatters identityFormatters] =
      Compact plainColors samplePrintable [("a", .prim (.str "[x]"))]
        [WithFormatters identityFormatters] ∧
     Expanded plainColors samplePrintable [("a", .list [.prim (.str "x")])]
        [WithFormatters identityFormatters] ≠
      Expanded plainColors samplePrintable [("a", .prim (.str "[x]"))]
        [WithFormatters identityFormatters]) ∧
    (Expanded plainColors samplePrintable [("a", .map [])]
        [WithFormatters identityFormatters] =
      Expanded plainColors samplePrintable [("a", .list [])]
        [WithFormatters identityFormatters] ∧
     Compact plainColors samplePrintable [("a", .map [])]
        [WithFormatters identityFormatters] ≠
      Compact plainColors samplePrintable [("a", .list [])]
        [WithFormatters identityFormatters]) ∧
    (Compact plainColors samplePrintable [("a", .prim (.str "x b=y"))]
        [WithFormatters identityFormatters] =
      Compact plainColors samplePrintable [("a", .prim (.str "\"x")), ("b", .prim (.str "y\""))]
        [WithFormatters identityFormatters] ∧
     Expanded plainColors samplePrintable [("a", .prim (.str "x b=y"))]
        [WithFormatters identityFormatters] ≠
      Expanded plainColors samplePrintable [("a", .prim (.str "\"x")), ("b", .prim (.str "y\""))]
        [WithFormatters identityFormatters]) ∧
    (Expanded plainColors samplePrintable [("a", .prim (.other "x\n  b: y"))]
        [WithFormatters identityFormatters] =
      Expanded plainColors samplePrintable [("a", .prim (.str "x")), ("b", .prim (.str "y"))]
        [WithFormatters identityFormatters] ∧
     Compact plainColors samplePrintable [("a", .prim (.other "x\n  b: y"))]
        [WithFormatters identityFormatters] ≠
      Compact plainColors samplePrintable [("a", .prim (.str "x")), ("b", .prim (.str "y"))]
        [WithFormatters identityFormatters]) ∧
    (Compact plainColors samplePrintable [("a", .prim (.other "x b=y"))]
        [WithFormatters identityFormatters] =
      Compact plainColors samplePrintable [("a", .prim (.str "x")), ("b", .prim (.str "y"))]
        [WithFormatters identityFormatters] ∧
     Expanded plainColors samplePrintable [("a", .prim (.other "x b=y"))]
        [WithFormatters identityFormatters] ≠
      Expanded plainColors samplePrintable [("a", .prim (.str "x")), ("b", .prim (.str "y"))]
        [WithFormatters identityFormatters]) ∧
    (Compact plainColors samplePrintable
        [("level", .prim (.str "info")), ("count", .prim (.num 0x4008000000000000)),
          ("tags", .list [.prim (.str "a"), .prim (.str "b")])]
        [WithFormatters identityFormatters] =
      Compact plainColors samplePrintable
        [("level", .prim (.str "info")), ("count", .prim (.num 0x4008000000000000)),
          ("tags", .prim (.other "[a, b]"))]
        [WithFormatters identityFormatters] ∧
     Expanded plainColors samplePrintable
        [("level", .prim (.str "info")), ("count", .prim (.num 0x4008000000000000)),
          ("tags", .list [.prim (.str "a"), .prim (.str "b")])]
        [WithFormatters identityFormatters] ≠
      Expanded plainColors samplePrintable
        [("level", .prim (.str "info")), ("count", .prim (.num 0x4008000000000000)),
          ("tags", .prim (.other "[a, b]"))]
        [WithFormatters identityFormatters]) := by
  have hk0 : mapKeys [] = [] := rfl
  have hkb : mapKeys [("b", .prim (.str "c"))] = ["b"] := by decide
  have hq : primitive samplePrintable (.str "x b=y") ⟨identityFormatters⟩ =
      some "\"x b=y\"" := by decide
  have kR1a : mapKeys [("a=b", .prim (.str "c"))] = ["a=b"] := by decide
  have kR1b : mapKeys [("a", .prim (.str "b=c"))] = ["a"] := by decide
  have kR2a : mapKeys [("a: b", .prim (.str "c"))] = ["a: b"] := by decide
  have kR2b : mapKeys [("a", .prim (.other "b: c"))] = ["a"] := by decide
  have kR3a : mapKeys [("a", .map [("b", .prim (.str "c"))])] = ["a"] := by decide
  have kR4a : mapKeys [("a", .list [.prim (.str "x")])] = ["a"] := by decide
  have kR4b : mapKeys [("a", .prim (.str "[x]"))] = ["a"] := by decide
  have kR5a : mapKeys [("a", .map [])] = ["a"] := by decide
  have kR5b : mapKeys [("a", .list [])] = ["a"] := by decide
  have kR6a : mapKeys [("a", .prim (.str "x b=y"))] = ["a"] := by decide
  have kR6b : mapKeys [("a", .prim (.str "\"x")), ("b", .prim (.str "y\""))] = ["a", "b"] := by decide
  have kR7a : mapKeys [("a", .prim (.other "x\n  b: y"))] = ["a"] := by decide
  have kR7b : mapKeys [("a", .prim (.str "x")), ("b", .prim (.str "y"))] = ["a", "b"] := by decide
  have kR8a : mapKeys [("a", .prim (.other "x b=y"))] = ["a"] := by decide
  have cR1a : Compact plainColors samplePrintable [("a=b", .prim (.str "c"))]
        [WithFormatters identityFormatters] =
      some "a=b=c" := by
    simp +decide [Compact, WithFormatters, compact, compactMap, compactMapLoop, compactSlice,
      compactSliceLoop, kR1a, hk0, hkb, primitive, call, identityFormatters, isComposite, valueAt,
      List.lookup, containsAny, trimSpace]
  have eR1a : Expanded plainColors samplePrintable [("a=b", .prim (.str "c"))]
        [WithFormatters identityFormatters] =
      some "  a=b: c\n" := by
    simp +decide [Expanded, WithFormatters, expanded, expandedMap, expandedMapLoop,
      expandedSlice, expandedSliceLoop, kR1a, hk0, hkb, primitive, call, identityFormatters,
      isComposite, valueAt, List.lookup, containsAny, trimSpace]
  have cR1b : Compact plainColors samplePrintable [("a", .prim (.str "b=c"))]
        [WithFormatters identityFormatters] =
      some "a=b=c" := by
    simp +decide [Compact, WithFormatters, compact, compactMap, compactMapLoop, compactSlice,
      compactSliceLoop, kR1b, hk0, hkb, primitive, call, identityFormatters, isComposite, valueAt,
      List.lookup, containsAny, trimSpace]
  have eR1b : Expanded plainColors samplePrintable [("a", .prim (.str "b=c"))]
        [WithFormatters identityFormatters] =
      some "  a: b=c\n" := by
    simp +decide [Expanded, WithFormatters, expanded, expandedMap, expandedMapLoop,
      expandedSlice, expandedSliceLoop, kR1b, hk0, hkb, primitive, call, identityFormatters,
      isComposite, valueAt, List.lookup, containsAny, trimSpace]
  have cR2a : Compact plainColors samplePrintable [("a: b", .prim (.str "c"))]
        [WithFormatters identityFormatters] =
      some "a: b=c" := by
    simp +decide [Compact, WithFormatters, compact, compactMap, compactMapLoop, compactSlice,
      compactSliceLoop, kR2a, hk0, hkb, primitive, call, identityFormatters, isComposite, valueAt,
      List.lookup, containsAny, trimSpace]
  have eR2a : Expanded plainColors samplePrintable [("a: b", .prim (.str "c"))]
        [WithFormatters identityFormatters] =
      some "  a: b: c\n" := by
    simp +decide [Expanded, WithFormatters, expanded, expandedMap, expandedMapLoop,
      expandedSlice, expandedSliceLoop, kR2a, hk0, hkb, primitive, call, identityFormatters,
      isComposite, valueAt, List.lookup, containsAny, trimSpace]
  have cR2b : Compact plainColors samplePrintable [("a", .prim (.other "b: c"))]
        [WithFormatters identityFormatters] =
      some "a=b: c" := by
    simp +decide [Compact, WithFormatters, compact, compactMap, compactMapLoop, compactSlice,
      compactSliceLoop, kR2b, hk0, hkb, primitive, call, identityFormatters, isComposite, valueAt,
      List.lookup, containsAny, trimSpace]
  have eR2b : Expanded plainColors samplePrintable [("a", .prim (.other "b: c"))]
        [WithFormatters identityFormatters] =
      some "  a: b: c\n" := by
    simp +decide [Expanded, WithFormatters, expanded, expandedMap, expandedMapLoop,
      expandedSlice, expandedSliceLoop, kR2b, hk0, hkb, primitive, call, identityFormatters,
      isComposite, valueAt, List.lookup, containsAny, trimSpace]
  have cR3a : Compact plainColors samplePrintable [("a", .map [("b", .prim (.str "c"))])]
        [WithFormatters identityFormatters] =
      some "a=b=c" := by
    simp +decide [Compact, WithFormatters, compact, compactMap, compactMapLoop, compactSlice,
      compactSliceLoop, kR3a, hk0, hkb, primitive, call, identityFormatters, isComposite, valueAt,
      List.lookup, containsAny, trimSpace]
  have eR3a : Expanded plainColors samplePrintable [("a", .map [("b", .prim (.str "c"))])]
        [WithFormatters identityFormatters] =
      some "  a:\n    b: c\n" := by
    simp +decide [Expanded, WithFormatters, expanded, expandedMap, expandedMapLoop,
      expandedSlice, expandedSliceLoop, kR3a, hk0, hkb, primitive, call, identityFormatters,
      isComposite, valueAt, List.lookup, containsAny, trimSpace]
  have cR4a : Compact plainColors samplePrintable [("a", .list [.prim (.str "x")])]
        [WithFormatters identityFormatters] =
      some "a=[x]" := by
    simp +decide [Compact, WithFormatters, compact, compactMap, compactMapLoop, compactSlice,
      compactSliceLoop, kR4a, hk0, hkb, primitive, call, identityFormatters, isComposite, valueAt,
      List.lookup, containsAny, trimSpace]
  have eR4a : Expanded plainColors samplePrintable [("a", .list [.prim (.str "x")])]
        [WithFormatters identityFormatters] =
      some "  a:\n    - x\n" := by
    simp +decide [Expanded, WithFormatters, expanded, expandedMap, expandedMapLoop,
      expandedSlice, expandedSliceLoop, kR4a, hk0, hkb, primitive, call, identityFormatters,
      isComposite, valueAt, List.lookup, containsAny, trimSpace]
  have cR4b : Compact plainColors samplePrintable [("a", .prim (.str "[x]"))]
        [WithFormatters identityFormatters] =
      some "a=[x]" := by
    simp +decide [Compact, WithFormatters, compact, compactMap, compactMapLoop, compactSlice,
      compactSliceLoop, kR4b, hk0, hkb, primitive, call, identityFormatters, isComposite, valueAt,
      List.lookup, containsAny, trimSpace]
  have eR4b : Expanded plainColors samplePrintable [("a", .prim (.str "[x]"))]
        [WithFormatters identityFormatters] =
      some "  a: [x]\n" := by
    simp +decide [Expanded, WithFormatters, expanded, expandedMap, expandedMapLoop,
      expandedSlice, expandedSliceLoop, kR4b, hk0, hkb, primitive, call, identityFormatters,
      isComposite, valueAt, List.lookup, containsAny, trimSpace]
  have cR5a : Compact plainColors samplePrintable [("a", .map [])]
        [WithFormatters identityFormatters] =
      some "a=" := by
    simp +decide [Compact, WithFormatters, compact, compactMap, compactMapLoop, compactSlice,
      compactSliceLoop, kR5a, hk0, hkb, primitive, call, identityFormatters, isComposite, valueAt,
      List.lookup, containsAny, trimSpace]
  have eR5a : Expanded plainColors samplePrintable [("a", .map [])]
        [WithFormatters identityFormatters] =
      some "  a:\n" := by
    simp +decide [Expanded, WithFormatters, expanded, expandedMap, expandedMapLoop,
      expandedSlice, expandedSliceLoop, kR5a, hk0, hkb, primitive, call, identityFormatters,
      isComposite, valueAt, List.lookup, containsAny, trimSpace]
  have cR5b : Compact plainColors samplePrintable [("a", .list [])]
        [WithFormatters identityFormatters] =
      some "a=[]" := by
    simp +decide [Compact, WithFormatters, compact, compactMap, compactMapLoop, compactSlice,
      compactSliceLoop, kR5b, hk0, hkb, primitive, call, identityFormatters, isComposite, valueAt,
      List.lookup, containsAny, trimSpace]
  have eR5b : Expanded plainColors samplePrintable [("a", .list [])]
        [WithFormatters identityFormatters] =
      some "  a:\n" := by
    simp +decide [Expanded, WithFormatters, expanded, expandedMap, expandedMapLoop,
      expandedSlice, expandedSliceLoop, kR5b, hk0, hkb, primitive, call, identityFormatters,
      isComposite, valueAt, List.lookup, containsAny, trimSpace]
  have cR6a : Compact plainColors samplePrintable [("a", .prim (.str "x b=y"))]
        [WithFormatters identityFormatters] =
      some "a=\"x b=y\"" := by
    simp +decide [Compact, WithFormatters, compact, compactMap, compactMapLoop, compactSlice,
      compactSliceLoop, kR6a, hk0, hkb, hq, call, identityFormatters, isComposite, valueAt,
      List.lookup, containsAny, trimSpace]
  have eR6a : Expanded plainColors samplePrintable [("a", .prim (.str "x b=y"))]
        [WithFormatters identityFormatters] =
      some "  a: \"x b=y\"\n" := by
    simp +decide [Expanded, WithFormatters, expanded, expandedMap, expandedMapLoop,
      expandedSlice, expandedSliceLoop, kR6a, hk0, hkb, hq, call, identityFormatters,
      isComposite, valueAt, List.lookup, containsAny, trimSpace]
  have cR6b : Compact plainColors samplePrintable [("a", .prim (.str "\"x")), ("b", .prim (.str "y\""))]
        [WithFormatters identityFormatters] =
      some "a=\"x b=y\"" := by
    simp +decide [Compact, WithFormatters, compact, compactMap, compactMapLoop, compactSlice,
      compactSliceLoop, kR6b, hk0, hkb, primitive, call, identityFormatters, isComposite, valueAt,
      List.lookup, containsAny, trimSpace]
  have eR6b : Expanded plainColors samplePrintable [("a", .prim (.str "\"x")), ("b", .prim (.str "y\""))]
        [WithFormatters identityFormatters] =
      some "  a: \"x\n  b: y\"\n" := by
    simp +decide [Expanded, WithFormatters, expanded, expandedMap, expandedMapLoop,
      expandedSlice, expandedSliceLoop, kR6b, hk0, hkb, primitive, call, identityFormatters,
      isComposite, valueAt, List.lookup, containsAny, trimSpace]
  have cR7a : Compact plainColors samplePrintable [("a", .prim (.other "x\n  b: y"))]
        [WithFormatters identityFormatters] =
      some "a=x\n  b: y" := by
    simp +decide [Compact, WithFormatters, compact, compactMap, compactMapLoop, compactSlice,
      compactSliceLoop, kR7a, hk0, hkb, primitive, call, identityFormatters, isComposite, valueAt,
      List.lookup, containsAny, trimSpace]
  have eR7a : Expanded plainColors samplePrintable [("a", .prim (.other "x\n  b: y"))]
        [WithFormatters identityFormatters] =
      some "  a: x\n  b: y\n" := by
    simp +decide [Expanded, WithFormatters, expanded, expandedMap, expandedMapLoop,
      expandedSlice, expandedSliceLoop, kR7a, hk0, hkb, primitive, call, identityFormatters,
      isComposite, valueAt, List.lookup, containsAny, trimSpace]
  have cR7b : Compact plainColors samplePrintable [("a", .prim (.str "x")), ("b", .prim (.str "y"))]
        [WithFormatters identityFormatters] =
      some "a=x b=y" := by
    simp +decide [Compact, WithFormatters, compact, compactMap, compactMapLoop, compactSlice,
      compactSliceLoop, kR7b, hk0, hkb, primitive, call, identityFormatters, isComposite, valueAt,
      List.lookup, containsAny, trimSpace]
  have eR7b : Expanded plainColors samplePrintable [("a", .prim (.str "x")), ("b", .prim (.str "y"))]
        [WithFormatters identityFormatters] =
      some "  a: x\n  b: y\n" := by
    simp +decide [Expanded, WithFormatters, expanded, expandedMap, expandedMapLoop,
      expandedSlice, expandedSliceLoop, kR7b, hk0, hkb, primitive, call, identityFormatters,
      isComposite, valueAt, List.lookup, containsAny, trimSpace]
  have cR8a : Compact plainColors samplePrintable [("a", .prim (.other "x b=y"))]
        [WithFormatters identityFormatters] =
      some "a=x b=y" := by
    simp +decide [Compact, WithFormatters, compact, compactMap, compactMapLoop, compactSlice,
      compactSliceLoop, kR8a, hk0, hkb, primitive, call, identityFormatters, isComposite, valueAt,
      List.lookup, containsAny, trimSpace]
  have eR8a : Expanded plainColors samplePrintable [("a", .prim (.other "x b=y"))]
        [WithFormatters identityFormatters] =
      some "  a: x b=y\n" := by
    simp +decide [Expanded, WithFormatters, expanded, expandedMap, expandedMapLoop,
      expandedSlice, expandedSliceLoop, kR8a, hk0, hkb, primitive, call, identityFormatters,
      isComposite, valueAt, List.lookup, containsAny, trimSpace]
  have hf3 : formatFloat 0x4008000000000000 = "3" := by decide
  have kR9a : mapKeys [("level", .prim (.str "info")), ("count", .prim (.num 0x4008000000000000)),
          ("tags", .list [.prim (.str "a"), .prim (.str "b")])] =
      ["count", "level", "tags"] := by decide
  have kR9b : mapKeys [("level", .prim (.str "info")), ("count", .prim (.num 0x4008000000000000)),
          ("tags", .prim (.other "[a, b]"))] =
      ["count", "level", "tags"] := by decide
  have cR9a : Compact plainColors samplePrintable
        [("level", .prim (.str "info")), ("count", .prim (.num 0x4008000000000000)),
          ("tags", .list [.prim (.str "a"), .prim (.str "b")])]
        [WithFormatters identityFormatters] =
      some "count=3 level=info tags=[a, b]" := by
    simp +decide [Compact, WithFormatters, compact, compactMap, compactMapLoop, compactSlice,
      compactSliceLoop, kR9a, primitive, call, identityFormatters, isComposite, valueAt,
      List.lookup, hf3, containsAny, trimSpace]
  have cR9b : Compact plainColors samplePrintable
        [("level", .prim (.str "info")), ("count", .prim (.num 0x4008000000000000)),
          ("tags", .prim (.other "[a, b]"))]
        [WithFormatters identityFormatters] =
      some "count=3 level=info tags=[a, b]" := by
    simp +decide [Compact, WithFormatters, compact, compactMap, compactMapLoop, compactSlice,
      compactSliceLoop, kR9b, primitive, call, identityFormatters, isComposite, valueAt,
      List.lookup, hf3, containsAny, trimSpace]
  have eR9a : Expanded plainColors samplePrintable
        [("level", .prim (.str "info")), ("count", .prim (.num 0x4008000000000000)),
          ("tags", .list [.prim (.str "a"), .prim (.str "b")])]
        [WithFormatters identityFormatters] =
      some "  count: 3\n  level: info\n  tags:\n    - a\n    - b\n" := by
    simp +decide [Expanded, WithFormatters, expanded, expandedMap, expandedMapLoop,
      expandedSlice, expandedSliceLoop, kR9a, primitive, call, identityFormatters,
      isComposite, valueAt, List.lookup, hf3, containsAny, trimSpace]
  have eR9b : Expanded plainColors samplePrintable
        [("level", .prim (.str "info")), ("count", .prim (.num 0x4008000000000000)),
          ("tags", .prim (.other "[a, b]"))]
        [WithFormatters identityFormatters] =
      some "  count: 3\n  level: info\n  tags: [a, b]\n" := by
    simp +decide [Expanded, WithFormatters, expanded, expandedMap, expandedMapLoop,
      expandedSlice, expandedSliceLoop, kR9b, primitive, call, identityFormatters,
      isComposite, valueAt, List.lookup, hf3, containsAny, trimSpace]
  rw [cR1a, eR1a, cR1b, eR1b, cR2a, eR2a, cR2b, eR2b, cR3a, eR3a, cR4a, eR4a, cR4b, eR4b,
    cR5a, eR5a, cR5b, eR5b, cR6a, eR6a, cR6b, eR6b, cR7a, eR7a, cR7b, eR7b, cR8a, eR8a, cR9a, eR9a,
    cR9b, eR9b]
  refine ⟨⟨rfl, by decide⟩, ⟨rfl, by decide⟩, ⟨rfl, by decide⟩, ⟨rfl, by decide⟩,
    ⟨rfl, by decide⟩, ⟨rfl, by decide⟩, ⟨rfl, by decide⟩, ⟨rfl, by decide⟩, ⟨rfl, by decide⟩⟩

/-- The second record of each of the pairs above, the pair of the empty map
and the empty list apart, is flat and unambiguous: what the amended claim
leaves out is what the first records show. -/
theorem flatUnambiguous_examples :
    FlatUnambiguous [("a", .prim (.str "b=c"))] ∧
    FlatUnambiguous [("a", .prim (.other "b: c"))] ∧
    FlatUnambiguous [("a", .prim (.str "[x]"))] ∧
    FlatUnambiguous [("a", .prim (.str "\"x")), ("b", .prim (.str "y\""))] ∧
    FlatUnambiguous [("a", .prim (.str "x")), ("b", .prim (.str "y"))] ∧
    FlatUnambiguous [("level", .prim (.str "info")), ("count", .prim (.num 0x4008000000000000)),
      ("tags", .prim (.other "[a, b]"))] := by
  refine ⟨?_, ?_, ?_, ?_, ?_, ?_⟩
  · intro e he
    simp only [List.mem_singleton] at he
    subst he
    exact ⟨by decide, by decide, _, rfl, Or.inl (by decide)⟩
  · intro e he
    simp only [List.mem_singleton] at he
    subst he
    exact ⟨by decide, by decide, _, rfl, by decide, Or.inr (by decide)⟩
  · intro e he
    simp only [List.mem_singleton] at he
    subst he
    exact ⟨by decide, by decide, _, rfl, Or.inl (by decide)⟩
  · intro e he
    simp only [List.mem_cons, List.mem_singleton, List.not_mem_nil, or_false] at he
    rcases he with rfl | rfl
    · exact ⟨by decide, by decide, _, rfl, Or.inl (by decide)⟩
    · exact ⟨by decide, by decide, _, rfl, Or.inl (by decide)⟩
  · intro e he
    simp only [List.mem_cons, List.mem_singleton, List.not_mem_nil, or_false] at he
    rcases he with rfl | rfl
    · exact ⟨by decide, by decide, _, rfl, Or.inl (by decide)⟩
    · exact ⟨by decide, by decide, _, rfl, Or.inl (by decide)⟩
  · intro e he
    simp only [List.mem_cons, List.mem_singleton, List.not_mem_nil, or_false] at he
    rcases he with rfl | rfl | rfl
    · exact ⟨by decide, by decide, _, rfl, Or.inl (by decide)⟩
    · exact ⟨by decide, by decide, _, rfl, True.intro⟩
    · exact ⟨by decide, by decide, _, rfl, by decide, Or.inr (by decide)⟩

/-- C17, amended: for every two flat records, in which no key contains `=` or
a space and every value is a bool, a number, a date-time, or a string or value
of another type that does not contain a space together with `=` (nor, for a
value of another type, a newline), rendered with a table that has the identity
under each of the nine roles, the compact renderings are equal if and only if
the expanded renderings are equal; and both hold exactly when the two records
have the same keys in ascending order with the same encodings. -/
theorem compact_iff_expanded (colors : Colors) (wide : Char → Bool) (f : Formatters)
    (hf : Defines f identityRoles) (r1 r2 : List (String × Value))
    (h1 : FlatUnambiguous r1) (h2 : FlatUnambiguous r2) :
    (Compact colors wide r1 [WithFormatters f] = Compact colors wide r2 [WithFormatters f] ↔
      Expanded colors wide r1 [WithFormatters f] =
        Expanded colors wide r2 [WithFormatters f]) ∧
    (Compact colors wide r1 [WithFormatters f] = Compact colors wide r2 [WithFormatters f] ↔
      encodedPairs wide r1 = encodedPairs wide r2) := by
  have hc : Compact colors wide r1 [WithFormatters f] =
      Compact colors wide r2 [WithFormatters f] ↔
      encodedPairs wide r1 = encodedPairs wide r2 := by
    rw [compact_flat colors wide f hf r1 h1, compact_flat colors wide f hf r2 h2]
    constructor
    · intro h
      exact intercalate_inj _ _ (encodedPairs_unambiguous wide h1)
        (encodedPairs_unambiguous wide h2) (Option.some.inj h)
    · intro h
      rw [h]
  have he : Expanded colors wide r1 [WithFormatters f] =
      Expanded colors wide r2 [WithFormatters f] ↔
      encodedPairs wide r1 = encodedPairs wide r2 := by
    rw [expanded_flat colors wide f hf r1 h1, expanded_flat colors wide f hf r2 h2]
    constructor
    · intro h
      exact lines_inj _ _ (encodedPairs_unambiguous wide h1)
        (encodedPairs_unambiguous wide h2) (Option.some.inj h)
    · intro h
      rw [h]
  exact ⟨hc.trans he.symm, hc⟩

/-- Witness of C17 as amended: two flat records that list the same three
bindings, a string with a space, a date-time and a number, in different
orders. -/
theorem compact_iff_expanded_witness :
    FlatUnambiguous [("msg", .prim (.str "hello world")), ("at", .prim (.time ⟨1, 2, 15, 4, 5⟩)),
      ("n", .prim (.num 0x4008000000000000))] ∧
    FlatUnambiguous [("n", .prim (.num 0x4008000000000000)),
      ("msg", .prim (.str "hello world")), ("at", .prim (.time ⟨1, 2, 15, 4, 5⟩))] ∧
    ((Compact plainColors samplePrintable [("msg", .prim (.str "hello world")),
          ("at", .prim (.time ⟨1, 2, 15, 4, 5⟩)), ("n", .prim (.num 0x4008000000000000))]
          [WithFormatters identityFormatters] =
        Compact plainColors samplePrintable [("n", .prim (.num 0x4008000000000000)),
          ("msg", .prim (.str "hello world")), ("at", .prim (.time ⟨1, 2, 15, 4, 5⟩))]
          [WithFormatters identityFormatters] ↔
      Expanded plainColors samplePrintable [("msg", .prim (.str "hello world")),
          ("at", .prim (.time ⟨1, 2, 15, 4, 5⟩)), ("n", .prim (.num 0x4008000000000000))]
          [WithFormatters identityFormatters] =
        Expanded plainColors samplePrintable [("n", .prim (.num 0x4008000000000000)),
          ("msg", .prim (.str "hello world")), ("at", .prim (.time ⟨1, 2, 15, 4, 5⟩))]
          [WithFormatters identityFormatters]) ∧
     (Compact plainColors samplePrintable [("msg", .prim (.str "hello world")),
          ("at", .prim (.time ⟨1, 2, 15, 4, 5⟩)), ("n", .prim (.num 0x4008000000000000))]
          [WithFormatters identityFormatters] =
        Compact plainColors samplePrintable [("n", .prim (.num 0x4008000000000000)),
          ("msg", .prim (.str "hello world")), ("at", .prim (.time ⟨1, 2, 15, 4, 5⟩))]
          [WithFormatters identityFormatters] ↔
      encodedPairs samplePrintable [("msg", .prim (.str "hello world")),
          ("at", .prim (.time ⟨1, 2, 15, 4, 5⟩)), ("n", .prim (.num 0x4008000000000000))] =
        encodedPairs samplePrintable [("n", .prim (.num 0x4008000000000000)),
          ("msg", .prim (.str "hello world")), ("at", .prim (.time ⟨1, 2, 15, 4, 5⟩))])) := by
  have hmsg : '=' ∉ ("msg", Value.prim (.str "hello world")).1.data ∧
      ' ' ∉ ("msg", Value.prim (.str "hello world")).1.data ∧
      ∃ p, ("msg", Value.prim (.str "hello world")).2 = .prim p ∧ p.Unambiguous :=
    ⟨by decide, by decide, .str "hello world", rfl, Or.inr (by decide)⟩
  have hat : '=' ∉ ("at", Value.prim (.time ⟨1, 2, 15, 4, 5⟩)).1.data ∧
      ' ' ∉ ("at", Value.prim (.time ⟨1, 2, 15, 4, 5⟩)).1.data ∧
      ∃ p, ("at", Value.prim (.time ⟨1, 2, 15, 4, 5⟩)).2 = .prim p ∧ p.Unambiguous :=
    ⟨by decide, by decide, .time ⟨1, 2, 15, 4, 5⟩, rfl, True.intro⟩
  have hn : '=' ∉ ("n", Value.prim (.num 0x4008000000000000)).1.data ∧
      ' ' ∉ ("n", Value.prim (.num 0x4008000000000000)).1.data ∧
      ∃ p, ("n", Value.prim (.num 0x4008000000000000)).2 = .prim p ∧ p.Unambiguous :=
    ⟨by decide, by decide, .num 0x4008000000000000, rfl, True.intro⟩
  have f1 : FlatUnambiguous [("msg", .prim (.str "hello world")),
      ("at", .prim (.time ⟨1, 2, 15, 4, 5⟩)), ("n", .prim (.num 0x4008000000000000))] := by
    intro e he
    simp only [List.mem_cons, List.mem_singleton, List.not_mem_nil, or_false] at he
    rcases he with rfl | rfl | rfl
    · exact hmsg
    · exact hat
    · exact hn
  have f2 : FlatUnambiguous [("n", .prim (.num 0x4008000000000000)),
      ("msg", .prim (.str "hello world")), ("at", .prim (.time ⟨1, 2, 15, 4, 5⟩))] := by
    intro e he
    simp only [List.mem_cons, List.mem_singleton, List.not_mem_nil, or_false] at he
    rcases he with rfl | rfl | rfl
    · exact hn
    · exact hmsg
    · exact hat
  exact ⟨f1, f2, compact_iff_expanded plainColors samplePrintable identityFormatters
    identity_defines _ _ f1 f2⟩

end Logformat
